import Mathlib

/-!
Verification of the three balanced-search-tree engines of the BST-Benchmark
repository (src/methods/avl_tree.py, src/methods/rb_tree.py,
src/methods/treap_tree.py, with the shared pieces of src/methods/base.py and
src/methods/node.py), shallowly embedded as functional programs over
inductive trees.  Imperative parent-pointer navigation is embedded with
explicit path contexts (zippers); mutation becomes explicit state passing.
Every definition mirrors the corresponding Python method; line numbers in
doc comments refer to the Python sources.
-/

namespace BSTBench

/-- Keys stored by every engine (Python `str`), compared lexicographically. -/
abbrev Key := String

/-! ## Treap engine (src/methods/treap_tree.py)

A treap node stores `value`, `priority` and a `parent` pointer.  Keys are
unique inside a tree, so the parent pointer is embedded as the parent's key
(`none` for the root); the embedding updates this field exactly where the
Python code assigns `node.parent`. -/

inductive Treap where
  | nil : Treap
  | node (left : Treap) (value : Key) (prio : Nat) (par : Option Key) (right : Treap)
deriving Repr, DecidableEq

/-- Priority of a subtree root.  The Python code reads `priority` only on
nodes it knows to be real; the value at `nil` (0) is never relied upon. -/
def Treap.prioOf : Treap → Nat
  | nil => 0
  | node _ _ p _ _ => p

/-- Overwrite the `parent` field of the root node (the `T2.parent = ...`
assignments in the rotation primitives). -/
def Treap.withPar : Treap → Option Key → Treap
  | nil, _ => nil
  | node l v p _ r, q => node l v p q r

def Treap.size : Treap → Nat
  | nil => 0
  | node l _ _ _ r => l.size + r.size + 1

@[simp] theorem Treap.size_withPar (t : Treap) (q : Option Key) :
    (t.withPar q).size = t.size := by
  cases t <;> simp [Treap.withPar, Treap.size]

/-- Result of a rotation primitive: the rotated subtree, and whether the
rotation was actually performed (`false` means the degenerate guard branch
`if x is None: return y` ran, performing and counting nothing). -/
structure TRot where
  t : Treap
  rotated : Bool
deriving Repr, DecidableEq

/-- `Treap._rotate_right` (treap_tree.py:39-97).  Pivot `y`; its left child
`x` is promoted; `T2 = x.right` moves under `y`; parent fields are updated
as in lines 79-82. -/
def trotRight : Treap → TRot
  | .node (.node T1 xv xp _ T2) yv yp ypar T3 =>
      ⟨.node T1 xv xp ypar (.node (T2.withPar (some yv)) yv yp (some xv) T3), true⟩
  | t => ⟨t, false⟩

/-- `Treap._rotate_left` (treap_tree.py:99-157), the mirror image. -/
def trotLeft : Treap → TRot
  | .node T1 xv xp xpar (.node T2 yv yp _ T3) =>
      ⟨.node (.node T1 xv xp (some yv) (T2.withPar (some xv))) yv yp xpar T3, true⟩
  | t => ⟨t, false⟩

/-- Path context recording the ancestors of a focused subtree, innermost
frame first: `inL` means the hole is the left child of a node with the given
fields, whose right child is `sib`; `inR` is the mirror. -/
inductive TCtx where
  | top : TCtx
  | inL (value : Key) (prio : Nat) (par : Option Key) (sib : Treap) (up : TCtx)
  | inR (sib : Treap) (value : Key) (prio : Nat) (par : Option Key) (up : TCtx)

/-- Rebuild the whole tree from a context and the focused subtree. -/
def TCtx.plug : TCtx → Treap → Treap
  | top, t => t
  | inL v p q sib up, t => up.plug (.node t v p q sib)
  | inR sib v p q up, t => up.plug (.node sib v p q t)

/-- The key of the node owning the hole (`None` at the root): what the
Python code stores into a fresh node's `parent` field. -/
def TCtx.parentKey : TCtx → Option Key
  | top => none
  | inL v _ _ _ _ => some v
  | inR _ v _ _ _ => some v

/-- The bubble-up loop of `Treap.insert` (treap_tree.py:200-206): while the
parent exists and has strictly smaller priority than `cur`, rotate the
parent so that `cur` moves up one level.  Returns the whole tree, the
number of rotations performed, and the degenerate-guard flag. -/
def bubbleUp (cur : Treap) : TCtx → Treap × Nat × Bool
  | .top => (cur, 0, false)
  | .inL pv pp pq sib up =>
      if pp < cur.prioOf then
        let r := trotRight (.node cur pv pp pq sib)
        if r.rotated then
          let res := bubbleUp r.t up
          (res.1, res.2.1 + 1, res.2.2)
        else ((TCtx.inL pv pp pq sib up).plug cur, 0, true)
      else ((TCtx.inL pv pp pq sib up).plug cur, 0, false)
  | .inR sib pv pp pq up =>
      if pp < cur.prioOf then
        let r := trotLeft (.node sib pv pp pq cur)
        if r.rotated then
          let res := bubbleUp r.t up
          (res.1, res.2.1 + 1, res.2.2)
        else ((TCtx.inR sib pv pp pq up).plug cur, 0, true)
      else ((TCtx.inR sib pv pp pq up).plug cur, 0, false)

/-- BST descent of `Treap.insert` (treap_tree.py:180-198), accumulating the
path context; `none` signals a duplicate (line 185).  On success the new
leaf (with parent pointer set as in line 191-193) is bubbled up. -/
def treapInsGo : Treap → TCtx → Key → Nat → Option (Treap × Nat × Bool)
  | .nil, ctx, v, p => some (bubbleUp (.node .nil v p ctx.parentKey .nil) ctx)
  | .node l x xp xq r, ctx, v, p =>
      if v = x then none
      else if v < x then treapInsGo l (.inL x xp xq r ctx) v p
      else treapInsGo r (.inR l x xp xq ctx) v p

/-- Per-instance state: root plus the two rotation counters of
`BaseDataStructure.__init__` (base.py:20-21). -/
structure TreapS where
  root : Treap
  rotIns : Nat
  rotDel : Nat
deriving Repr, DecidableEq

/-- `Treap.insert` (treap_tree.py:159-208) with the drawn priority `p` made
an explicit argument.  Returns the new state, the boolean result, the
number of rotations performed, and the degenerate-guard flag. -/
def treapInsert (s : TreapS) (v : Key) (p : Nat) : TreapS × Bool × Nat × Bool :=
  match s.root with
  | .nil => ({ s with root := .node .nil v p none .nil }, true, 0, false)
  | .node l x xp xq r =>
      match treapInsGo (.node l x xp xq r) .top v p with
      | none => (s, false, 0, false)
      | some res =>
          ({ s with root := res.1, rotIns := s.rotIns + res.2.1 }, true, res.2.1, res.2.2)

/-- `Treap.contains` (treap_tree.py:210-232): plain BST descent. -/
def treapContains : Treap → Key → Bool
  | .nil, _ => false
  | .node l x _ _ r, v =>
      if v = x then true else if v < x then treapContains l v else treapContains r v

/-- Direction of a rotation performed by the rotate-down loop. -/
inductive Rot where
  | leftR : Rot
  | rightR : Rot
deriving Repr, DecidableEq

/-- The rotate-down-and-detach phase of `Treap.delete`
(treap_tree.py:258-278), run on the subtree rooted at the target node:
while the target has a child, rotate it down (left if it has no left child,
right if it has no right child, otherwise toward the strictly
higher-priority child, ties going to the left rotation), then detach the
target leaf.  Returns the subtree taking the target's place and the list of
rotation directions in order.  Each step mirrors the corresponding rotation
primitive applied at the target (a fact proved below). -/
def delRotate : Treap → Treap × List Rot
  | .nil => (.nil, [])
  | .node .nil _ _ _ .nil => (.nil, [])
  | .node .nil v p _q (.node T2 yv yp _ T3) =>
      let res := delRotate (.node .nil v p (some yv) (T2.withPar (some v)))
      (.node res.1 yv yp _q T3, .leftR :: res.2)
  | .node (.node T1 xv xp _ T2) v p _q .nil =>
      let res := delRotate (.node (T2.withPar (some v)) v p (some xv) .nil)
      (.node T1 xv xp _q res.1, .rightR :: res.2)
  | .node (.node T1 xv xp xq T2) v p _q (.node U2 yv yp yq U3) =>
      if xp > yp then
        let res := delRotate
          (.node (T2.withPar (some v)) v p (some xv) (.node U2 yv yp yq U3))
        (.node T1 xv xp _q res.1, .rightR :: res.2)
      else
        let res := delRotate
          (.node (.node T1 xv xp xq T2) v p (some yv) (U2.withPar (some v)))
        (.node res.1 yv yp _q U3, .leftR :: res.2)
  termination_by t => t.size
  decreasing_by
    all_goals simp [Treap.size]; omega

/-- The search loop of `Treap.delete` (treap_tree.py:249-256) followed by
the rotate-down phase at the found node.  Returns the new tree, whether the
key was found, and the rotation trace. -/
def treapDelGo : Treap → Key → Treap × Bool × List Rot
  | .nil, _ => (.nil, false, [])
  | .node l x xp xq r, v =>
      if v = x then
        let res := delRotate (.node l x xp xq r)
        (res.1, true, res.2)
      else if v < x then
        let res := treapDelGo l v
        (.node res.1 x xp xq r, res.2.1, res.2.2)
      else
        let res := treapDelGo r v
        (.node l x xp xq res.1, res.2.1, res.2.2)

/-- `Treap.delete` (treap_tree.py:234-279). -/
def treapDelete (s : TreapS) (v : Key) : TreapS × Bool × Nat :=
  let res := treapDelGo s.root v
  if res.2.1 then
    ({ s with root := res.1, rotDel := s.rotDel + res.2.2.length }, true, res.2.2.length)
  else (s, false, 0)

/-- One public operation on a treap instance; `ins` carries the priority
the random source draws for it. -/
inductive TreapOp where
  | ins (v : Key) (p : Nat)
  | del (v : Key)
  | mem (v : Key)
  | reset

/-- Effect of one public call on the instance state (`contains` is pure;
`reset_metrics` is base.py:31-34). -/
def treapStep (s : TreapS) : TreapOp → TreapS
  | .ins v p => (treapInsert s v p).1
  | .del v => (treapDelete s v).1
  | .mem _ => s
  | .reset => { s with rotIns := 0, rotDel := 0 }

/-- States reachable from a freshly constructed empty treap. -/
inductive TreapReach : TreapS → Prop
  | init : TreapReach ⟨.nil, 0, 0⟩
  | step (s : TreapS) (op : TreapOp) : TreapReach s → TreapReach (treapStep s op)

/-- In-order key list. -/
def Treap.keys : Treap → List Key
  | nil => []
  | node l v _ _ r => l.keys ++ v :: r.keys

/-- `b` bounds the root priority (used by `Treap.validate`'s heap checks;
vacuously true at `nil`, matching the `if node.left:` guards). -/
def heapRootLe (b : Nat) : Treap → Bool
  | .nil => true
  | .node _ _ cp _ _ => cp ≤ b

/-- The treap heap invariant checked by `Treap.validate`
(treap_tree.py:306-316): every existing child's priority is at most its
parent's. -/
def Treap.heapB : Treap → Bool
  | nil => true
  | node l _ p _ r => heapRootLe p l && heapRootLe p r && l.heapB && r.heapB

/-- Parent-pointer consistency: every node's stored parent key is the key
of its actual parent (`expect` is the key of the node owning this subtree,
`none` at the root), as `Treap.validate` checks via `node.left.parent is
node` (treap_tree.py:311,316). -/
def Treap.parB : Treap → Option Key → Bool
  | nil, _ => true
  | node l v _ q r, expect => (q = expect) && l.parB (some v) && r.parB (some v)

/-- All keys of the subtree satisfy `f`. -/
def Treap.allB (f : Key → Bool) : Treap → Bool
  | nil => true
  | node l v _ _ r => f v && l.allB f && r.allB f

/-- Full BST ordering (every key in the left subtree below the node's key,
every key in the right subtree above), as `Treap.validate` checks with its
min/max window (treap_tree.py:296-305). -/
def Treap.bstB : Treap → Bool
  | nil => true
  | node l v _ _ r =>
      l.allB (fun k => decide (k < v)) && r.allB (fun k => decide (v < k)) &&
        l.bstB && r.bstB

/-! ## The abstract model: a sorted list of the currently present keys -/

/-- Insert a key into a sorted list at its sorted position. -/
def insSorted (v : Key) : List Key → List Key
  | [] => [v]
  | x :: xs => if v < x then v :: x :: xs else x :: insSorted v xs

theorem mem_insSorted (v a : Key) (m : List Key) :
    a ∈ insSorted v m ↔ a = v ∨ a ∈ m := by
  induction m with
  | nil => simp [insSorted]
  | cons x xs ih =>
      by_cases h : v < x <;> simp [insSorted, h, ih] <;> tauto

theorem insSorted_pairwise (v : Key) (m : List Key)
    (hm : m.Pairwise (· < ·)) (hv : v ∉ m) :
    (insSorted v m).Pairwise (· < ·) := by
  induction m with
  | nil => simp [insSorted]
  | cons x xs ih =>
      rcases List.pairwise_cons.mp hm with ⟨hx, hxs⟩
      simp only [List.mem_cons, not_or] at hv
      by_cases h : v < x
      · simp only [insSorted, h, if_true]
        refine List.pairwise_cons.mpr ⟨?_, hm⟩
        intro b hb
        rcases List.mem_cons.mp hb with rfl | hb
        · exact h
        · exact lt_trans h (hx b hb)
      · have hxv : x < v := lt_of_le_of_ne (not_lt.mp h) (Ne.symm hv.1)
        simp only [insSorted, h, if_false]
        refine List.pairwise_cons.mpr ⟨?_, ih hxs hv.2⟩
        intro b hb
        rcases (mem_insSorted v b xs).mp hb with rfl | hb
        · exact hxv
        · exact hx b hb

theorem insSorted_append_lt (v x : Key) (A B : List Key) (h : v < x) :
    insSorted v (A ++ x :: B) = insSorted v A ++ x :: B := by
  induction A with
  | nil => simp [insSorted, h]
  | cons a A ih => by_cases ha : v < a <;> simp [insSorted, ha, ih]

theorem insSorted_append_ge (v : Key) (A B : List Key)
    (h : ∀ a ∈ A, a < v) : insSorted v (A ++ B) = A ++ insSorted v B := by
  induction A with
  | nil => simp
  | cons a A ih =>
      have hav : ¬ v < a := not_lt.mpr (le_of_lt (h a (by simp)))
      have ih2 := ih (fun a ha => h a (by simp [ha]))
      simp only [List.cons_append, insSorted, hav, if_false]
      exact congrArg _ ih2

theorem erase_sorted_middle (v : Key) (A B : List Key)
    (h : ∀ a ∈ A, a < v) : (A ++ v :: B).erase v = A ++ B := by
  have hv : v ∉ A := fun hm => lt_irrefl v (h v hm)
  rw [List.erase_append_right _ hv, List.erase_cons_head]

/-! ## Treap: keys and ordering -/

@[simp] theorem Treap.keys_withPar (t : Treap) (q : Option Key) :
    (t.withPar q).keys = t.keys := by
  cases t <;> simp [Treap.withPar, Treap.keys]

@[simp] theorem Treap.prioOf_withPar (t : Treap) (q : Option Key) :
    (t.withPar q).prioOf = t.prioOf := by
  cases t <;> simp [Treap.withPar, Treap.prioOf]

/-- Keys contributed by the context strictly to the left of the hole. -/
def TCtx.keysL : TCtx → List Key
  | top => []
  | inL _ _ _ _ up => up.keysL
  | inR sib v _ _ up => up.keysL ++ sib.keys ++ [v]

/-- Keys contributed by the context strictly to the right of the hole. -/
def TCtx.keysR : TCtx → List Key
  | top => []
  | inL v _ _ sib up => v :: sib.keys ++ up.keysR
  | inR _ _ _ _ up => up.keysR

theorem keys_plug (ctx : TCtx) (t : Treap) :
    (ctx.plug t).keys = ctx.keysL ++ t.keys ++ ctx.keysR := by
  induction ctx generalizing t with
  | top => simp [TCtx.plug, TCtx.keysL, TCtx.keysR]
  | inL v p q sib up ih =>
      simp [TCtx.plug, TCtx.keysL, TCtx.keysR, ih, Treap.keys]
  | inR sib v p q up ih =>
      simp [TCtx.plug, TCtx.keysL, TCtx.keysR, ih, Treap.keys]

theorem bubbleUp_keys (ctx : TCtx) (cur : Treap) :
    (bubbleUp cur ctx).1.keys = ctx.keysL ++ cur.keys ++ ctx.keysR := by
  induction ctx generalizing cur with
  | top => simp [bubbleUp, TCtx.keysL, TCtx.keysR]
  | inL pv pp pq sib up ih =>
      cases cur with
      | nil => simp [bubbleUp, Treap.prioOf, keys_plug, TCtx.keysL, TCtx.keysR]
      | node cl cv cp cpar cr =>
          by_cases h : pp < cp
          · simp [bubbleUp, Treap.prioOf, h, trotRight, ih, Treap.keys,
              TCtx.keysL, TCtx.keysR]
          · simp [bubbleUp, Treap.prioOf, h, keys_plug, TCtx.keysL, TCtx.keysR]
  | inR sib pv pp pq up ih =>
      cases cur with
      | nil => simp [bubbleUp, Treap.prioOf, keys_plug, TCtx.keysL, TCtx.keysR]
      | node cl cv cp cpar cr =>
          by_cases h : pp < cp
          · simp [bubbleUp, Treap.prioOf, h, trotLeft, ih, Treap.keys,
              TCtx.keysL, TCtx.keysR]
          · simp [bubbleUp, Treap.prioOf, h, keys_plug, TCtx.keysL, TCtx.keysR]

theorem treap_allB_iff (f : Key → Bool) (t : Treap) :
    t.allB f = true ↔ ∀ k ∈ t.keys, f k = true := by
  induction t with
  | nil => simp [Treap.allB, Treap.keys]
  | node l v p q r ihl ihr =>
      simp only [Treap.allB, Treap.keys, Bool.and_eq_true, ihl, ihr]
      constructor
      · rintro ⟨⟨hv, hl⟩, hr⟩ k hk
        rcases List.mem_append.mp hk with hk | hk
        · exact hl k hk
        · rcases List.mem_cons.mp hk with rfl | hk
          · exact hv
          · exact hr k hk
      · intro h
        exact ⟨⟨h v (by simp), fun k hk => h k (by simp [hk])⟩,
          fun k hk => h k (by simp [hk])⟩

theorem treap_bstB_iff (t : Treap) :
    t.bstB = true ↔ t.keys.Pairwise (· < ·) := by
  induction t with
  | nil => simp [Treap.bstB, Treap.keys]
  | node l v p q r ihl ihr =>
      simp only [Treap.bstB, Bool.and_eq_true, Treap.keys, List.pairwise_append,
        List.pairwise_cons, ihl, ihr, treap_allB_iff, decide_eq_true_eq]
      constructor
      · rintro ⟨⟨⟨hl, hr⟩, hbl⟩, hbr⟩
        refine ⟨hbl, ⟨fun b hb => hr b hb, hbr⟩, ?_⟩
        intro a ha b hb
        rcases List.mem_cons.mp hb with rfl | hb
        · exact hl a ha
        · exact lt_trans (hl a ha) (hr b hb)
      · rintro ⟨hbl, ⟨hv, hbr⟩, hcross⟩
        exact ⟨⟨⟨fun a ha => hcross a ha v (by simp),
          fun b hb => hv b hb⟩, hbl⟩, hbr⟩

theorem treapContains_iff (t : Treap) (v : Key) (hb : t.bstB = true) :
    treapContains t v = true ↔ v ∈ t.keys := by
  induction t with
  | nil => simp [treapContains, Treap.keys]
  | node l x xp xq r ihl ihr =>
      simp only [Treap.bstB, Bool.and_eq_true, treap_allB_iff,
        decide_eq_true_eq] at hb
      obtain ⟨⟨⟨hl, hr⟩, hbl⟩, hbr⟩ := hb
      by_cases hvx : v = x
      · subst hvx; simp [treapContains, Treap.keys]
      · by_cases hlt : v < x
        · rw [treapContains]
          simp only [hvx, if_false, hlt, if_true, ihl hbl, Treap.keys,
            List.mem_append, List.mem_cons]
          constructor
          · exact fun h => Or.inl h
          · rintro (h | h | h)
            · exact h
            · exact h.elim
            · exact absurd (lt_trans hlt (hr v h)) (lt_irrefl v)
        · rw [treapContains]
          simp only [hvx, if_false, hlt, ihr hbr, Treap.keys,
            List.mem_append, List.mem_cons]
          constructor
          · exact fun h => Or.inr (Or.inr h)
          · rintro (h | h | h)
            · exact absurd (hl v h) hlt
            · exact h.elim
            · exact h

theorem treapInsGo_none_iff (t : Treap) (ctx : TCtx) (v : Key) (p : Nat) :
    treapInsGo t ctx v p = none ↔ treapContains t v = true := by
  induction t generalizing ctx with
  | nil => simp [treapInsGo, treapContains]
  | node l x xp xq r ihl ihr =>
      by_cases hvx : v = x
      · simp [treapInsGo, treapContains, hvx]
      · by_cases hlt : v < x <;>
          simp [treapInsGo, treapContains, hvx, hlt, ihl, ihr]

theorem treapInsGo_keys (t : Treap) (ctx : TCtx) (v : Key) (p : Nat)
    (hb : t.bstB = true) (res : Treap × Nat × Bool)
    (h : treapInsGo t ctx v p = some res) :
    res.1.keys = ctx.keysL ++ insSorted v t.keys ++ ctx.keysR := by
  induction t generalizing ctx with
  | nil =>
      simp only [treapInsGo, Option.some_inj] at h
      subst h
      simp [bubbleUp_keys, Treap.keys, insSorted]
  | node l x xp xq r ihl ihr =>
      simp only [Treap.bstB, Bool.and_eq_true, treap_allB_iff,
        decide_eq_true_eq] at hb
      obtain ⟨⟨⟨hl, hr⟩, hbl⟩, hbr⟩ := hb
      by_cases hvx : v = x
      · simp [treapInsGo, hvx] at h
      · by_cases hlt : v < x
        · simp only [treapInsGo, hvx, if_false, hlt, if_true] at h
          have := ihl (.inL x xp xq r ctx) hbl h
          rw [this]
          simp [TCtx.keysL, TCtx.keysR, Treap.keys,
            insSorted_append_lt v x l.keys r.keys hlt]
        · simp only [treapInsGo, hvx, if_false, hlt] at h
          have := ihr (.inR l x xp xq ctx) hbr h
          rw [this]
          have hxv : x < v := lt_of_le_of_ne (not_lt.mp hlt) (Ne.symm hvx)
          have hins : insSorted v (l.keys ++ x :: r.keys)
              = l.keys ++ x :: insSorted v r.keys := by
            have : insSorted v ((l.keys ++ [x]) ++ r.keys)
                = (l.keys ++ [x]) ++ insSorted v r.keys := by
              refine insSorted_append_ge v _ _ ?_
              intro a ha
              rcases List.mem_append.mp ha with ha | ha
              · exact lt_trans (hl a ha) hxv
              · rcases List.mem_singleton.mp ha with rfl
                exact hxv
            simpa using this
          simp [TCtx.keysL, TCtx.keysR, Treap.keys, hins]

theorem delRotate_keys (l : Treap) (v : Key) (p : Nat) (q : Option Key)
    (r : Treap) : (delRotate (.node l v p q r)).1.keys = l.keys ++ r.keys := by
  generalize hsz : (Treap.node l v p q r).size = n
  induction n using Nat.strong_induction_on generalizing l v p q r with
  | _ n ih =>
      subst hsz
      cases l with
      | nil =>
          cases r with
          | nil => simp [delRotate, Treap.keys]
          | node T2 yv yp yq T3 =>
              rw [delRotate]
              have := ih _ (by simp [Treap.size]; omega) .nil v p (some yv)
                (T2.withPar (some v)) rfl
              simp [this, Treap.keys]
      | node T1 xv xp xq T2 =>
          cases r with
          | nil =>
              rw [delRotate]
              have := ih _ (by simp [Treap.size]; omega) (T2.withPar (some v))
                v p (some xv) .nil rfl
              simp [this, Treap.keys]
          | node U2 yv yp yq U3 =>
              rw [delRotate]
              by_cases h : xp > yp
              · have := ih _ (by simp [Treap.size]; omega) (T2.withPar (some v))
                  v p (some xv) (.node U2 yv yp yq U3) rfl
                simp [h, this, Treap.keys]
              · have := ih _ (by simp [Treap.size]; omega)
                  (.node T1 xv xp xq T2) v p (some yv) (U2.withPar (some v)) rfl
                simp [h, this, Treap.keys]

theorem treapDelGo_found (t : Treap) (v : Key) :
    (treapDelGo t v).2.1 = treapContains t v := by
  induction t with
  | nil => simp [treapDelGo, treapContains]
  | node l x xp xq r ihl ihr =>
      by_cases hvx : v = x
      · simp [treapDelGo, treapContains, hvx]
      · by_cases hlt : v < x <;> simp [treapDelGo, treapContains, hvx, hlt, ihl, ihr]

theorem treapDelGo_not_found (t : Treap) (v : Key)
    (h : treapContains t v = false) : (treapDelGo t v).1 = t := by
  induction t with
  | nil => simp [treapDelGo]
  | node l x xp xq r ihl ihr =>
      rw [treapContains] at h
      by_cases hvx : v = x
      · simp [hvx] at h
      · by_cases hlt : v < x
        · simp only [hvx, if_false, hlt, if_true] at h
          simp [treapDelGo, hvx, hlt, ihl h]
        · simp only [hvx, if_false, hlt] at h
          simp [treapDelGo, hvx, hlt, ihr h]

theorem treapDelGo_keys (t : Treap) (v : Key) (hb : t.bstB = true) :
    (treapDelGo t v).1.keys = t.keys.erase v := by
  induction t with
  | nil => simp [treapDelGo, Treap.keys]
  | node l x xp xq r ihl ihr =>
      simp only [Treap.bstB, Bool.and_eq_true, treap_allB_iff,
        decide_eq_true_eq] at hb
      obtain ⟨⟨⟨hl, hr⟩, hbl⟩, hbr⟩ := hb
      by_cases hvx : v = x
      · subst hvx
        rw [treapDelGo]
        simp only [if_true, Treap.keys]
        rw [delRotate_keys, erase_sorted_middle v l.keys r.keys hl]
      · by_cases hlt : v < x
        · have hvr : v ∉ r.keys := fun hm =>
            absurd (lt_trans hlt (hr v hm)) (lt_irrefl v)
          rw [treapDelGo]
          simp only [hvx, if_false, hlt, if_true, Treap.keys, ihl hbl]
          have hxv2 : ¬(x == v) := by
            simp only [beq_iff_eq]
            exact fun he => hvx he.symm
          by_cases hvl : v ∈ l.keys
          · rw [List.erase_append_left _ hvl]
          · rw [List.erase_of_not_mem hvl, List.erase_append_right _ hvl,
              List.erase_cons_tail hxv2, List.erase_of_not_mem hvr]
        · have hvl : v ∉ l.keys := fun hm => absurd (hl v hm) hlt
          have hxv2 : ¬(x == v) := by
            simp only [beq_iff_eq]
            exact fun he => hvx he.symm
          rw [treapDelGo]
          simp only [hvx, if_false, hlt, Treap.keys, ihr hbr]
          rw [List.erase_append_right _ hvl, List.erase_cons_tail hxv2]

/-! ## Treap: heap invariant -/

theorem heapRootLe_iff (b : Nat) (t : Treap) :
    heapRootLe b t = true ↔ t.prioOf ≤ b := by
  cases t <;> simp [heapRootLe, Treap.prioOf]

@[simp] theorem Treap.heapB_withPar (t : Treap) (q : Option Key) :
    (t.withPar q).heapB = t.heapB := by
  cases t <;> simp [Treap.withPar, Treap.heapB]

/-- The innermost frame of the context bounds `p` (trivially true at the
top, where there is no parent). -/
def ctxPrioLe : TCtx → Nat → Bool
  | .top, _ => true
  | .inL _ pp _ _ _, p => p ≤ pp
  | .inR _ _ pp _ _, p => p ≤ pp

/-- Heap validity of a context: every frame's sibling subtree is a heap
bounded by the frame's priority, and frame priorities grow upward. -/
def TCtx.heapCtxB : TCtx → Bool
  | top => true
  | inL _ p _ sib up => heapRootLe p sib && sib.heapB && ctxPrioLe up p && up.heapCtxB
  | inR sib _ p _ up => heapRootLe p sib && sib.heapB && ctxPrioLe up p && up.heapCtxB

/-- Both children of the focus are bounded by the innermost frame. -/
def ctxChildLe (ctx : TCtx) : Treap → Bool
  | .nil => true
  | .node cl _ _ _ cr => ctxPrioLe ctx cl.prioOf && ctxPrioLe ctx cr.prioOf

theorem ctxPrioLe_of_le (ctx : TCtx) (a b : Nat) (hab : a ≤ b)
    (h : ctxPrioLe ctx b = true) : ctxPrioLe ctx a = true := by
  cases ctx <;> simp [ctxPrioLe] at h ⊢ <;> omega

theorem ctxPrioLe_zero (ctx : TCtx) : ctxPrioLe ctx 0 = true := by
  cases ctx <;> simp [ctxPrioLe]

theorem plug_heap (ctx : TCtx) (cur : Treap) (hc : ctx.heapCtxB = true)
    (hcur : cur.heapB = true) (hp : ctxPrioLe ctx cur.prioOf = true) :
    (ctx.plug cur).heapB = true := by
  induction ctx generalizing cur with
  | top => simpa [TCtx.plug] using hcur
  | inL v p q sib up ih =>
      simp only [TCtx.heapCtxB, Bool.and_eq_true] at hc
      obtain ⟨⟨⟨h1, h2⟩, h3⟩, h4⟩ := hc
      refine ih _ h4 ?_ (by simpa [Treap.prioOf] using h3)
      simp only [Treap.heapB, Bool.and_eq_true]
      exact ⟨⟨⟨(heapRootLe_iff _ _).mpr (by simpa [ctxPrioLe] using hp), h1⟩,
        hcur⟩, h2⟩
  | inR sib v p q up ih =>
      simp only [TCtx.heapCtxB, Bool.and_eq_true] at hc
      obtain ⟨⟨⟨h1, h2⟩, h3⟩, h4⟩ := hc
      refine ih _ h4 ?_ (by simpa [Treap.prioOf] using h3)
      simp only [Treap.heapB, Bool.and_eq_true]
      exact ⟨⟨⟨h1, (heapRootLe_iff _ _).mpr (by simpa [ctxPrioLe] using hp)⟩,
        h2⟩, hcur⟩

theorem bubbleUp_heap (ctx : TCtx) (cur : Treap) (hc : ctx.heapCtxB = true)
    (hcur : cur.heapB = true) (hch : ctxChildLe ctx cur = true) :
    (bubbleUp cur ctx).1.heapB = true := by
  induction ctx generalizing cur with
  | top => simpa [bubbleUp] using hcur
  | inL pv pp pq sib up ih =>
      simp only [TCtx.heapCtxB, Bool.and_eq_true] at hc
      obtain ⟨⟨⟨h1, h2⟩, h3⟩, h4⟩ := hc
      cases cur with
      | nil =>
          simp only [bubbleUp, Treap.prioOf, Nat.not_lt_zero, if_false]
          exact plug_heap _ _ (by simp [TCtx.heapCtxB, h1, h2, h3, h4]) hcur
            (by simp [ctxPrioLe, Treap.prioOf])
      | node cl cv cp cpar cr =>
          simp only [Treap.heapB, Bool.and_eq_true] at hcur
          obtain ⟨⟨⟨hc1, hc2⟩, hc3⟩, hc4⟩ := hcur
          simp only [ctxChildLe, ctxPrioLe, Bool.and_eq_true,
            decide_eq_true_eq] at hch
          by_cases h : pp < cp
          · simp only [bubbleUp, Treap.prioOf, h, if_true, trotRight]
            refine ih _ h4 ?_ ?_
            · simp only [Treap.heapB, Bool.and_eq_true, Treap.heapB_withPar]
              refine ⟨⟨⟨hc1, (heapRootLe_iff _ _).mpr (le_of_lt h)⟩, hc3⟩, ?_⟩
              exact ⟨⟨⟨(heapRootLe_iff _ _).mpr
                (by simpa using hch.2), h1⟩, by simpa using hc4⟩, h2⟩
            · simp only [ctxChildLe, Bool.and_eq_true, Treap.prioOf]
              exact ⟨ctxPrioLe_of_le up _ pp hch.1 h3, h3⟩
          · simp only [bubbleUp, Treap.prioOf, h, if_false]
            refine plug_heap _ _ (by simp [TCtx.heapCtxB, h1, h2, h3, h4]) ?_
              (by simp [ctxPrioLe, Treap.prioOf]; omega)
            simp only [Treap.heapB, Bool.and_eq_true]
            exact ⟨⟨⟨hc1, hc2⟩, hc3⟩, hc4⟩
  | inR sib pv pp pq up ih =>
      simp only [TCtx.heapCtxB, Bool.and_eq_true] at hc
      obtain ⟨⟨⟨h1, h2⟩, h3⟩, h4⟩ := hc
      cases cur with
      | nil =>
          simp only [bubbleUp, Treap.prioOf, Nat.not_lt_zero, if_false]
          exact plug_heap _ _ (by simp [TCtx.heapCtxB, h1, h2, h3, h4]) hcur
            (by simp [ctxPrioLe, Treap.prioOf])
      | node cl cv cp cpar cr =>
          simp only [Treap.heapB, Bool.and_eq_true] at hcur
          obtain ⟨⟨⟨hc1, hc2⟩, hc3⟩, hc4⟩ := hcur
          simp only [ctxChildLe, ctxPrioLe, Bool.and_eq_true,
            decide_eq_true_eq] at hch
          by_cases h : pp < cp
          · simp only [bubbleUp, Treap.prioOf, h, if_true, trotLeft]
            refine ih _ h4 ?_ ?_
            · simp only [Treap.heapB, Bool.and_eq_true, Treap.heapB_withPar]
              refine ⟨⟨⟨(heapRootLe_iff _ _).mpr (le_of_lt h), hc2⟩, ?_⟩, hc4⟩
              exact ⟨⟨⟨h1, (heapRootLe_iff _ _).mpr
                (by simpa using hch.1)⟩, h2⟩, by simpa using hc3⟩
            · simp only [ctxChildLe, Bool.and_eq_true, Treap.prioOf]
              exact ⟨h3, ctxPrioLe_of_le up _ pp hch.2 h3⟩
          · simp only [bubbleUp, Treap.prioOf, h, if_false]
            refine plug_heap _ _ (by simp [TCtx.heapCtxB, h1, h2, h3, h4]) ?_
              (by simp [ctxPrioLe, Treap.prioOf]; omega)
            simp only [Treap.heapB, Bool.and_eq_true]
            exact ⟨⟨⟨hc1, hc2⟩, hc3⟩, hc4⟩

theorem treapInsGo_heap (t : Treap) (ctx : TCtx) (v : Key) (p : Nat)
    (ht : t.heapB = true) (hc : ctx.heapCtxB = true)
    (hp : ctxPrioLe ctx t.prioOf = true) (res : Treap × Nat × Bool)
    (h : treapInsGo t ctx v p = some res) : res.1.heapB = true := by
  induction t generalizing ctx with
  | nil =>
      simp only [treapInsGo, Option.some_inj] at h
      subst h
      refine bubbleUp_heap ctx _ hc (by simp [Treap.heapB, heapRootLe]) ?_
      simp [ctxChildLe, Treap.prioOf, ctxPrioLe_zero]
  | node l x xp xq r ihl ihr =>
      simp only [Treap.heapB, Bool.and_eq_true] at ht
      obtain ⟨⟨⟨h1, h2⟩, h3⟩, h4⟩ := ht
      simp only [Treap.prioOf] at hp
      by_cases hvx : v = x
      · simp [treapInsGo, hvx] at h
      · by_cases hlt : v < x
        · simp only [treapInsGo, hvx, if_false, hlt, if_true] at h
          exact ihl (.inL x xp xq r ctx) h3
            (by simp [TCtx.heapCtxB, h2, h4, hp, hc])
            (by simpa [ctxPrioLe] using (heapRootLe_iff _ _).mp h1) h
        · simp only [treapInsGo, hvx, if_false, hlt] at h
          exact ihr (.inR l x xp xq ctx) h4
            (by simp [TCtx.heapCtxB, h1, h3, hp, hc])
            (by simpa [ctxPrioLe] using (heapRootLe_iff _ _).mp h2) h

theorem delRotate_heap (b : Nat) (l : Treap) (v : Key) (p : Nat)
    (q : Option Key) (r : Treap) (hl : l.heapB = true) (hr : r.heapB = true)
    (hbl : l.prioOf ≤ b) (hbr : r.prioOf ≤ b) :
    (delRotate (.node l v p q r)).1.heapB = true ∧
      (delRotate (.node l v p q r)).1.prioOf ≤ b := by
  generalize hsz : (Treap.node l v p q r).size = n
  induction n using Nat.strong_induction_on generalizing b l v p q r with
  | _ n ih =>
      subst hsz
      cases l with
      | nil =>
          cases r with
          | nil => simp [delRotate, Treap.heapB, Treap.prioOf]
          | node T2 yv yp yq T3 =>
              simp only [Treap.heapB, Bool.and_eq_true] at hr
              obtain ⟨⟨⟨hr1, hr2⟩, hr3⟩, hr4⟩ := hr
              rw [delRotate]
              have := ih _ (by simp [Treap.size]; omega) yp .nil v p (some yv)
                (T2.withPar (some v)) (by simp [Treap.heapB])
                (by simpa using hr3) (by simp [Treap.prioOf])
                (by simpa [heapRootLe_iff] using hr1) rfl
              simp only [Treap.heapB, Bool.and_eq_true, Treap.prioOf]
              refine ⟨⟨⟨⟨(heapRootLe_iff _ _).mpr this.2, hr2⟩, this.1⟩, hr4⟩, ?_⟩
              simpa [Treap.prioOf] using hbr
      | node T1 xv xp xq T2 =>
          simp only [Treap.heapB, Bool.and_eq_true] at hl
          obtain ⟨⟨⟨hl1, hl2⟩, hl3⟩, hl4⟩ := hl
          cases r with
          | nil =>
              rw [delRotate]
              have := ih _ (by simp [Treap.size]; omega) xp (T2.withPar (some v))
                v p (some xv) .nil (by simpa using hl4) (by simp [Treap.heapB])
                (by simpa [heapRootLe_iff] using hl2) (by simp [Treap.prioOf])
                rfl
              simp only [Treap.heapB, Bool.and_eq_true, Treap.prioOf]
              refine ⟨⟨⟨⟨hl1, (heapRootLe_iff _ _).mpr this.2⟩, hl3⟩, this.1⟩, ?_⟩
              simpa [Treap.prioOf] using hbl
          | node U2 yv yp yq U3 =>
              simp only [Treap.heapB, Bool.and_eq_true] at hr
              obtain ⟨⟨⟨hr1, hr2⟩, hr3⟩, hr4⟩ := hr
              rw [delRotate]
              by_cases h : xp > yp
              · have := ih _ (by simp [Treap.size]; omega) xp
                  (T2.withPar (some v)) v p (some xv) (.node U2 yv yp yq U3)
                  (by simpa using hl4)
                  (by simp only [Treap.heapB, Bool.and_eq_true]
                      exact ⟨⟨⟨hr1, hr2⟩, hr3⟩, hr4⟩)
                  (by simpa [heapRootLe_iff] using hl2)
                  (by simp [Treap.prioOf]; omega) rfl
                simp only [h, if_true, Treap.heapB, Bool.and_eq_true,
                  Treap.prioOf]
                refine ⟨⟨⟨⟨hl1, (heapRootLe_iff _ _).mpr this.2⟩, hl3⟩,
                  this.1⟩, ?_⟩
                simpa [Treap.prioOf] using hbl
              · have := ih _ (by simp [Treap.size]; omega) yp
                  (.node T1 xv xp xq T2) v p (some yv) (U2.withPar (some v))
                  (by simp only [Treap.heapB, Bool.and_eq_true]
                      exact ⟨⟨⟨hl1, hl2⟩, hl3⟩, hl4⟩)
                  (by simpa using hr3)
                  (by simp [Treap.prioOf]; omega)
                  (by simpa [heapRootLe_iff] using hr1) rfl
                simp only [h, if_false, Treap.heapB, Bool.and_eq_true,
                  Treap.prioOf]
                refine ⟨⟨⟨⟨(heapRootLe_iff _ _).mpr this.2, hr2⟩, this.1⟩,
                  hr4⟩, ?_⟩
                simpa [Treap.prioOf] using hbr

theorem treapDelGo_heap (t : Treap) (v : Key) (b : Nat)
    (ht : t.heapB = true) (hb : t.prioOf ≤ b) :
    (treapDelGo t v).1.heapB = true ∧ (treapDelGo t v).1.prioOf ≤ b := by
  induction t generalizing b with
  | nil => simpa [treapDelGo, Treap.heapB, Treap.prioOf] using Nat.zero_le b
  | node l x xp xq r ihl ihr =>
      simp only [Treap.heapB, Bool.and_eq_true] at ht
      obtain ⟨⟨⟨h1, h2⟩, h3⟩, h4⟩ := ht
      simp only [Treap.prioOf] at hb
      by_cases hvx : v = x
      · rw [treapDelGo]
        simp only [hvx, if_true]
        exact delRotate_heap b l x xp xq r h3 h4
          (le_trans ((heapRootLe_iff _ _).mp h1) hb)
          (le_trans ((heapRootLe_iff _ _).mp h2) hb)
      · by_cases hlt : v < x
        · rw [treapDelGo]
          simp only [hvx, if_false, hlt, if_true]
          have := ihl xp h3 ((heapRootLe_iff _ _).mp h1)
          simp only [Treap.heapB, Bool.and_eq_true, Treap.prioOf]
          exact ⟨⟨⟨⟨(heapRootLe_iff _ _).mpr this.2, h2⟩, this.1⟩, h4⟩, hb⟩
        · rw [treapDelGo]
          simp only [hvx, if_false, hlt]
          have := ihr xp h4 ((heapRootLe_iff _ _).mp h2)
          simp only [Treap.heapB, Bool.and_eq_true, Treap.prioOf]
          exact ⟨⟨⟨⟨h1, (heapRootLe_iff _ _).mpr this.2⟩, h3⟩, this.1⟩, hb⟩

/-! ## Treap: parent-pointer consistency -/

theorem Treap.parB_withPar (t : Treap) (e q : Option Key)
    (h : t.parB e = true) : (t.withPar q).parB q = true := by
  cases t with
  | nil => simp [Treap.withPar, Treap.parB]
  | node l v p q0 r =>
      simp only [Treap.parB, Bool.and_eq_true] at h ⊢
      exact ⟨⟨by simp, h.1.2⟩, h.2⟩

/-- Parent-pointer validity of a context: every frame node's stored parent
key is the key of the enclosing frame, and its sibling subtree has
consistent parent pointers hanging from the frame node. -/
def TCtx.parCtxB : TCtx → Bool
  | top => true
  | inL v _ q sib up => (q = up.parentKey) && sib.parB (some v) && up.parCtxB
  | inR sib v _ q up => (q = up.parentKey) && sib.parB (some v) && up.parCtxB

theorem plug_par (ctx : TCtx) (cur : Treap) (hc : ctx.parCtxB = true)
    (hcur : cur.parB ctx.parentKey = true) :
    (ctx.plug cur).parB none = true := by
  induction ctx generalizing cur with
  | top => simpa [TCtx.plug, TCtx.parentKey] using hcur
  | inL v p q sib up ih =>
      simp only [TCtx.parCtxB, Bool.and_eq_true, decide_eq_true_eq] at hc
      obtain ⟨⟨h1, h2⟩, h3⟩ := hc
      refine ih _ h3 ?_
      simp only [Treap.parB, Bool.and_eq_true, decide_eq_true_eq]
      exact ⟨⟨h1, by simpa [TCtx.parentKey] using hcur⟩, h2⟩
  | inR sib v p q up ih =>
      simp only [TCtx.parCtxB, Bool.and_eq_true, decide_eq_true_eq] at hc
      obtain ⟨⟨h1, h2⟩, h3⟩ := hc
      refine ih _ h3 ?_
      simp only [Treap.parB, Bool.and_eq_true, decide_eq_true_eq]
      exact ⟨⟨h1, h2⟩, by simpa [TCtx.parentKey] using hcur⟩

theorem bubbleUp_par (ctx : TCtx) (cur : Treap) (hc : ctx.parCtxB = true)
    (hcur : cur.parB ctx.parentKey = true) :
    (bubbleUp cur ctx).1.parB none = true := by
  induction ctx generalizing cur with
  | top => simpa [bubbleUp, TCtx.parentKey] using hcur
  | inL pv pp pq sib up ih =>
      simp only [TCtx.parCtxB, Bool.and_eq_true, decide_eq_true_eq] at hc
      obtain ⟨⟨h1, h2⟩, h3⟩ := hc
      cases cur with
      | nil =>
          simp only [bubbleUp, Treap.prioOf, Nat.not_lt_zero, if_false]
          exact plug_par _ _ (by simp [TCtx.parCtxB, h1, h2, h3]) hcur
      | node cl cv cp cpar cr =>
          simp only [TCtx.parentKey, Treap.parB, Bool.and_eq_true,
            decide_eq_true_eq] at hcur
          obtain ⟨⟨hp1, hp2⟩, hp3⟩ := hcur
          by_cases h : pp < cp
          · simp only [bubbleUp, Treap.prioOf, h, if_true, trotRight]
            refine ih _ h3 ?_
            simp only [Treap.parB, Bool.and_eq_true, decide_eq_true_eq]
            exact ⟨⟨h1, hp2⟩, ⟨⟨trivial, Treap.parB_withPar cr (some cv) _ hp3⟩, h2⟩⟩
          · simp only [bubbleUp, Treap.prioOf, h, if_false]
            refine plug_par _ _ (by simp [TCtx.parCtxB, h1, h2, h3]) ?_
            simp only [TCtx.parentKey, Treap.parB, Bool.and_eq_true,
              decide_eq_true_eq]
            exact ⟨⟨hp1, hp2⟩, hp3⟩
  | inR sib pv pp pq up ih =>
      simp only [TCtx.parCtxB, Bool.and_eq_true, decide_eq_true_eq] at hc
      obtain ⟨⟨h1, h2⟩, h3⟩ := hc
      cases cur with
      | nil =>
          simp only [bubbleUp, Treap.prioOf, Nat.not_lt_zero, if_false]
          exact plug_par _ _ (by simp [TCtx.parCtxB, h1, h2, h3]) hcur
      | node cl cv cp cpar cr =>
          simp only [TCtx.parentKey, Treap.parB, Bool.and_eq_true,
            decide_eq_true_eq] at hcur
          obtain ⟨⟨hp1, hp2⟩, hp3⟩ := hcur
          by_cases h : pp < cp
          · simp only [bubbleUp, Treap.prioOf, h, if_true, trotLeft]
            refine ih _ h3 ?_
            simp only [Treap.parB, Bool.and_eq_true, decide_eq_true_eq]
            exact ⟨⟨h1, ⟨⟨trivial, h2⟩, Treap.parB_withPar cl (some cv) _ hp2⟩⟩, hp3⟩
          · simp only [bubbleUp, Treap.prioOf, h, if_false]
            refine plug_par _ _ (by simp [TCtx.parCtxB, h1, h2, h3]) ?_
            simp only [TCtx.parentKey, Treap.parB, Bool.and_eq_true,
              decide_eq_true_eq]
            exact ⟨⟨hp1, hp2⟩, hp3⟩

theorem treapInsGo_par (t : Treap) (ctx : TCtx) (v : Key) (p : Nat)
    (ht : t.parB ctx.parentKey = true) (hc : ctx.parCtxB = true)
    (res : Treap × Nat × Bool) (h : treapInsGo t ctx v p = some res) :
    res.1.parB none = true := by
  induction t generalizing ctx with
  | nil =>
      simp only [treapInsGo, Option.some_inj] at h
      subst h
      exact bubbleUp_par ctx _ hc (by simp [Treap.parB])
  | node l x xp xq r ihl ihr =>
      simp only [Treap.parB, Bool.and_eq_true, decide_eq_true_eq] at ht
      obtain ⟨⟨h1, h2⟩, h3⟩ := ht
      by_cases hvx : v = x
      · simp [treapInsGo, hvx] at h
      · by_cases hlt : v < x
        · simp only [treapInsGo, hvx, if_false, hlt, if_true] at h
          exact ihl (.inL x xp xq r ctx)
            (by simpa [TCtx.parentKey] using h2)
            (by simp [TCtx.parCtxB, h1, h3, hc]) h
        · simp only [treapInsGo, hvx, if_false, hlt] at h
          exact ihr (.inR l x xp xq ctx)
            (by simpa [TCtx.parentKey] using h3)
            (by simp [TCtx.parCtxB, h1, h2, hc]) h

theorem delRotate_par (l : Treap) (v : Key) (p : Nat) (q : Option Key)
    (r : Treap) (hl : l.parB (some v) = true) (hr : r.parB (some v) = true) :
    (delRotate (.node l v p q r)).1.parB q = true := by
  generalize hsz : (Treap.node l v p q r).size = n
  induction n using Nat.strong_induction_on generalizing l v p q r with
  | _ n ih =>
      subst hsz
      cases l with
      | nil =>
          cases r with
          | nil => simp [delRotate, Treap.parB]
          | node T2 yv yp yq T3 =>
              simp only [Treap.parB, Bool.and_eq_true, decide_eq_true_eq] at hr
              obtain ⟨⟨hr1, hr2⟩, hr3⟩ := hr
              rw [delRotate]
              have := ih _ (by simp [Treap.size]; omega) .nil v p (some yv)
                (T2.withPar (some v)) (by simp [Treap.parB])
                (Treap.parB_withPar T2 (some yv) _ hr2) rfl
              simp only [Treap.parB, Bool.and_eq_true, decide_eq_true_eq]
              exact ⟨⟨trivial, this⟩, hr3⟩
      | node T1 xv xp xq T2 =>
          simp only [Treap.parB, Bool.and_eq_true, decide_eq_true_eq] at hl
          obtain ⟨⟨hl1, hl2⟩, hl3⟩ := hl
          cases r with
          | nil =>
              rw [delRotate]
              have := ih _ (by simp [Treap.size]; omega) (T2.withPar (some v))
                v p (some xv) .nil (Treap.parB_withPar T2 (some xv) _ hl3)
                (by simp [Treap.parB]) rfl
              simp only [Treap.parB, Bool.and_eq_true, decide_eq_true_eq]
              exact ⟨⟨trivial, hl2⟩, this⟩
          | node U2 yv yp yq U3 =>
              simp only [Treap.parB, Bool.and_eq_true, decide_eq_true_eq] at hr
              obtain ⟨⟨hr1, hr2⟩, hr3⟩ := hr
              rw [delRotate]
              by_cases h : xp > yp
              · have := ih _ (by simp [Treap.size]; omega) (T2.withPar (some v))
                  v p (some xv) (.node U2 yv yp yq U3)
                  (Treap.parB_withPar T2 (some xv) _ hl3)
                  (by simp only [Treap.parB, Bool.and_eq_true,
                        decide_eq_true_eq]
                      exact ⟨⟨hr1, hr2⟩, hr3⟩) rfl
                simp only [h, if_true, Treap.parB, Bool.and_eq_true,
                  decide_eq_true_eq]
                exact ⟨⟨trivial, hl2⟩, this⟩
              · have := ih _ (by simp [Treap.size]; omega)
                  (.node T1 xv xp xq T2) v p (some yv) (U2.withPar (some v))
                  (by simp only [Treap.parB, Bool.and_eq_true,
                        decide_eq_true_eq]
                      exact ⟨⟨hl1, hl2⟩, hl3⟩)
                  (Treap.parB_withPar U2 (some yv) _ hr2) rfl
                simp only [h, if_false, Treap.parB, Bool.and_eq_true,
                  decide_eq_true_eq]
                exact ⟨⟨trivial, this⟩, hr3⟩

theorem treapDelGo_par (t : Treap) (v : Key) (e : Option Key)
    (ht : t.parB e = true) : (treapDelGo t v).1.parB e = true := by
  induction t generalizing e with
  | nil => simpa [treapDelGo] using ht
  | node l x xp xq r ihl ihr =>
      simp only [Treap.parB, Bool.and_eq_true, decide_eq_true_eq] at ht
      obtain ⟨⟨h1, h2⟩, h3⟩ := ht
      by_cases hvx : v = x
      · rw [treapDelGo]
        simp only [hvx, if_true]
        rw [← h1]
        exact delRotate_par l x xp xq r h2 h3
      · by_cases hlt : v < x
        · rw [treapDelGo]
          simp only [hvx, if_false, hlt, if_true, Treap.parB,
            Bool.and_eq_true, decide_eq_true_eq]
          exact ⟨⟨h1, ihl _ h2⟩, h3⟩
        · rw [treapDelGo]
          simp only [hvx, if_false, hlt, Treap.parB, Bool.and_eq_true,
            decide_eq_true_eq]
          exact ⟨⟨h1, h2⟩, ihr _ h3⟩

/-! ## Treap: the combined invariant over reachable states -/

/-- The three structural invariants of a treap instance, as checked by
`Treap.validate` (treap_tree.py:281-321). -/
def TreapInv (s : TreapS) : Prop :=
  s.root.bstB = true ∧ s.root.heapB = true ∧ s.root.parB none = true

theorem treapInsert_inv (s : TreapS) (v : Key) (p : Nat) (hs : TreapInv s) :
    TreapInv (treapInsert s v p).1 := by
  obtain ⟨hb, hh, hp⟩ := hs
  cases hroot : s.root with
  | nil => simp [treapInsert, hroot, TreapInv, Treap.bstB, Treap.allB,
      Treap.heapB, heapRootLe, Treap.parB]
  | node l x xp xq r =>
      rw [hroot] at hb hh hp
      cases hgo : treapInsGo (.node l x xp xq r) .top v p with
      | none =>
          simp only [treapInsert, hroot, hgo]
          exact ⟨by rw [hroot]; exact hb, by rw [hroot]; exact hh,
            by rw [hroot]; exact hp⟩
      | some res =>
          simp only [treapInsert, hroot, hgo]
          have hnotmem : v ∉ (Treap.node l x xp xq r).keys := by
            intro hm
            have := (treapContains_iff _ v hb).mpr hm
            rw [← treapInsGo_none_iff _ .top v p] at this
            rw [hgo] at this
            exact Option.noConfusion this
          refine ⟨?_, ?_, ?_⟩
          · rw [treap_bstB_iff]
            have hk := treapInsGo_keys _ .top v p hb res hgo
            simp only [TCtx.keysL, TCtx.keysR, List.append_nil,
              List.nil_append] at hk
            rw [hk]
            exact insSorted_pairwise v _ ((treap_bstB_iff _).mp hb) hnotmem
          · exact treapInsGo_heap _ .top v p hh rfl (by simp [ctxPrioLe])
              res hgo
          · exact treapInsGo_par _ .top v p (by simpa [TCtx.parentKey] using hp)
              rfl res hgo

theorem treapDelete_inv (s : TreapS) (v : Key) (hs : TreapInv s) :
    TreapInv (treapDelete s v).1 := by
  obtain ⟨hb, hh, hp⟩ := hs
  cases hf : (treapDelGo s.root v).2.1 with
  | false =>
      simp only [treapDelete, hf, Bool.false_eq_true, if_false]
      exact ⟨hb, hh, hp⟩
  | true =>
      simp only [treapDelete, hf, if_true]
      refine ⟨?_, ?_, ?_⟩
      · rw [treap_bstB_iff, treapDelGo_keys _ v hb]
        exact ((treap_bstB_iff _).mp hb).sublist (List.erase_sublist _ _)
      · exact (treapDelGo_heap s.root v s.root.prioOf hh le_rfl).1
      · exact treapDelGo_par s.root v none hp

theorem treapStep_inv (s : TreapS) (op : TreapOp) (hs : TreapInv s) :
    TreapInv (treapStep s op) := by
  cases op with
  | ins v p => exact treapInsert_inv s v p hs
  | del v => exact treapDelete_inv s v hs
  | mem v => exact hs
  | reset => exact hs

theorem treapReach_inv (s : TreapS) (h : TreapReach s) : TreapInv s := by
  induction h with
  | init => exact ⟨rfl, rfl, rfl⟩
  | step s op _ ih => exact treapStep_inv s op ih

/-! ## Treap: runs against the abstract sorted-list model -/

/-- Abstract effect of one operation on the sorted list of present keys. -/
def treapModelStep (m : List Key) : TreapOp → List Key
  | .ins v _ => if v ∈ m then m else insSorted v m
  | .del v => m.erase v
  | .mem _ => m
  | .reset => m

/-- The sorted list of currently present keys after a sequence of calls. -/
def treapModel (ops : List TreapOp) : List Key :=
  ops.foldl treapModelStep []

/-- Run a sequence of public calls on a freshly constructed treap. -/
def treapRun (ops : List TreapOp) : TreapS :=
  ops.foldl treapStep ⟨.nil, 0, 0⟩

theorem treapStep_keys (s : TreapS) (op : TreapOp) (hs : TreapInv s) :
    (treapStep s op).root.keys = treapModelStep s.root.keys op := by
  obtain ⟨hb, hh, hp⟩ := hs
  cases op with
  | ins v p =>
      cases hroot : s.root with
      | nil =>
          simp [treapStep, treapInsert, hroot, treapModelStep, Treap.keys,
            insSorted]
      | node l x xp xq r =>
          rw [hroot] at hb
          cases hgo : treapInsGo (.node l x xp xq r) .top v p with
          | none =>
              have hc : treapContains (.node l x xp xq r) v = true :=
                (treapInsGo_none_iff _ .top v p).mp hgo
              have hm : v ∈ (Treap.node l x xp xq r).keys :=
                (treapContains_iff _ v hb).mp hc
              simp [treapStep, treapInsert, hroot, hgo, treapModelStep, hm]
          | some res =>
              have hc : ¬ treapContains (.node l x xp xq r) v = true := by
                rw [← treapInsGo_none_iff _ .top v p, hgo]
                simp
              have hm : v ∉ (Treap.node l x xp xq r).keys :=
                fun h => hc ((treapContains_iff _ v hb).mpr h)
              have hk := treapInsGo_keys _ .top v p hb res hgo
              simp only [TCtx.keysL, TCtx.keysR, List.append_nil,
                List.nil_append] at hk
              simp [treapStep, treapInsert, hroot, hgo, treapModelStep, hm, hk]
  | del v =>
      cases hf : (treapDelGo s.root v).2.1 with
      | false =>
          have hc : treapContains s.root v = false := by
            rw [← treapDelGo_found]; exact hf
          have hm : v ∉ s.root.keys :=
            fun h => by simp [(treapContains_iff _ v hb).mpr h] at hc
          simp [treapStep, treapDelete, hf, treapModelStep,
            List.erase_of_not_mem hm]
      | true =>
          simp [treapStep, treapDelete, hf, treapModelStep,
            treapDelGo_keys s.root v hb]
  | mem v => rfl
  | reset => rfl

theorem treap_foldl_model (ops : List TreapOp) (s : TreapS) (m : List Key)
    (hs : TreapInv s) (hm : s.root.keys = m) :
    TreapInv (ops.foldl treapStep s) ∧
      (ops.foldl treapStep s).root.keys = ops.foldl treapModelStep m := by
  induction ops generalizing s m with
  | nil => exact ⟨hs, by simpa using hm⟩
  | cons op ops ih =>
      have h1 := treapStep_inv s op hs
      have h2 := treapStep_keys s op hs
      simp only [List.foldl_cons]
      exact ih (treapStep s op) (treapModelStep m op) h1 (by rw [h2, hm])

theorem treapRun_keys (ops : List TreapOp) :
    (treapRun ops).root.keys = treapModel ops ∧
      (treapModel ops).Pairwise (· < ·) := by
  have h := treap_foldl_model ops ⟨.nil, 0, 0⟩ [] ⟨rfl, rfl, rfl⟩ rfl
  refine ⟨h.2, ?_⟩
  have := (treap_bstB_iff _).mp h.1.1
  rwa [h.2] at this

/-! ## Treap: duplicate insert and absent delete are pure no-ops -/

theorem treapInsert_dup (s : TreapS) (v : Key) (p : Nat)
    (h : treapContains s.root v = true) :
    treapInsert s v p = (s, false, 0, false) := by
  cases hroot : s.root with
  | nil => rw [hroot] at h; simp [treapContains] at h
  | node l x xp xq r =>
      rw [hroot] at h
      have hgo : treapInsGo (.node l x xp xq r) .top v p = none :=
        (treapInsGo_none_iff _ .top v p).mpr h
      simp [treapInsert, hroot, hgo]

theorem treapDelete_absent (s : TreapS) (v : Key)
    (h : treapContains s.root v = false) :
    treapDelete s v = (s, false, 0) := by
  have hf : (treapDelGo s.root v).2.1 = false := by
    rw [treapDelGo_found]; exact h
  simp [treapDelete, hf]

/-! ## Treap: rotation counters -/

theorem treapInsert_counters (s : TreapS) (v : Key) (p : Nat) :
    (treapInsert s v p).1.rotDel = s.rotDel ∧
      (treapInsert s v p).1.rotIns = s.rotIns + (treapInsert s v p).2.2.1 := by
  cases hroot : s.root with
  | nil => simp [treapInsert, hroot]
  | node l x xp xq r =>
      cases hgo : treapInsGo (.node l x xp xq r) .top v p with
      | none => simp [treapInsert, hroot, hgo]
      | some res => simp [treapInsert, hroot, hgo]

theorem treapDelete_counters (s : TreapS) (v : Key) :
    (treapDelete s v).1.rotIns = s.rotIns ∧
      (treapDelete s v).1.rotDel = s.rotDel + (treapDelete s v).2.2 := by
  cases hf : (treapDelGo s.root v).2.1 with
  | false => simp [treapDelete, hf]
  | true => simp [treapDelete, hf]

/-! ## Treap: the degenerate rotation guards are never taken -/

theorem bubbleUp_guard (ctx : TCtx) (cur : Treap) :
    (bubbleUp cur ctx).2.2 = false := by
  induction ctx generalizing cur with
  | top => simp [bubbleUp]
  | inL pv pp pq sib up ih =>
      cases cur with
      | nil => simp [bubbleUp, Treap.prioOf]
      | node cl cv cp cpar cr =>
          by_cases h : pp < cp <;>
            simp [bubbleUp, Treap.prioOf, h, trotRight, ih]
  | inR sib pv pp pq up ih =>
      cases cur with
      | nil => simp [bubbleUp, Treap.prioOf]
      | node cl cv cp cpar cr =>
          by_cases h : pp < cp <;>
            simp [bubbleUp, Treap.prioOf, h, trotLeft, ih]

theorem treapInsGo_guard (t : Treap) (ctx : TCtx) (v : Key) (p : Nat)
    (res : Treap × Nat × Bool) (h : treapInsGo t ctx v p = some res) :
    res.2.2 = false := by
  induction t generalizing ctx with
  | nil =>
      simp only [treapInsGo, Option.some_inj] at h
      rw [← h]
      exact bubbleUp_guard ctx _
  | node l x xp xq r ihl ihr =>
      by_cases hvx : v = x
      · simp [treapInsGo, hvx] at h
      · by_cases hlt : v < x
        · simp only [treapInsGo, hvx, if_false, hlt, if_true] at h
          exact ihl _ h
        · simp only [treapInsGo, hvx, if_false, hlt] at h
          exact ihr _ h

theorem treapInsert_guard (s : TreapS) (v : Key) (p : Nat) :
    (treapInsert s v p).2.2.2 = false := by
  cases hroot : s.root with
  | nil => simp [treapInsert, hroot]
  | node l x xp xq r =>
      cases hgo : treapInsGo (.node l x xp xq r) .top v p with
      | none => simp [treapInsert, hroot, hgo]
      | some res =>
          simp only [treapInsert, hroot, hgo]
          exact treapInsGo_guard _ _ v p res hgo

/-! ## AVL engine (src/methods/avl_tree.py)

An AVL node stores `value`, its creation identity `id` (standing for the
Python object's identity, so that physical node removal versus in-place
value overwrite is observable), and the stored `height` field.  Parent
pointers are only used by the Python code to walk upward; the recursive
embedding performs the same per-ancestor work on the way out of the
recursion. -/

inductive AVL where
  | nil : AVL
  | node (left : AVL) (value : Key) (id : Nat) (ht : Nat) (right : AVL)
deriving Repr, DecidableEq

/-- `AVLTree._get_height` (avl_tree.py:33-47): the stored height, 0 for
`None`. -/
def AVL.hOf : AVL → Nat
  | nil => 0
  | node _ _ _ h _ => h

/-- `AVLTree._update_height` (avl_tree.py:49-65): recompute the root's
height field from the children's stored heights. -/
def updHeight : AVL → AVL
  | .nil => .nil
  | .node l v id _ r => .node l v id (1 + max l.hOf r.hOf) r

/-- `AVLTree._get_balance` (avl_tree.py:67-89): stored left height minus
stored right height. -/
def getBal : AVL → Int
  | .nil => 0
  | .node l _ _ _ r => (l.hOf : Int) - r.hOf

/-- Result of an AVL rotation primitive (tree, performed flag as for the
treap: `false` means the `if x is None` guard returned the pivot
unchanged without counting). -/
structure ARot where
  t : AVL
  rotated : Bool
deriving Repr, DecidableEq

/-- `AVLTree._rotate_right` (avl_tree.py:91-163), heights updated for `y`
then `x` exactly as in lines 153-155. -/
def arotRight : AVL → ARot
  | .node (.node T1 xv xid xh T2) yv yid _ T3 =>
      ⟨.node T1 xv xid
        (1 + max T1.hOf (1 + max T2.hOf T3.hOf))
        (.node T2 yv yid (1 + max T2.hOf T3.hOf) T3), true⟩
  | t => ⟨t, false⟩

/-- `AVLTree._rotate_left` (avl_tree.py:165-237), the mirror image. -/
def arotLeft : AVL → ARot
  | .node T1 xv xid _ (.node T2 yv yid yh T3) =>
      ⟨.node (.node T1 xv xid (1 + max T1.hOf T2.hOf) T2) yv yid
        (1 + max (1 + max T1.hOf T2.hOf) T3.hOf) T3, true⟩
  | t => ⟨t, false⟩

/-- The rebalancing block run at each ancestor, identical in
`AVLTree.insert` (avl_tree.py:283-305) and `_delete_node`
(avl_tree.py:394-411): update the height, then LL/LR/RR/RL rotation
cases.  Returns the new subtree, the number of rotations performed, and
the degenerate-guard flag. -/
def rebalA (t : AVL) : AVL × Nat × Bool :=
  let t1 := updHeight t
  let b := getBal t1
  if b > 1 then
    match t1 with
    | .node l v id h r =>
        if getBal l < 0 then
          let r1 := arotLeft l
          let r2 := arotRight (.node r1.t v id h r)
          (r2.t, (if r1.rotated then 1 else 0) + (if r2.rotated then 1 else 0),
            !(r1.rotated && r2.rotated))
        else
          let r2 := arotRight t1
          (r2.t, if r2.rotated then 1 else 0, !r2.rotated)
    | .nil => (t1, 0, false)
  else if b < -1 then
    match t1 with
    | .node l v id h r =>
        if getBal r > 0 then
          let r1 := arotRight r
          let r2 := arotLeft (.node l v id h r1.t)
          (r2.t, (if r1.rotated then 1 else 0) + (if r2.rotated then 1 else 0),
            !(r1.rotated && r2.rotated))
        else
          let r2 := arotLeft t1
          (r2.t, if r2.rotated then 1 else 0, !r2.rotated)
    | .nil => (t1, 0, false)
  else (t1, 0, false)

/-- `AVLTree.insert`'s BST descent plus walk-up rebalancing
(avl_tree.py:239-307), as a recursion performing the same per-ancestor
height update and rebalance on the way out; `nid` is the identity of the
node created for `v`.  Returns (tree, inserted, rotations, guard). -/
def avlInsGo : AVL → Key → Nat → AVL × Bool × Nat × Bool
  | .nil, v, nid => (.node .nil v nid 1 .nil, true, 0, false)
  | .node l x id h r, v, nid =>
      if v = x then (.node l x id h r, false, 0, false)
      else if v < x then
        let res := avlInsGo l v nid
        if res.2.1 then
          let rb := rebalA (.node res.1 x id h r)
          (rb.1, true, res.2.2.1 + rb.2.1, res.2.2.2 || rb.2.2)
        else (.node l x id h r, false, 0, false)
      else
        let res := avlInsGo r v nid
        if res.2.1 then
          let rb := rebalA (.node l x id h res.1)
          (rb.1, true, res.2.2.1 + rb.2.1, res.2.2.2 || rb.2.2)
        else (.node l x id h r, false, 0, false)

/-- `AVLTree.contains` (avl_tree.py:309-335). -/
def avlContains : AVL → Key → Bool
  | .nil, _ => false
  | .node l x _ _ r, v =>
      if v = x then true else if v < x then avlContains l v else avlContains r v

/-- The successor search of `_delete_node` (avl_tree.py:384-386): value of
the leftmost node.  Only ever called on a non-empty subtree. -/
def avlMinVal : AVL → Key
  | .nil => ""
  | .node .nil v _ _ _ => v
  | .node (.node a b c d e) _ _ _ _ => avlMinVal (.node a b c d e)

/-- `AVLTree.delete`'s recursive `_delete_node` (avl_tree.py:362-412).
The two-children case overwrites the node's value with the in-order
successor's (keeping the node's identity) and deletes the successor from
the right subtree; the at-most-one-child case returns the replacement
directly (lines 376-381), skipping the rebalance block. -/
def avlDelGo : AVL → Key → AVL × Nat × Bool
  | .nil, _ => (.nil, 0, false)
  | .node l x id h r, v =>
      if v < x then
        let res := avlDelGo l v
        let rb := rebalA (.node res.1 x id h r)
        (rb.1, res.2.1 + rb.2.1, res.2.2 || rb.2.2)
      else if x < v then
        let res := avlDelGo r v
        let rb := rebalA (.node l x id h res.1)
        (rb.1, res.2.1 + rb.2.1, res.2.2 || rb.2.2)
      else
        if l = .nil then (r, 0, false)
        else if r = .nil then (l, 0, false)
        else
          let sv := avlMinVal r
          let res := avlDelGo r sv
          let rb := rebalA (.node l sv id h res.1)
          (rb.1, res.2.1 + rb.2.1, res.2.2 || rb.2.2)

/-- Per-instance AVL state; `nextId` is the identity the next created node
receives. -/
structure AVLS where
  root : AVL
  nextId : Nat
  rotIns : Nat
  rotDel : Nat
deriving Repr, DecidableEq

/-- `AVLTree.insert` (avl_tree.py:239-307). -/
def avlInsert (s : AVLS) (v : Key) : AVLS × Bool × Nat × Bool :=
  match s.root with
  | .nil =>
      ({ s with root := .node .nil v s.nextId 1 .nil, nextId := s.nextId + 1 },
        true, 0, false)
  | .node l x id h r =>
      let res := avlInsGo (.node l x id h r) v s.nextId
      if res.2.1 then
        ({ s with
            root := res.1
            nextId := s.nextId + 1
            rotIns := s.rotIns + res.2.2.1 }, true, res.2.2.1, res.2.2.2)
      else (s, false, 0, false)

/-- `AVLTree.delete` (avl_tree.py:337-422): an explicit `contains` check,
then the recursive deletion. -/
def avlDelete (s : AVLS) (v : Key) : AVLS × Bool × Nat × Bool :=
  if avlContains s.root v then
    let res := avlDelGo s.root v
    ({ s with root := res.1, rotDel := s.rotDel + res.2.1 }, true, res.2.1,
      res.2.2)
  else (s, false, 0, false)

/-- One public operation on an AVL instance. -/
inductive AVLOp where
  | ins (v : Key)
  | del (v : Key)
  | mem (v : Key)
  | reset

def avlStep (s : AVLS) : AVLOp → AVLS
  | .ins v => (avlInsert s v).1
  | .del v => (avlDelete s v).1
  | .mem _ => s
  | .reset => { s with rotIns := 0, rotDel := 0 }

inductive AVLReach : AVLS → Prop
  | init : AVLReach ⟨.nil, 0, 0, 0⟩
  | step (s : AVLS) (op : AVLOp) : AVLReach s → AVLReach (avlStep s op)

/-- In-order key list. -/
def AVL.keys : AVL → List Key
  | nil => []
  | node l v _ _ r => l.keys ++ v :: r.keys

/-- In-order (identity, value) pairs: the physical nodes of the tree. -/
def AVL.pairs : AVL → List (Nat × Key)
  | nil => []
  | node l v id _ r => l.pairs ++ (id, v) :: r.pairs

def AVL.allB (f : Key → Bool) : AVL → Bool
  | nil => true
  | node l v _ _ r => f v && l.allB f && r.allB f

/-- Full BST ordering (left subtree strictly below, right strictly above,
recursively). -/
def AVL.bstB : AVL → Bool
  | nil => true
  | node l v _ _ r =>
      l.allB (fun k => decide (k < v)) && r.allB (fun k => decide (v < k)) &&
        l.bstB && r.bstB

/-- Recomputed (true) height. -/
def AVL.realH : AVL → Nat
  | nil => 0
  | node l _ _ _ r => 1 + max l.realH r.realH

/-- The AVL invariant: every stored height equals one plus the larger child
height, and every balance factor lies in -1..1. -/
def AVL.avlB : AVL → Bool
  | nil => true
  | node l _ _ h r =>
      (h = 1 + max l.hOf r.hOf) && (r.hOf ≤ l.hOf + 1) && (l.hOf ≤ r.hOf + 1)
        && l.avlB && r.avlB

/-! ## AVL: keys, ordering, membership -/

theorem avl_allB_iff (f : Key → Bool) (t : AVL) :
    t.allB f = true ↔ ∀ k ∈ t.keys, f k = true := by
  induction t with
  | nil => simp [AVL.allB, AVL.keys]
  | node l v id h r ihl ihr =>
      simp only [AVL.allB, AVL.keys, Bool.and_eq_true, ihl, ihr]
      constructor
      · rintro ⟨⟨hv, hl⟩, hr⟩ k hk
        rcases List.mem_append.mp hk with hk | hk
        · exact hl k hk
        · rcases List.mem_cons.mp hk with rfl | hk
          · exact hv
          · exact hr k hk
      · intro h2
        exact ⟨⟨h2 v (by simp), fun k hk => h2 k (by simp [hk])⟩,
          fun k hk => h2 k (by simp [hk])⟩

theorem avl_bstB_iff (t : AVL) :
    t.bstB = true ↔ t.keys.Pairwise (· < ·) := by
  induction t with
  | nil => simp [AVL.bstB, AVL.keys]
  | node l v id h r ihl ihr =>
      simp only [AVL.bstB, Bool.and_eq_true, AVL.keys, List.pairwise_append,
        List.pairwise_cons, ihl, ihr, avl_allB_iff, decide_eq_true_eq]
      constructor
      · rintro ⟨⟨⟨hl, hr⟩, hbl⟩, hbr⟩
        refine ⟨hbl, ⟨fun b hb => hr b hb, hbr⟩, ?_⟩
        intro a ha b hb
        rcases List.mem_cons.mp hb with rfl | hb
        · exact hl a ha
        · exact lt_trans (hl a ha) (hr b hb)
      · rintro ⟨hbl, ⟨hv, hbr⟩, hcross⟩
        exact ⟨⟨⟨fun a ha => hcross a ha v (by simp),
          fun b hb => hv b hb⟩, hbl⟩, hbr⟩

theorem avlContains_iff (t : AVL) (v : Key) (hb : t.bstB = true) :
    avlContains t v = true ↔ v ∈ t.keys := by
  induction t with
  | nil => simp [avlContains, AVL.keys]
  | node l x id h r ihl ihr =>
      simp only [AVL.bstB, Bool.and_eq_true, avl_allB_iff,
        decide_eq_true_eq] at hb
      obtain ⟨⟨⟨hl, hr⟩, hbl⟩, hbr⟩ := hb
      by_cases hvx : v = x
      · subst hvx; simp [avlContains, AVL.keys]
      · by_cases hlt : v < x
        · rw [avlContains]
          simp only [hvx, if_false, hlt, if_true, ihl hbl, AVL.keys,
            List.mem_append, List.mem_cons]
          constructor
          · exact fun h2 => Or.inl h2
          · rintro (h2 | h2 | h2)
            · exact h2
            · exact h2.elim
            · exact absurd (lt_trans hlt (hr v h2)) (lt_irrefl v)
        · rw [avlContains]
          simp only [hvx, if_false, hlt, ihr hbr, AVL.keys,
            List.mem_append, List.mem_cons]
          constructor
          · exact fun h2 => Or.inr (Or.inr h2)
          · rintro (h2 | h2 | h2)
            · exact absurd (hl v h2) hlt
            · exact h2.elim
            · exact h2

/-! ## AVL: rotations and rebalancing preserve the in-order contents -/

theorem arotRight_keys (t : AVL) : (arotRight t).t.keys = t.keys := by
  cases t with
  | nil => rfl
  | node l v id h r =>
      cases l with
      | nil => rfl
      | node T1 xv xid xh T2 => simp [arotRight, AVL.keys]

theorem arotLeft_keys (t : AVL) : (arotLeft t).t.keys = t.keys := by
  cases t with
  | nil => rfl
  | node l v id h r =>
      cases r with
      | nil => rfl
      | node T2 yv yid yh T3 => simp [arotLeft, AVL.keys]

theorem arotRight_pairs (t : AVL) : (arotRight t).t.pairs = t.pairs := by
  cases t with
  | nil => rfl
  | node l v id h r =>
      cases l with
      | nil => rfl
      | node T1 xv xid xh T2 => simp [arotRight, AVL.pairs]

theorem arotLeft_pairs (t : AVL) : (arotLeft t).t.pairs = t.pairs := by
  cases t with
  | nil => rfl
  | node l v id h r =>
      cases r with
      | nil => rfl
      | node T2 yv yid yh T3 => simp [arotLeft, AVL.pairs]

theorem rebalA_keys (t : AVL) : (rebalA t).1.keys = t.keys := by
  cases t with
  | nil => rfl
  | node l v id h r =>
      simp only [rebalA, updHeight]
      split_ifs with h1 h2 h3 h4 <;>
        simp [arotRight_keys, arotLeft_keys, AVL.keys]

theorem rebalA_pairs (t : AVL) : (rebalA t).1.pairs = t.pairs := by
  cases t with
  | nil => rfl
  | node l v id h r =>
      simp only [rebalA, updHeight]
      split_ifs with h1 h2 h3 h4 <;>
        simp [arotRight_pairs, arotLeft_pairs, AVL.pairs]

/-! ## AVL: insert contents -/

theorem avlInsGo_ok (t : AVL) (v : Key) (nid : Nat) :
    (avlInsGo t v nid).2.1 = !avlContains t v := by
  induction t with
  | nil => simp [avlInsGo, avlContains]
  | node l x id h r ihl ihr =>
      by_cases hvx : v = x
      · simp [avlInsGo, avlContains, hvx]
      · by_cases hlt : v < x
        · rw [avlInsGo, avlContains]
          simp only [hvx, if_false, hlt, if_true]
          cases hc : avlContains l v with
          | false => simp [ihl, hc]
          | true => simp [ihl, hc]
        · rw [avlInsGo, avlContains]
          simp only [hvx, if_false, hlt]
          cases hc : avlContains r v with
          | false => simp [ihr, hc]
          | true => simp [ihr, hc]

theorem avlInsGo_dup (t : AVL) (v : Key) (nid : Nat)
    (h : avlContains t v = true) : avlInsGo t v nid = (t, false, 0, false) := by
  induction t with
  | nil => simp [avlContains] at h
  | node l x id h0 r ihl ihr =>
      rw [avlContains] at h
      by_cases hvx : v = x
      · simp [avlInsGo, hvx]
      · by_cases hlt : v < x
        · simp only [hvx, if_false, hlt, if_true] at h
          have hok := avlInsGo_ok l v nid
          rw [h] at hok
          rw [avlInsGo]
          simp [hvx, hlt, hok]
        · simp only [hvx, if_false, hlt] at h
          have hok := avlInsGo_ok r v nid
          rw [h] at hok
          rw [avlInsGo]
          simp [hvx, hlt, hok]

theorem avlInsGo_keys (t : AVL) (v : Key) (nid : Nat) (hb : t.bstB = true)
    (hc : avlContains t v = false) :
    (avlInsGo t v nid).1.keys = insSorted v t.keys := by
  induction t with
  | nil => simp [avlInsGo, AVL.keys, insSorted]
  | node l x id h r ihl ihr =>
      simp only [AVL.bstB, Bool.and_eq_true, avl_allB_iff,
        decide_eq_true_eq] at hb
      obtain ⟨⟨⟨hl, hr⟩, hbl⟩, hbr⟩ := hb
      rw [avlContains] at hc
      by_cases hvx : v = x
      · simp [hvx] at hc
      · by_cases hlt : v < x
        · simp only [hvx, if_false, hlt, if_true] at hc
          have hok := avlInsGo_ok l v nid
          rw [hc] at hok
          rw [avlInsGo]
          simp only [hvx, if_false, hlt, if_true, hok, Bool.not_false,
            if_true]
          rw [rebalA_keys]
          simp only [AVL.keys, ihl hbl hc]
          rw [insSorted_append_lt v x l.keys r.keys hlt]
        · simp only [hvx, if_false, hlt] at hc
          have hok := avlInsGo_ok r v nid
          rw [hc] at hok
          have hxv : x < v := lt_of_le_of_ne (not_lt.mp hlt) (Ne.symm hvx)
          rw [avlInsGo]
          simp only [hvx, if_false, hlt, hok, Bool.not_false, if_true]
          rw [rebalA_keys]
          simp only [AVL.keys, ihr hbr hc]
          have : insSorted v ((l.keys ++ [x]) ++ r.keys)
              = (l.keys ++ [x]) ++ insSorted v r.keys := by
            refine insSorted_append_ge v _ _ ?_
            intro a ha
            rcases List.mem_append.mp ha with ha | ha
            · exact lt_trans (hl a ha) hxv
            · rcases List.mem_singleton.mp ha with rfl
              exact hxv
          simpa using this.symm

/-! ## AVL: delete contents -/

theorem avl_keys_min (t : AVL) (ht : t ≠ .nil) :
    ∃ tl, t.keys = avlMinVal t :: tl := by
  induction t with
  | nil => exact absurd rfl ht
  | node l v id h r ihl =>
      cases l with
      | nil => exact ⟨r.keys, by simp [AVL.keys, avlMinVal]⟩
      | node a b c d e =>
          obtain ⟨tl, htl⟩ := ihl (by simp)
          refine ⟨tl ++ v :: r.keys, ?_⟩
          have hstep : (AVL.node (AVL.node a b c d e) v id h r).keys
              = (AVL.node a b c d e).keys ++ v :: r.keys := rfl
          rw [hstep, htl]
          simp [avlMinVal]

theorem avl_pairs_min (t : AVL) (ht : t ≠ .nil) :
    ∃ pid tl, t.pairs = (pid, avlMinVal t) :: tl := by
  induction t with
  | nil => exact absurd rfl ht
  | node l v id h r ihl =>
      cases l with
      | nil => exact ⟨id, r.pairs, by simp [AVL.pairs, avlMinVal]⟩
      | node a b c d e =>
          obtain ⟨pid, tl, htl⟩ := ihl (by simp)
          refine ⟨pid, tl ++ (id, v) :: r.pairs, ?_⟩
          have hstep : (AVL.node (AVL.node a b c d e) v id h r).pairs
              = (AVL.node a b c d e).pairs ++ (id, v) :: r.pairs := rfl
          rw [hstep, htl]
          simp [avlMinVal]

theorem avlMinVal_mem (t : AVL) (ht : t ≠ .nil) : avlMinVal t ∈ t.keys := by
  obtain ⟨tl, htl⟩ := avl_keys_min t ht
  simp [htl]

theorem avlDelGo_keys (t : AVL) : ∀ (v : Key), t.bstB = true →
    (avlDelGo t v).1.keys = t.keys.erase v := by
  induction t with
  | nil => intro v hb; simp [avlDelGo, AVL.keys]
  | node l x id h r ihl ihr =>
      intro v hb
      have hb0 := hb
      simp only [AVL.bstB, Bool.and_eq_true, avl_allB_iff,
        decide_eq_true_eq] at hb0
      obtain ⟨⟨⟨hl, hr⟩, hbl⟩, hbr⟩ := hb0
      by_cases hlt : v < x
      · have hvr : v ∉ r.keys := fun hm =>
          absurd (lt_trans hlt (hr v hm)) (lt_irrefl v)
        have hxv2 : ¬(x == v) := by
          simp only [beq_iff_eq]
          exact fun he => absurd (he ▸ hlt) (lt_irrefl x)
        rw [avlDelGo]
        simp only [hlt, if_true]
        rw [rebalA_keys]
        simp only [AVL.keys, ihl v hbl]
        by_cases hvl : v ∈ l.keys
        · rw [List.erase_append_left _ hvl]
        · rw [List.erase_of_not_mem hvl, List.erase_append_right _ hvl,
            List.erase_cons_tail hxv2, List.erase_of_not_mem hvr]
      · by_cases hgt : x < v
        · have hvl : v ∉ l.keys := fun hm =>
            absurd (lt_trans (hl v hm) hgt) (lt_irrefl v)
          have hxv2 : ¬(x == v) := by
            simp only [beq_iff_eq]
            exact fun he => absurd (he ▸ hgt) (lt_irrefl x)
          rw [avlDelGo]
          simp only [hlt, if_false, hgt, if_true]
          rw [rebalA_keys]
          simp only [AVL.keys, ihr v hbr]
          rw [List.erase_append_right _ hvl, List.erase_cons_tail hxv2]
        · have hvx : v = x := le_antisymm (not_lt.mp hgt) (not_lt.mp hlt)
          subst hvx
          rw [avlDelGo]
          simp only [lt_irrefl, if_false]
          by_cases hln : l = AVL.nil
          · subst hln
            simp only [if_true, AVL.keys, List.nil_append]
            rw [List.erase_cons_head]
          · by_cases hrn : r = AVL.nil
            · subst hrn
              simp only [hln, if_false, if_true, AVL.keys, List.append_nil]
              rw [erase_sorted_middle v _ [] hl, List.append_nil]
            · simp only [hln, hrn, if_false]
              rw [rebalA_keys]
              simp only [AVL.keys]
              obtain ⟨tl, htl⟩ := avl_keys_min r hrn
              rw [ihr (avlMinVal r) hbr, htl, List.erase_cons_head,
                erase_sorted_middle v _ _ hl]

/-! ## AVL: the height/balance invariant -/

@[simp] theorem AVL.hOf_nil : (AVL.nil).hOf = 0 := rfl

@[simp] theorem AVL.hOf_node (l : AVL) (v : Key) (id h : Nat) (r : AVL) :
    (AVL.node l v id h r).hOf = h := rfl

theorem getBal_node (l : AVL) (v : Key) (id h : Nat) (r : AVL) :
    getBal (.node l v id h r) = (l.hOf : Int) - r.hOf := rfl

theorem updHeight_node (l : AVL) (v : Key) (id h : Nat) (r : AVL) :
    updHeight (.node l v id h r) = .node l v id (1 + max l.hOf r.hOf) r := rfl

theorem AVL.hOf_eq_realH (t : AVL) (h : t.avlB = true) : t.hOf = t.realH := by
  induction t with
  | nil => rfl
  | node l v id h0 r ihl ihr =>
      simp only [AVL.avlB, Bool.and_eq_true, decide_eq_true_eq] at h
      obtain ⟨⟨⟨⟨hh, _⟩, _⟩, hal⟩, har⟩ := h
      simp only [AVL.hOf_node, AVL.realH, hh, ihl hal, ihr har]

theorem rebalA_noRot (l r : AVL) (v : Key) (id h0 : Nat)
    (hl : l.avlB = true) (hr : r.avlB = true)
    (c1 : l.realH ≤ r.realH + 1) (c2 : r.realH ≤ l.realH + 1) :
    rebalA (.node l v id h0 r) =
      (.node l v id (1 + max l.hOf r.hOf) r, 0, false) := by
  have e1 := AVL.hOf_eq_realH l hl
  have e2 := AVL.hOf_eq_realH r hr
  simp only [rebalA, updHeight_node, getBal_node, AVL.hOf_node]
  rw [if_neg (by omega), if_neg (by omega)]

theorem rebalA_spec (l r : AVL) (v : Key) (id h0 : Nat)
    (hl : l.avlB = true) (hr : r.avlB = true)
    (hd1 : l.realH ≤ r.realH + 2) (hd2 : r.realH ≤ l.realH + 2) :
    (rebalA (.node l v id h0 r)).1.avlB = true ∧
      max l.realH r.realH ≤ (rebalA (.node l v id h0 r)).1.realH ∧
      (rebalA (.node l v id h0 r)).1.realH ≤ 1 + max l.realH r.realH := by
  have e1 := AVL.hOf_eq_realH l hl
  have e2 := AVL.hOf_eq_realH r hr
  by_cases c1 : l.realH ≤ r.realH + 1
  · by_cases c2 : r.realH ≤ l.realH + 1
    · rw [rebalA_noRot l r v id h0 hl hr c1 c2]
      refine ⟨?_, ?_, ?_⟩
      · simp only [AVL.avlB, AVL.hOf_node, Bool.and_eq_true,
          decide_eq_true_eq]
        exact ⟨⟨⟨⟨by trivial, by omega⟩, by omega⟩, hl⟩, hr⟩
      · simp only [AVL.realH]; omega
      · simp only [AVL.realH]; omega
    · -- right-heavy by exactly 2
      cases r with
      | nil => simp only [AVL.realH] at c2; omega
      | node rl rv rid rh rr =>
          simp only [AVL.avlB, Bool.and_eq_true, decide_eq_true_eq] at hr
          obtain ⟨⟨⟨⟨hh, hb1⟩, hb2⟩, hal⟩, har⟩ := hr
          have erl := AVL.hOf_eq_realH rl hal
          have err := AVL.hOf_eq_realH rr har
          simp only [AVL.hOf_node, AVL.realH] at *
          by_cases c3 : rl.realH ≤ rr.realH
          · -- RR: single left rotation
            have hres : rebalA (.node l v id h0 (.node rl rv rid rh rr)) =
                (.node (.node l v id (1 + max l.hOf rl.hOf) rl) rv rid
                  (1 + max (1 + max l.hOf rl.hOf) rr.hOf) rr, 1, false) := by
              simp only [rebalA, updHeight_node, getBal_node, AVL.hOf_node]
              rw [if_neg (by omega), if_pos (by omega), if_neg (by omega)]
              simp [arotLeft]
            rw [hres]
            refine ⟨?_, ?_, ?_⟩
            · simp only [AVL.avlB, AVL.hOf_node, Bool.and_eq_true,
                decide_eq_true_eq]
              refine ⟨⟨⟨⟨by trivial, by omega⟩, by omega⟩,
                ⟨⟨⟨⟨by trivial, by omega⟩, by omega⟩, hl⟩, hal⟩⟩, har⟩
            · simp only [AVL.realH]; omega
            · simp only [AVL.realH]; omega
          · -- RL: double rotation
            cases rl with
            | nil => simp only [AVL.realH] at c3; omega
            | node m2 mv mid mh m3 =>
                simp only [AVL.avlB, Bool.and_eq_true,
                  decide_eq_true_eq] at hal
                obtain ⟨⟨⟨⟨hh2, hb3⟩, hb4⟩, ham2⟩, ham3⟩ := hal
                have em2 := AVL.hOf_eq_realH m2 ham2
                have em3 := AVL.hOf_eq_realH m3 ham3
                simp only [AVL.hOf_node, AVL.realH] at *
                have hres : rebalA
                    (.node l v id h0
                      (.node (.node m2 mv mid mh m3) rv rid rh rr)) =
                    (.node (.node l v id (1 + max l.hOf m2.hOf) m2) mv mid
                      (1 + max (1 + max l.hOf m2.hOf)
                        (1 + max m3.hOf rr.hOf))
                      (.node m3 rv rid (1 + max m3.hOf rr.hOf) rr),
                      2, false) := by
                  simp only [rebalA, updHeight_node, getBal_node,
                    AVL.hOf_node]
                  rw [if_neg (by omega), if_pos (by omega), if_pos (by omega)]
                  simp [arotLeft, arotRight]
                rw [hres]
                refine ⟨?_, ?_, ?_⟩
                · simp only [AVL.avlB, AVL.hOf_node, Bool.and_eq_true,
                    decide_eq_true_eq]
                  refine ⟨⟨⟨⟨by trivial, by omega⟩, by omega⟩,
                    ⟨⟨⟨⟨by trivial, by omega⟩, by omega⟩, hl⟩, ham2⟩⟩,
                    ⟨⟨⟨⟨by trivial, by omega⟩, by omega⟩, ham3⟩, har⟩⟩
                · simp only [AVL.realH]; omega
                · simp only [AVL.realH]; omega
  · -- left-heavy by exactly 2
    cases l with
    | nil => simp only [AVL.realH] at c1; omega
    | node ll lv lid lh lr =>
        simp only [AVL.avlB, Bool.and_eq_true, decide_eq_true_eq] at hl
        obtain ⟨⟨⟨⟨hh, hb1⟩, hb2⟩, hal⟩, har⟩ := hl
        have ell := AVL.hOf_eq_realH ll hal
        have elr := AVL.hOf_eq_realH lr har
        simp only [AVL.hOf_node, AVL.realH] at *
        by_cases c3 : lr.realH ≤ ll.realH
        · -- LL: single right rotation
          have hres : rebalA (.node (.node ll lv lid lh lr) v id h0 r) =
              (.node ll lv lid
                (1 + max ll.hOf (1 + max lr.hOf r.hOf))
                (.node lr v id (1 + max lr.hOf r.hOf) r), 1, false) := by
            simp only [rebalA, updHeight_node, getBal_node, AVL.hOf_node]
            rw [if_pos (by omega), if_neg (by omega)]
            simp [arotRight]
          rw [hres]
          refine ⟨?_, ?_, ?_⟩
          · simp only [AVL.avlB, AVL.hOf_node, Bool.and_eq_true,
              decide_eq_true_eq]
            refine ⟨⟨⟨⟨by trivial, by omega⟩, by omega⟩, hal⟩,
              ⟨⟨⟨⟨by trivial, by omega⟩, by omega⟩, har⟩, hr⟩⟩
          · simp only [AVL.realH]; omega
          · simp only [AVL.realH]; omega
        · -- LR: double rotation
          cases lr with
          | nil => simp only [AVL.realH] at c3; omega
          | node m2 mv mid mh m3 =>
              simp only [AVL.avlB, Bool.and_eq_true,
                decide_eq_true_eq] at har
              obtain ⟨⟨⟨⟨hh2, hb3⟩, hb4⟩, ham2⟩, ham3⟩ := har
              have em2 := AVL.hOf_eq_realH m2 ham2
              have em3 := AVL.hOf_eq_realH m3 ham3
              simp only [AVL.hOf_node, AVL.realH] at *
              have hres : rebalA
                  (.node (.node ll lv lid lh (.node m2 mv mid mh m3))
                    v id h0 r) =
                  (.node (.node ll lv lid (1 + max ll.hOf m2.hOf) m2) mv mid
                    (1 + max (1 + max ll.hOf m2.hOf) (1 + max m3.hOf r.hOf))
                    (.node m3 v id (1 + max m3.hOf r.hOf) r), 2, false) := by
                simp only [rebalA, updHeight_node, getBal_node, AVL.hOf_node]
                rw [if_pos (by omega), if_pos (by omega)]
                simp [arotLeft, arotRight]
              rw [hres]
              refine ⟨?_, ?_, ?_⟩
              · simp only [AVL.avlB, AVL.hOf_node, Bool.and_eq_true,
                  decide_eq_true_eq]
                refine ⟨⟨⟨⟨by trivial, by omega⟩, by omega⟩,
                  ⟨⟨⟨⟨by trivial, by omega⟩, by omega⟩, hal⟩, ham2⟩⟩,
                  ⟨⟨⟨⟨by trivial, by omega⟩, by omega⟩, ham3⟩, hr⟩⟩
              · simp only [AVL.realH]; omega
              · simp only [AVL.realH]; omega

theorem avlInsGo_avl (t : AVL) (v : Key) (nid : Nat) (ht : t.avlB = true) :
    (avlInsGo t v nid).1.avlB = true ∧
      t.realH ≤ (avlInsGo t v nid).1.realH ∧
      (avlInsGo t v nid).1.realH ≤ t.realH + 1 := by
  induction t with
  | nil => simp [avlInsGo, AVL.avlB, AVL.realH]
  | node l x id h r ihl ihr =>
      have ht0 := ht
      simp only [AVL.avlB, Bool.and_eq_true, decide_eq_true_eq] at ht0
      obtain ⟨⟨⟨⟨hh, hb1⟩, hb2⟩, hal⟩, har⟩ := ht0
      have el := AVL.hOf_eq_realH l hal
      have er := AVL.hOf_eq_realH r har
      by_cases hvx : v = x
      · rw [avlInsGo]
        simp only [hvx, if_true]
        exact ⟨ht, le_refl _, Nat.le_succ _⟩
      · by_cases hlt : v < x
        · cases hok : (avlInsGo l v nid).2.1 with
          | false =>
              rw [avlInsGo]
              simp only [hvx, if_false, hlt, if_true, hok, Bool.false_eq_true]
              exact ⟨ht, le_refl _, Nat.le_succ _⟩
          | true =>
              obtain ⟨ha, hlo, hhi⟩ := ihl hal
              rw [avlInsGo]
              simp only [hvx, if_false, hlt, if_true, hok]
              by_cases hc : (avlInsGo l v nid).1.realH ≤ r.realH + 1 ∧
                  r.realH ≤ (avlInsGo l v nid).1.realH + 1
              · rw [rebalA_noRot _ _ x id h ha har hc.1 hc.2]
                have ea := AVL.hOf_eq_realH _ ha
                refine ⟨?_, ?_, ?_⟩
                · simp only [AVL.avlB, AVL.hOf_node, Bool.and_eq_true,
                    decide_eq_true_eq]
                  exact ⟨⟨⟨⟨by trivial, by omega⟩, by omega⟩, ha⟩, har⟩
                · simp only [AVL.realH]; omega
                · simp only [AVL.realH]; omega
              · obtain ⟨hs1, hs2, hs3⟩ := rebalA_spec _ r x id h ha har
                  (by omega) (by omega)
                refine ⟨hs1, ?_, ?_⟩
                · simp only [AVL.realH]; omega
                · simp only [AVL.realH]; omega
        · cases hok : (avlInsGo r v nid).2.1 with
          | false =>
              rw [avlInsGo]
              simp only [hvx, if_false, hlt, hok, Bool.false_eq_true]
              exact ⟨ht, le_refl _, Nat.le_succ _⟩
          | true =>
              obtain ⟨ha, hlo, hhi⟩ := ihr har
              rw [avlInsGo]
              simp only [hvx, if_false, hlt, hok, if_true]
              by_cases hc : l.realH ≤ (avlInsGo r v nid).1.realH + 1 ∧
                  (avlInsGo r v nid).1.realH ≤ l.realH + 1
              · rw [rebalA_noRot l _ x id h hal ha hc.1 hc.2]
                have ea := AVL.hOf_eq_realH _ ha
                refine ⟨?_, ?_, ?_⟩
                · simp only [AVL.avlB, AVL.hOf_node, Bool.and_eq_true,
                    decide_eq_true_eq]
                  exact ⟨⟨⟨⟨by trivial, by omega⟩, by omega⟩, hal⟩, ha⟩
                · simp only [AVL.realH]; omega
                · simp only [AVL.realH]; omega
              · obtain ⟨hs1, hs2, hs3⟩ := rebalA_spec l _ x id h hal ha
                  (by omega) (by omega)
                refine ⟨hs1, ?_, ?_⟩
                · simp only [AVL.realH]; omega
                · simp only [AVL.realH]; omega

theorem avlDelGo_avl (t : AVL) : ∀ (v : Key), t.avlB = true →
    (avlDelGo t v).1.avlB = true ∧
      (avlDelGo t v).1.realH ≤ t.realH ∧
      t.realH ≤ (avlDelGo t v).1.realH + 1 := by
  induction t with
  | nil => intro v ht; simp [avlDelGo, AVL.realH, AVL.avlB]
  | node l x id h r ihl ihr =>
      intro v ht
      have ht0 := ht
      simp only [AVL.avlB, Bool.and_eq_true, decide_eq_true_eq] at ht0
      obtain ⟨⟨⟨⟨hh, hb1⟩, hb2⟩, hal⟩, har⟩ := ht0
      have el := AVL.hOf_eq_realH l hal
      have er := AVL.hOf_eq_realH r har
      by_cases hlt : v < x
      · obtain ⟨ha, hup, hlo⟩ := ihl v hal
        rw [avlDelGo]
        simp only [hlt, if_true]
        by_cases hc : (avlDelGo l v).1.realH ≤ r.realH + 1 ∧
            r.realH ≤ (avlDelGo l v).1.realH + 1
        · rw [rebalA_noRot _ _ x id h ha har hc.1 hc.2]
          have ea := AVL.hOf_eq_realH _ ha
          refine ⟨?_, ?_, ?_⟩
          · simp only [AVL.avlB, AVL.hOf_node, Bool.and_eq_true,
              decide_eq_true_eq]
            exact ⟨⟨⟨⟨by trivial, by omega⟩, by omega⟩, ha⟩, har⟩
          · simp only [AVL.realH]; omega
          · simp only [AVL.realH]; omega
        · obtain ⟨hs1, hs2, hs3⟩ := rebalA_spec _ r x id h ha har
            (by omega) (by omega)
          refine ⟨hs1, ?_, ?_⟩
          · simp only [AVL.realH]; omega
          · simp only [AVL.realH]; omega
      · by_cases hgt : x < v
        · obtain ⟨ha, hup, hlo⟩ := ihr v har
          rw [avlDelGo]
          simp only [hlt, if_false, hgt, if_true]
          by_cases hc : l.realH ≤ (avlDelGo r v).1.realH + 1 ∧
              (avlDelGo r v).1.realH ≤ l.realH + 1
          · rw [rebalA_noRot l _ x id h hal ha hc.1 hc.2]
            have ea := AVL.hOf_eq_realH _ ha
            refine ⟨?_, ?_, ?_⟩
            · simp only [AVL.avlB, AVL.hOf_node, Bool.and_eq_true,
                decide_eq_true_eq]
              exact ⟨⟨⟨⟨by trivial, by omega⟩, by omega⟩, hal⟩, ha⟩
            · simp only [AVL.realH]; omega
            · simp only [AVL.realH]; omega
          · obtain ⟨hs1, hs2, hs3⟩ := rebalA_spec l _ x id h hal ha
              (by omega) (by omega)
            refine ⟨hs1, ?_, ?_⟩
            · simp only [AVL.realH]; omega
            · simp only [AVL.realH]; omega
        · rw [avlDelGo]
          simp only [hlt, if_false, hgt]
          by_cases hln : l = AVL.nil
          · subst hln
            simp only [if_true]
            simp only [AVL.realH, AVL.hOf_nil] at *
            exact ⟨har, by omega, by omega⟩
          · by_cases hrn : r = AVL.nil
            · subst hrn
              simp only [hln, if_false, if_true]
              simp only [AVL.realH, AVL.hOf_nil] at *
              exact ⟨hal, by omega, by omega⟩
            · simp only [hln, hrn, if_false]
              obtain ⟨ha, hup, hlo⟩ := ihr (avlMinVal r) har
              by_cases hc : l.realH ≤ (avlDelGo r (avlMinVal r)).1.realH + 1 ∧
                  (avlDelGo r (avlMinVal r)).1.realH ≤ l.realH + 1
              · rw [rebalA_noRot l _ (avlMinVal r) id h hal ha hc.1 hc.2]
                have ea := AVL.hOf_eq_realH _ ha
                refine ⟨?_, ?_, ?_⟩
                · simp only [AVL.avlB, AVL.hOf_node, Bool.and_eq_true,
                    decide_eq_true_eq]
                  exact ⟨⟨⟨⟨by trivial, by omega⟩, by omega⟩, hal⟩, ha⟩
                · simp only [AVL.realH]; omega
                · simp only [AVL.realH]; omega
              · obtain ⟨hs1, hs2, hs3⟩ := rebalA_spec l _ (avlMinVal r) id h
                  hal ha (by omega) (by omega)
                refine ⟨hs1, ?_, ?_⟩
                · simp only [AVL.realH]; omega
                · simp only [AVL.realH]; omega

/-! ## AVL: state-level invariant, runs, counters, no-ops, guards -/

/-- BST ordering plus the AVL height/balance invariant of the root. -/
def AVLInv (s : AVLS) : Prop :=
  s.root.bstB = true ∧ s.root.avlB = true

theorem avlInsert_inv (s : AVLS) (v : Key) (hs : AVLInv s) :
    AVLInv (avlInsert s v).1 := by
  obtain ⟨hb, ha⟩ := hs
  cases hroot : s.root with
  | nil => simp [avlInsert, hroot, AVLInv, AVL.bstB, AVL.allB, AVL.avlB]
  | node l x id h r =>
      rw [hroot] at hb ha
      cases hok : (avlInsGo (.node l x id h r) v s.nextId).2.1 with
      | false =>
          simp only [avlInsert, hroot, hok, Bool.false_eq_true, if_false]
          exact ⟨by rw [hroot]; exact hb, by rw [hroot]; exact ha⟩
      | true =>
          have hc : avlContains (.node l x id h r) v = false := by
            have := avlInsGo_ok (.node l x id h r) v s.nextId
            rw [hok] at this
            cases hcc : avlContains (.node l x id h r) v
            · rfl
            · rw [hcc] at this; simp at this
          simp only [avlInsert, hroot, hok, if_true]
          constructor
          · rw [avl_bstB_iff, avlInsGo_keys _ v s.nextId hb hc]
            refine insSorted_pairwise v _ ((avl_bstB_iff _).mp hb) ?_
            intro hm
            rw [(avlContains_iff _ v hb).mpr hm] at hc
            exact Bool.noConfusion hc
          · exact (avlInsGo_avl (.node l x id h r) v s.nextId ha).1

theorem avlDelete_inv (s : AVLS) (v : Key) (hs : AVLInv s) :
    AVLInv (avlDelete s v).1 := by
  obtain ⟨hb, ha⟩ := hs
  by_cases hc : avlContains s.root v = true
  · simp only [avlDelete, hc, if_true]
    constructor
    · rw [avl_bstB_iff, avlDelGo_keys s.root v hb]
      exact ((avl_bstB_iff _).mp hb).sublist (List.erase_sublist _ _)
    · exact (avlDelGo_avl s.root v ha).1
  · simp only [avlDelete, hc, if_false]
    exact ⟨hb, ha⟩

theorem avlStep_inv (s : AVLS) (op : AVLOp) (hs : AVLInv s) :
    AVLInv (avlStep s op) := by
  cases op with
  | ins v => exact avlInsert_inv s v hs
  | del v => exact avlDelete_inv s v hs
  | mem v => exact hs
  | reset => exact hs

theorem avlReach_inv (s : AVLS) (h : AVLReach s) : AVLInv s := by
  induction h with
  | init => exact ⟨rfl, rfl⟩
  | step s op _ ih => exact avlStep_inv s op ih

/-- Abstract effect of one AVL operation on the sorted list of keys. -/
def avlModelStep (m : List Key) : AVLOp → List Key
  | .ins v => if v ∈ m then m else insSorted v m
  | .del v => m.erase v
  | .mem _ => m
  | .reset => m

def avlModel (ops : List AVLOp) : List Key :=
  ops.foldl avlModelStep []

def avlRun (ops : List AVLOp) : AVLS :=
  ops.foldl avlStep ⟨.nil, 0, 0, 0⟩

theorem avlStep_keys (s : AVLS) (op : AVLOp) (hs : AVLInv s) :
    (avlStep s op).root.keys = avlModelStep s.root.keys op := by
  obtain ⟨hb, ha⟩ := hs
  cases op with
  | ins v =>
      cases hroot : s.root with
      | nil =>
          simp [avlStep, avlInsert, hroot, avlModelStep, AVL.keys, insSorted]
      | node l x id h r =>
          rw [hroot] at hb
          cases hok : (avlInsGo (.node l x id h r) v s.nextId).2.1 with
          | false =>
              have hc : avlContains (.node l x id h r) v = true := by
                have := avlInsGo_ok (.node l x id h r) v s.nextId
                rw [hok] at this
                cases hcc : avlContains (.node l x id h r) v
                · rw [hcc] at this; simp at this
                · rfl
              have hm : v ∈ (AVL.node l x id h r).keys :=
                (avlContains_iff _ v hb).mp hc
              simp [avlStep, avlInsert, hroot, hok, avlModelStep, hm]
          | true =>
              have hc : avlContains (.node l x id h r) v = false := by
                have := avlInsGo_ok (.node l x id h r) v s.nextId
                rw [hok] at this
                cases hcc : avlContains (.node l x id h r) v
                · rfl
                · rw [hcc] at this; simp at this
              have hm : v ∉ (AVL.node l x id h r).keys := fun hm => by
                rw [(avlContains_iff _ v hb).mpr hm] at hc
                exact Bool.noConfusion hc
              simp [avlStep, avlInsert, hroot, hok, avlModelStep, hm,
                avlInsGo_keys _ v s.nextId hb hc]
  | del v =>
      by_cases hc : avlContains s.root v = true
      · simp [avlStep, avlDelete, hc, avlModelStep, avlDelGo_keys s.root v hb]
      · have hcf : avlContains s.root v = false := by
          cases hcc : avlContains s.root v
          · rfl
          · exact absurd hcc hc
        have hm : v ∉ s.root.keys := fun hm => by
          rw [(avlContains_iff _ v hb).mpr hm] at hcf
          exact Bool.noConfusion hcf
        simp [avlStep, avlDelete, hcf, avlModelStep,
          List.erase_of_not_mem hm]
  | mem v => rfl
  | reset => rfl

theorem avl_foldl_model (ops : List AVLOp) (s : AVLS) (m : List Key)
    (hs : AVLInv s) (hm : s.root.keys = m) :
    AVLInv (ops.foldl avlStep s) ∧
      (ops.foldl avlStep s).root.keys = ops.foldl avlModelStep m := by
  induction ops generalizing s m with
  | nil => exact ⟨hs, by simpa using hm⟩
  | cons op ops ih =>
      have h1 := avlStep_inv s op hs
      have h2 := avlStep_keys s op hs
      simp only [List.foldl_cons]
      exact ih (avlStep s op) (avlModelStep m op) h1 (by rw [h2, hm])

theorem avlRun_keys (ops : List AVLOp) :
    (avlRun ops).root.keys = avlModel ops ∧
      (avlModel ops).Pairwise (· < ·) := by
  have h := avl_foldl_model ops ⟨.nil, 0, 0, 0⟩ [] ⟨rfl, rfl⟩ rfl
  refine ⟨h.2, ?_⟩
  have := (avl_bstB_iff _).mp h.1.1
  rwa [h.2] at this

theorem avlInsert_dup (s : AVLS) (v : Key)
    (h : avlContains s.root v = true) : avlInsert s v = (s, false, 0, false) := by
  cases hroot : s.root with
  | nil => rw [hroot] at h; simp [avlContains] at h
  | node l x id h0 r =>
      rw [hroot] at h
      have hok := avlInsGo_ok (.node l x id h0 r) v s.nextId
      rw [h] at hok
      simp [avlInsert, hroot, hok]

theorem avlDelete_absent (s : AVLS) (v : Key)
    (h : avlContains s.root v = false) : avlDelete s v = (s, false, 0, false) := by
  simp [avlDelete, h]

theorem avlInsert_counters (s : AVLS) (v : Key) :
    (avlInsert s v).1.rotDel = s.rotDel ∧
      (avlInsert s v).1.rotIns = s.rotIns + (avlInsert s v).2.2.1 := by
  cases hroot : s.root with
  | nil => simp [avlInsert, hroot]
  | node l x id h r =>
      cases hok : (avlInsGo (.node l x id h r) v s.nextId).2.1 with
      | false => simp [avlInsert, hroot, hok]
      | true => simp [avlInsert, hroot, hok]

theorem avlDelete_counters (s : AVLS) (v : Key) :
    (avlDelete s v).1.rotIns = s.rotIns ∧
      (avlDelete s v).1.rotDel = s.rotDel + (avlDelete s v).2.2.1 := by
  by_cases hc : avlContains s.root v = true
  · simp [avlDelete, hc]
  · simp [avlDelete, hc]

theorem rebalA_guard (t : AVL) : (rebalA t).2.2 = false := by
  cases t with
  | nil => rfl
  | node l v id h r =>
      simp only [rebalA, updHeight_node, getBal_node]
      by_cases h1 : ((l.hOf : Int) - r.hOf) > 1
      · rw [if_pos h1]
        cases l with
        | nil => simp at h1; omega
        | node ll lv lid lh lr =>
            by_cases h2 : getBal (.node ll lv lid lh lr) < 0
            · rw [if_pos h2]
              rw [getBal_node] at h2
              cases lr with
              | nil => simp at h2; omega
              | node a b c d e => simp [arotLeft, arotRight]
            · rw [if_neg h2]
              simp [arotRight]
      · rw [if_neg h1]
        by_cases h2 : ((l.hOf : Int) - r.hOf) < -1
        · rw [if_pos h2]
          cases r with
          | nil => simp at h2; omega
          | node rl rv rid rh rr =>
              by_cases h3 : getBal (.node rl rv rid rh rr) > 0
              · rw [if_pos h3]
                rw [getBal_node] at h3
                cases rl with
                | nil => simp at h3; omega
                | node a b c d e => simp [arotRight, arotLeft]
              · rw [if_neg h3]
                simp [arotLeft]
        · rw [if_neg h2]

theorem avlInsGo_guard (t : AVL) (v : Key) (nid : Nat) :
    (avlInsGo t v nid).2.2.2 = false := by
  induction t with
  | nil => rfl
  | node l x id h r ihl ihr =>
      rw [avlInsGo]
      by_cases hvx : v = x
      · simp [hvx]
      · by_cases hlt : v < x
        · cases hok : (avlInsGo l v nid).2.1 with
          | false => simp [hvx, hlt, hok]
          | true => simp [hvx, hlt, hok, ihl, rebalA_guard]
        · cases hok : (avlInsGo r v nid).2.1 with
          | false => simp [hvx, hlt, hok]
          | true => simp [hvx, hlt, hok, ihr, rebalA_guard]

theorem avlDelGo_guard (t : AVL) : ∀ (v : Key), (avlDelGo t v).2.2 = false := by
  induction t with
  | nil => intro v; rfl
  | node l x id h r ihl ihr =>
      intro v
      rw [avlDelGo]
      by_cases hlt : v < x
      · simp [hlt, ihl, rebalA_guard]
      · by_cases hgt : x < v
        · simp [hlt, hgt, ihr, rebalA_guard]
        · by_cases hln : l = AVL.nil
          · simp [hlt, hgt, hln]
          · by_cases hrn : r = AVL.nil
            · simp [hlt, hgt, hln, hrn]
            · simp [hlt, hgt, hln, hrn, ihr, rebalA_guard]

/-! ## AVL: the two-children delete copies the successor value in place -/

theorem avlDelGo_min_pairs (t : AVL) (ht : t ≠ .nil) (hb : t.bstB = true) :
    (avlDelGo t (avlMinVal t)).1.pairs = t.pairs.tail := by
  induction t with
  | nil => exact absurd rfl ht
  | node l x id h r ihl =>
      simp only [AVL.bstB, Bool.and_eq_true, avl_allB_iff,
        decide_eq_true_eq] at hb
      obtain ⟨⟨⟨hl, hr⟩, hbl⟩, hbr⟩ := hb
      cases l with
      | nil =>
          rw [avlDelGo]
          simp only [avlMinVal, lt_irrefl, if_false, if_true]
          rfl
      | node a b c d e =>
          have hmem := avlMinVal_mem (.node a b c d e) (by simp)
          have hmin : avlMinVal (AVL.node (.node a b c d e) x id h r)
              = avlMinVal (.node a b c d e) := rfl
          have hlt : avlMinVal (.node a b c d e) < x := hl _ hmem
          rw [hmin, avlDelGo]
          simp only [hlt, if_true]
          rw [rebalA_pairs]
          have hLHS : (AVL.node
                (avlDelGo (.node a b c d e) (avlMinVal (.node a b c d e))).1
                x id h r).pairs
              = (avlDelGo (.node a b c d e)
                  (avlMinVal (.node a b c d e))).1.pairs
                ++ (id, x) :: r.pairs := rfl
          have hRHS : (AVL.node (.node a b c d e) x id h r).pairs
              = (AVL.node a b c d e).pairs ++ (id, x) :: r.pairs := rfl
          rw [hLHS, hRHS, ihl (by simp) hbl]
          obtain ⟨pid, tl, htl⟩ := avl_pairs_min (.node a b c d e) (by simp)
          rw [htl]
          simp

theorem avlDelGo_two_children (l r : AVL) (x : Key) (id h : Nat)
    (hln : l ≠ .nil) (hrn : r ≠ .nil)
    (hb : (AVL.node l x id h r).bstB = true) :
    (avlDelGo (.node l x id h r) x).1.pairs
      = l.pairs ++ (id, avlMinVal r) :: r.pairs.tail := by
  simp only [AVL.bstB, Bool.and_eq_true, avl_allB_iff,
    decide_eq_true_eq] at hb
  obtain ⟨⟨⟨hl, hr⟩, hbl⟩, hbr⟩ := hb
  rw [avlDelGo]
  simp only [lt_irrefl, if_false, hln, hrn]
  rw [rebalA_pairs]
  simp only [AVL.pairs]
  rw [avlDelGo_min_pairs r hrn hbr]

/-! ## AVL: the validate walk (avl_tree.py:424-470) -/

/-- The `if node.left: assert node.left.value < node.value` check
(avl_tree.py:450-453): vacuous when there is no left child. -/
def childLt : AVL → Key → Bool
  | .nil, _ => true
  | .node _ lv _ _ _, x => lv < x

/-- The mirrored `node.right.value > node.value` check (avl_tree.py:454-457). -/
def childGt : AVL → Key → Bool
  | .nil, _ => true
  | .node _ rv _ _ _, x => x < rv

/-- The assertions `_check` runs at one node (avl_tree.py:449-465), given
the recursively computed child heights `lh` and `rh`. -/
def avlNodeOk (l r : AVL) (x : Key) (h lh rh : Nat) : Bool :=
  childLt l x && childGt r x && decide (h = 1 + max lh rh) &&
    decide (rh ≤ lh + 1) && decide (lh ≤ rh + 1)

/-- `AVLTree.validate`'s recursive `_check` (avl_tree.py:439-467): returns
the recomputed subtree height, or `none` when an assertion fires.  Note
that the BST assertions compare a node's value only with its immediate
children's values. -/
def avlCheck : AVL → Option Nat
  | .nil => some 0
  | .node l x _ h r =>
      match avlCheck l, avlCheck r with
      | some lh, some rh =>
          if avlNodeOk l r x h lh rh then some (1 + max lh rh) else none
      | _, _ => none

/-- The parent-child-only ordering property that `validate` actually
checks. -/
def AVL.childOrd : AVL → Bool
  | nil => true
  | node l x _ _ r => childLt l x && childGt r x && l.childOrd && r.childOrd

theorem avlNodeOk_iff (l r : AVL) (x : Key) (h lh rh : Nat) :
    avlNodeOk l r x h lh rh = true ↔
      childLt l x = true ∧ childGt r x = true ∧ h = 1 + max lh rh ∧
        rh ≤ lh + 1 ∧ lh ≤ rh + 1 := by
  simp [avlNodeOk, Bool.and_eq_true, and_assoc]

/-- Characterization of `AVLTree.validate`: it succeeds exactly on trees
whose immediate parent-child ordering, stored height fields, and balance
factors are all correct, and then computes the true height. -/
theorem avlCheck_eq (t : AVL) :
    avlCheck t = if t.childOrd && t.avlB then some t.realH else none := by
  induction t with
  | nil => simp [avlCheck, AVL.childOrd, AVL.avlB, AVL.realH]
  | node l x id h r ihl ihr =>
      rw [avlCheck, ihl, ihr]
      by_cases hcl : (l.childOrd && l.avlB) = true
      · by_cases hcr : (r.childOrd && r.avlB) = true
        · rw [if_pos hcl, if_pos hcr]
          have hclp := hcl
          have hcrp := hcr
          rw [Bool.and_eq_true] at hclp hcrp
          have el := AVL.hOf_eq_realH l hclp.2
          have er := AVL.hOf_eq_realH r hcrp.2
          change (if avlNodeOk l r x h l.realH r.realH = true
              then some (1 + max l.realH r.realH) else none) = _
          by_cases hcc : avlNodeOk l r x h l.realH r.realH = true
          · rw [if_pos hcc]
            obtain ⟨ho1, ho2, hhh, hb1, hb2⟩ := (avlNodeOk_iff _ _ _ _ _ _).mp hcc
            have hcond : ((AVL.node l x id h r).childOrd &&
                (AVL.node l x id h r).avlB) = true := by
              simp only [AVL.childOrd, AVL.avlB, Bool.and_eq_true,
                decide_eq_true_eq]
              exact ⟨⟨⟨⟨ho1, ho2⟩, hclp.1⟩, hcrp.1⟩,
                ⟨⟨⟨⟨by omega, by omega⟩, by omega⟩, hclp.2⟩, hcrp.2⟩⟩
            rw [if_pos hcond]
            simp only [AVL.realH]
          · rw [if_neg hcc]
            have hcond : ¬ (((AVL.node l x id h r).childOrd &&
                (AVL.node l x id h r).avlB) = true) := by
              intro hcond
              simp only [AVL.childOrd, AVL.avlB, Bool.and_eq_true,
                decide_eq_true_eq] at hcond
              obtain ⟨⟨⟨⟨ho1, ho2⟩, _⟩, _⟩, ⟨⟨⟨hhh, hb1⟩, hb2⟩, _⟩, _⟩ := hcond
              exact hcc ((avlNodeOk_iff _ _ _ _ _ _).mpr
                ⟨ho1, ho2, by omega, by omega, by omega⟩)
            rw [if_neg hcond]
        · have hcond : ¬ (((AVL.node l x id h r).childOrd &&
              (AVL.node l x id h r).avlB) = true) := by
            intro hcond
            simp only [AVL.childOrd, AVL.avlB, Bool.and_eq_true,
              decide_eq_true_eq] at hcond
            exact hcr (by
              simp only [Bool.and_eq_true]
              exact ⟨hcond.1.2, hcond.2.2⟩)
          rw [if_neg hcr, if_neg hcond]
          cases hl2 : (if (l.childOrd && l.avlB) = true
              then some l.realH else none) <;> rfl
      · have hcond : ¬ (((AVL.node l x id h r).childOrd &&
            (AVL.node l x id h r).avlB) = true) := by
          intro hcond
          simp only [AVL.childOrd, AVL.avlB, Bool.and_eq_true,
            decide_eq_true_eq] at hcond
          exact hcl (by
            simp only [Bool.and_eq_true]
            exact ⟨hcond.1.1.2, hcond.2.1.2⟩)
        rw [if_neg hcl, if_neg hcond]

/-! ## Red-Black engine (src/methods/rb_tree.py)

The sentinel `nil` is the `nil` constructor; its color reads BLACK
(`redOf nil = false`), it holds no value, and the embedding never stores a
color into it — the two places where the Python code would write a RED
color into the sentinel (both unreachable from valid states) raise the
`nilRed` flag instead, and every vacuous rotation on the sentinel raises
the `guard` flag.  Parent-pointer navigation of the fixup loops is
embedded with the path context `RCtx`; each node carries its creation
identity `id` so that physical node movement is observable. -/

inductive RBT where
  | nil : RBT
  | node (red : Bool) (left : RBT) (value : Key) (id : Nat) (right : RBT)
deriving Repr, DecidableEq

/-- The color field as the code reads it (`Node.RED = True`); the sentinel
reads BLACK. -/
def RBT.redOf : RBT → Bool
  | nil => false
  | node c _ _ _ _ => c

/-- Write the color field of a real node; a BLACK write to the sentinel
(the fixups' final `x.color = BLACK` when `x` is the sentinel) is a no-op
and is modelled as such. -/
def RBT.setRed : RBT → Bool → RBT
  | nil, _ => nil
  | node _ l v id r, c => node c l v id r

def RBT.keys : RBT → List Key
  | nil => []
  | node _ l v _ r => l.keys ++ v :: r.keys

/-- In-order (identity, value) pairs: the physical nodes. -/
def RBT.pairs : RBT → List (Nat × Key)
  | nil => []
  | node _ l v id r => l.pairs ++ (id, v) :: r.pairs

def RBT.allB (f : Key → Bool) : RBT → Bool
  | nil => true
  | node _ l v _ r => f v && l.allB f && r.allB f

def RBT.bstB : RBT → Bool
  | nil => true
  | node _ l v _ r =>
      l.allB (fun k => decide (k < v)) && r.allB (fun k => decide (v < k)) &&
        l.bstB && r.bstB

/-- Path context: `left c v id sib up` means the hole is the LEFT child of
a node with color `c`, value `v`, identity `id`, whose RIGHT child is
`sib`. -/
inductive RCtx where
  | root : RCtx
  | left (red : Bool) (value : Key) (id : Nat) (sib : RBT) (up : RCtx)
  | right (sib : RBT) (red : Bool) (value : Key) (id : Nat) (up : RCtx)

def RCtx.plug : RCtx → RBT → RBT
  | root, t => t
  | left c v id sib up, t => up.plug (.node c t v id sib)
  | right sib c v id up, t => up.plug (.node c sib v id t)

/-- Replace the `root` end of `inner` by `outer` (context composition). -/
def RCtx.comp : RCtx → RCtx → RCtx
  | .root, outer => outer
  | .left c v id sib up, outer => .left c v id sib (up.comp outer)
  | .right sib c v id up, outer => .right sib c v id (up.comp outer)

/-- Degenerate-event flags: `guard` marks a rotation primitive's sentinel
guard branch running (rb_tree.py:109-110,163-164); `nilRed` marks a RED
color write into the sentinel. -/
structure RbFlags where
  guard : Bool
  nilRed : Bool
deriving Repr, DecidableEq

def noFlags : RbFlags := ⟨false, false⟩

/-- The BST descent of `RBTree.insert` (rb_tree.py:207-226): context of
the sentinel position where the new node is spliced, or `none` on a
duplicate (line 212-213). -/
def rbInsDescend : RBT → RCtx → Key → Option RCtx
  | .nil, ctx, _ => some ctx
  | .node c l x id r, ctx, v =>
      if v = x then none
      else if v < x then rbInsDescend l (.left c x id r ctx) v
      else rbInsDescend r (.right l c x id ctx) v

/-- `RBTree._insert_fixup` (rb_tree.py:232-277) on the focus subtree `z`
(always a real RED node when called).  Case 1 recolors and continues two
levels up; cases 2/3 rotate and the loop then exits because the promoted
parent is BLACK.  The `up = root` branches with a RED parent replay what
the code does against the sentinel grandparent (a vacuous rotation and a
RED write into the sentinel); they are unreachable from valid states,
where the root is BLACK.  Returns the whole tree (before the final
`self.root.color = BLACK` of line 277), the rotation count, and flags. -/
def rbInsFix (z : RBT) : RCtx → RBT × Nat × RbFlags
  | .root => (z, 0, noFlags)
  | .left pc pv pid psib up =>
      if pc then
        match up with
        | .root =>
            match z with
            | .node zc zl zv zid zr =>
                (.node false zl zv zid (.node pc zr pv pid psib), 1,
                  ⟨true, true⟩)
            | .nil => ((RCtx.left pc pv pid psib .root).plug z, 0,
                ⟨true, true⟩)
        | .left gc gv gid gsib up2 =>
            if gsib.redOf then
              let res := rbInsFix
                (.node true (.node false z pv pid psib) gv gid
                  (gsib.setRed false)) up2
              res
            else
              (up2.plug (.node false z pv pid (.node true psib gv gid gsib)),
                1, noFlags)
        | .right gsib gc gv gid up2 =>
            if gsib.redOf then
              let res := rbInsFix
                (.node true (gsib.setRed false) gv gid
                  (.node false z pv pid psib)) up2
              res
            else
              match z with
              | .node zc zl zv zid zr =>
                  (up2.plug (.node false (.node true gsib gv gid zl) zv zid
                    (.node true zr pv pid psib)), 2, noFlags)
              | .nil =>
                  ((RCtx.left pc pv pid psib
                    (RCtx.right gsib gc gv gid up2)).plug z, 0, ⟨true, false⟩)
      else ((RCtx.left pc pv pid psib up).plug z, 0, noFlags)
  | .right psib pc pv pid up =>
      if pc then
        match up with
        | .root =>
            ((RCtx.right psib pc pv pid .root).plug z).setRed false
              |> fun t => (t, 0, ⟨true, true⟩)
        | .right gsib gc gv gid up2 =>
            if gsib.redOf then
              let res := rbInsFix
                (.node true (gsib.setRed false) gv gid
                  (.node false psib pv pid z)) up2
              res
            else
              (up2.plug (.node false (.node true gsib gv gid psib) pv pid z),
                1, noFlags)
        | .left gc gv gid gsib up2 =>
            if gsib.redOf then
              let res := rbInsFix
                (.node true (.node false psib pv pid z) gv gid
                  (gsib.setRed false)) up2
              res
            else
              match z with
              | .node zc zl zv zid zr =>
                  (up2.plug (.node false (.node true psib pv pid zl) zv zid
                    (.node true zr gv gid gsib)), 2, noFlags)
              | .nil =>
                  ((RCtx.right psib pc pv pid
                    (RCtx.left gc gv gid gsib up2)).plug z, 0, ⟨true, false⟩)
      else ((RCtx.right psib pc pv pid up).plug z, 0, noFlags)

/-- Per-instance Red-Black state. -/
structure RBS where
  root : RBT
  nextId : Nat
  rotIns : Nat
  rotDel : Nat
deriving Repr, DecidableEq

/-- `RBTree.insert` (rb_tree.py:183-230): splice a RED leaf at the descent
position, fix up, and force the root BLACK (line 277). -/
def rbInsert (s : RBS) (v : Key) : RBS × Bool × Nat × RbFlags :=
  match rbInsDescend s.root .root v with
  | none => (s, false, 0, noFlags)
  | some ctx =>
      let res := rbInsFix (.node true .nil v s.nextId .nil) ctx
      ({ s with
          root := res.1.setRed false
          nextId := s.nextId + 1
          rotIns := s.rotIns + res.2.1 }, true, res.2.1, res.2.2)

/-- `RBTree.contains` (rb_tree.py:45-72). -/
def rbContains : RBT → Key → Bool
  | .nil, _ => false
  | .node _ l x _ r, v =>
      if v = x then true else if v < x then rbContains l v else rbContains r v

/-- The search loop of `RBTree.delete` (rb_tree.py:347-357) with the
path context of the found node. -/
def rbFindCtx : RBT → RCtx → Key → Option (RBT × RCtx)
  | .nil, _, _ => none
  | .node c l x id r, ctx, v =>
      if v = x then some (.node c l x id r, ctx)
      else if v < x then rbFindCtx l (.left c x id r ctx) v
      else rbFindCtx r (.right l c x id ctx) v

/-- `RBTree._minimum` (rb_tree.py:301-320) with the path walked, relative
to the subtree it starts from.  The returned node has no left child. -/
def rbMinCtx : RBT → RCtx → RBT × RCtx
  | .nil, ctx => (.nil, ctx)
  | .node c .nil x id r, ctx => (.node c .nil x id r, ctx)
  | .node c (.node c2 l2 x2 id2 r2) x id r, ctx =>
      rbMinCtx (.node c2 l2 x2 id2 r2) (.left c x id r ctx)

/-- `RBTree._delete_fixup` (rb_tree.py:387-450) on the focus `x` (which
may be the sentinel) at its context.  Case 1 (red sibling) rotates the
parent and continues within the same iteration against the refreshed
sibling, whose parent is then RED, so a following case 2 exits
immediately; a plain case 2 moves the deficiency up and recurses.  Cases
3/4 rotate and finish, forcing the (tree) root BLACK as the final
`x.color = BLACK` does when `x = self.root`.  A sibling that is the
sentinel (unreachable from valid states) takes case 2 and would paint the
sentinel RED: the `nilRed` flag records it. -/
def rbDelFix (x : RBT) : RCtx → RBT × Nat × RbFlags
  | .root => (x.setRed false, 0, noFlags)
  | .left pc pv pid w up =>
      if x.redOf then
        (up.plug (.node pc (x.setRed false) pv pid w), 0, noFlags)
      else
        match w with
        | .nil =>
            if pc then (up.plug (.node false x pv pid .nil), 0, ⟨false, true⟩)
            else
              let res := rbDelFix (.node false x pv pid .nil) up
              (res.1, res.2.1, ⟨res.2.2.guard, true⟩)
        | .node true wl wv wid wr =>
            -- case 1: left-rotate the parent; continue with sibling wl
            -- under the new BLACK w-node, the parent now RED
            match wl with
            | .nil =>
                -- case 2 against a sentinel sibling: paint it RED (flag);
                -- the parent is RED, so the loop exits and blackens it
                (up.plug (.node false (.node false x pv pid .nil) wv wid wr),
                  1, ⟨false, true⟩)
            | .node w2c w2l w2v w2id w2r =>
                if !w2l.redOf && !w2r.redOf then
                  -- case 2: sibling reddened, parent (RED) blackened, exit
                  (up.plug (.node false
                    (.node false x pv pid (.node true w2l w2v w2id w2r))
                    wv wid wr), 1, noFlags)
                else if !w2r.redOf then
                  -- case 3 then case 4 (parent RED)
                  match w2l with
                  | .node _ a av aid b =>
                      ((up.plug (.node false
                        (.node true (.node false x pv pid a) av aid
                          (.node false b w2v w2id w2r))
                        wv wid wr)).setRed false, 3, noFlags)
                  | .nil => (up.plug (.node true
                      (.node false x pv pid (.node w2c w2l w2v w2id w2r))
                      wv wid wr), 1, ⟨true, false⟩)
                else
                  -- case 4 (parent RED)
                  match w2r with
                  | .node _ c1 cv cid c2 =>
                      ((up.plug (.node false
                        (.node true (.node false x pv pid w2l) w2v w2id
                          (.node false c1 cv cid c2))
                        wv wid wr)).setRed false, 2, noFlags)
                  | .nil => (up.plug (.node true
                      (.node false x pv pid (.node w2c w2l w2v w2id w2r))
                      wv wid wr), 1, ⟨true, false⟩)
        | .node false wl wv wid wr =>
            if !wl.redOf && !wr.redOf then
              -- case 2: redden the sibling, move the deficiency up
              if pc then
                (up.plug (.node false x pv pid (.node true wl wv wid wr)),
                  0, noFlags)
              else
                rbDelFix (.node false x pv pid (.node true wl wv wid wr)) up
            else if !wr.redOf then
              -- case 3 then case 4
              match wl with
              | .node _ a av aid b =>
                  ((up.plug (.node pc (.node false x pv pid a) av aid
                    (.node false b wv wid wr))).setRed false, 2, noFlags)
              | .nil => ((RCtx.left pc pv pid (.node false wl wv wid wr)
                  up).plug x, 0, ⟨true, false⟩)
            else
              -- case 4
              match wr with
              | .node _ c1 cv cid c2 =>
                  ((up.plug (.node pc (.node false x pv pid wl) wv wid
                    (.node false c1 cv cid c2))).setRed false, 1, noFlags)
              | .nil => ((RCtx.left pc pv pid (.node false wl wv wid wr)
                  up).plug x, 0, ⟨true, false⟩)
  | .right w pc pv pid up =>
      if x.redOf then
        (up.plug (.node pc w pv pid (x.setRed false)), 0, noFlags)
      else
        match w with
        | .nil =>
            if pc then (up.plug (.node false .nil pv pid x), 0, ⟨false, true⟩)
            else
              let res := rbDelFix (.node false .nil pv pid x) up
              (res.1, res.2.1, ⟨res.2.2.guard, true⟩)
        | .node true wl wv wid wr =>
            -- case 1 mirrored: right-rotate the parent; continue with wr
            match wr with
            | .nil =>
                (up.plug (.node false wl wv wid (.node false .nil pv pid x)),
                  1, ⟨false, true⟩)
            | .node w2c w2l w2v w2id w2r =>
                if !w2r.redOf && !w2l.redOf then
                  (up.plug (.node false wl wv wid
                    (.node false (.node true w2l w2v w2id w2r) pv pid x)),
                    1, noFlags)
                else if !w2l.redOf then
                  -- case 3 then case 4 mirrored (parent RED)
                  match w2r with
                  | .node _ a av aid b =>
                      ((up.plug (.node false wl wv wid
                        (.node true (.node false w2l w2v w2id a) av aid
                          (.node false b pv pid x)))).setRed false, 3, noFlags)
                  | .nil => (up.plug (.node true wl wv wid
                      (.node false (.node w2c w2l w2v w2id w2r) pv pid x)),
                      1, ⟨true, false⟩)
                else
                  -- case 4 mirrored (parent RED)
                  match w2l with
                  | .node _ c1 cv cid c2 =>
                      ((up.plug (.node false wl wv wid
                        (.node true (.node false c1 cv cid c2) w2v w2id
                          (.node false w2r pv pid x)))).setRed false, 2, noFlags)
                  | .nil => (up.plug (.node true wl wv wid
                      (.node false (.node w2c w2l w2v w2id w2r) pv pid x)),
                      1, ⟨true, false⟩)
        | .node false wl wv wid wr =>
            if !wr.redOf && !wl.redOf then
              if pc then
                (up.plug (.node false (.node true wl wv wid wr) pv pid x),
                  0, noFlags)
              else
                rbDelFix (.node false (.node true wl wv wid wr) pv pid x) up
            else if !wl.redOf then
              -- case 3 then case 4 mirrored
              match wr with
              | .node _ a av aid b =>
                  ((up.plug (.node pc (.node false wl wv wid a) av aid
                    (.node false b pv pid x))).setRed false, 2, noFlags)
              | .nil => ((RCtx.right (.node false wl wv wid wr) pc pv pid
                  up).plug x, 0, ⟨true, false⟩)
            else
              -- case 4 mirrored
              match wl with
              | .node _ c1 cv cid c2 =>
                  ((up.plug (.node pc (.node false c1 cv cid c2) wv wid
                    (.node false wr pv pid x))).setRed false, 1, noFlags)
              | .nil => ((RCtx.right (.node false wl wv wid wr) pc pv pid
                  up).plug x, 0, ⟨true, false⟩)

/-- `RBTree.delete` (rb_tree.py:322-385): CLRS transplant-based removal.
With two real children, the in-order successor node `y` (minimum of the
right subtree, which has no left child) is moved into the target's
position, keeping the target's color; the target node itself leaves the
tree.  If the physically removed position's original color was BLACK, the
fixup runs on the node that moved in. -/
def rbDelete (s : RBS) (v : Key) : RBS × Bool × Nat × RbFlags :=
  match rbFindCtx s.root .root v with
  | none => (s, false, 0, noFlags)
  | some (.nil, _) => (s, false, 0, noFlags)
  | some (.node zc zl zv zid zr, ctx) =>
      if zl = .nil then
        let res := if zc then ((ctx.plug zr), 0, noFlags)
          else rbDelFix zr ctx
        ({ s with root := res.1, rotDel := s.rotDel + res.2.1 },
          true, res.2.1, res.2.2)
      else if zr = .nil then
        let res := if zc then ((ctx.plug zl), 0, noFlags)
          else rbDelFix zl ctx
        ({ s with root := res.1, rotDel := s.rotDel + res.2.1 },
          true, res.2.1, res.2.2)
      else
        match rbMinCtx zr .root with
        | (.node yc _ yv yid yr, cy) =>
            let xctx := cy.comp (.right zl zc yv yid ctx)
            let res := if yc then (xctx.plug yr, 0, noFlags)
              else rbDelFix yr xctx
            ({ s with root := res.1, rotDel := s.rotDel + res.2.1 },
              true, res.2.1, res.2.2)
        | (.nil, _) => (s, false, 0, noFlags)

/-- One public operation on a Red-Black instance. -/
inductive RBOp where
  | ins (v : Key)
  | del (v : Key)
  | mem (v : Key)
  | reset

def rbStep (s : RBS) : RBOp → RBS
  | .ins v => (rbInsert s v).1
  | .del v => (rbDelete s v).1
  | .mem _ => s
  | .reset => { s with rotIns := 0, rotDel := 0 }

inductive RBReach : RBS → Prop
  | init : RBReach ⟨.nil, 0, 0, 0⟩
  | step (s : RBS) (op : RBOp) : RBReach s → RBReach (rbStep s op)

/-! ## Red-Black: keys, pairs, context algebra -/

@[simp] theorem RBT.keys_setRed (t : RBT) (c : Bool) :
    (t.setRed c).keys = t.keys := by
  cases t <;> simp [RBT.setRed, RBT.keys]

@[simp] theorem RBT.pairs_setRed (t : RBT) (c : Bool) :
    (t.setRed c).pairs = t.pairs := by
  cases t <;> simp [RBT.setRed, RBT.pairs]

def RCtx.keysL : RCtx → List Key
  | root => []
  | left _ _ _ _ up => up.keysL
  | right sib _ v _ up => up.keysL ++ sib.keys ++ [v]

def RCtx.keysR : RCtx → List Key
  | root => []
  | left _ v _ sib up => v :: sib.keys ++ up.keysR
  | right _ _ _ _ up => up.keysR

def RCtx.pairsL : RCtx → List (Nat × Key)
  | root => []
  | left _ _ _ _ up => up.pairsL
  | right sib _ v id up => up.pairsL ++ sib.pairs ++ [(id, v)]

def RCtx.pairsR : RCtx → List (Nat × Key)
  | root => []
  | left _ v id sib up => (id, v) :: sib.pairs ++ up.pairsR
  | right _ _ _ _ up => up.pairsR

theorem rb_keys_plug (ctx : RCtx) (t : RBT) :
    (ctx.plug t).keys = ctx.keysL ++ t.keys ++ ctx.keysR := by
  induction ctx generalizing t with
  | root => simp [RCtx.plug, RCtx.keysL, RCtx.keysR]
  | left c v id sib up ih =>
      simp [RCtx.plug, RCtx.keysL, RCtx.keysR, ih, RBT.keys]
  | right sib c v id up ih =>
      simp [RCtx.plug, RCtx.keysL, RCtx.keysR, ih, RBT.keys]

theorem rb_pairs_plug (ctx : RCtx) (t : RBT) :
    (ctx.plug t).pairs = ctx.pairsL ++ t.pairs ++ ctx.pairsR := by
  induction ctx generalizing t with
  | root => simp [RCtx.plug, RCtx.pairsL, RCtx.pairsR]
  | left c v id sib up ih =>
      simp [RCtx.plug, RCtx.pairsL, RCtx.pairsR, ih, RBT.pairs]
  | right sib c v id up ih =>
      simp [RCtx.plug, RCtx.pairsL, RCtx.pairsR, ih, RBT.pairs]

theorem rb_plug_comp (inner outer : RCtx) (t : RBT) :
    (inner.comp outer).plug t = outer.plug (inner.plug t) := by
  induction inner generalizing t with
  | root => simp [RCtx.comp, RCtx.plug]
  | left c v id sib up ih => simp [RCtx.comp, RCtx.plug, ih]
  | right sib c v id up ih => simp [RCtx.comp, RCtx.plug, ih]

/-! ## Red-Black: ordering and membership -/

theorem rb_allB_iff (f : Key → Bool) (t : RBT) :
    t.allB f = true ↔ ∀ k ∈ t.keys, f k = true := by
  induction t with
  | nil => simp [RBT.allB, RBT.keys]
  | node c l v id r ihl ihr =>
      simp only [RBT.allB, RBT.keys, Bool.and_eq_true, ihl, ihr]
      constructor
      · rintro ⟨⟨hv, hl⟩, hr⟩ k hk
        rcases List.mem_append.mp hk with hk | hk
        · exact hl k hk
        · rcases List.mem_cons.mp hk with rfl | hk
          · exact hv
          · exact hr k hk
      · intro h2
        exact ⟨⟨h2 v (by simp), fun k hk => h2 k (by simp [hk])⟩,
          fun k hk => h2 k (by simp [hk])⟩

theorem rb_bstB_iff (t : RBT) :
    t.bstB = true ↔ t.keys.Pairwise (· < ·) := by
  induction t with
  | nil => simp [RBT.bstB, RBT.keys]
  | node c l v id r ihl ihr =>
      simp only [RBT.bstB, Bool.and_eq_true, RBT.keys, List.pairwise_append,
        List.pairwise_cons, ihl, ihr, rb_allB_iff, decide_eq_true_eq]
      constructor
      · rintro ⟨⟨⟨hl, hr⟩, hbl⟩, hbr⟩
        refine ⟨hbl, ⟨fun b hb => hr b hb, hbr⟩, ?_⟩
        intro a ha b hb
        rcases List.mem_cons.mp hb with rfl | hb
        · exact hl a ha
        · exact lt_trans (hl a ha) (hr b hb)
      · rintro ⟨hbl, ⟨hv, hbr⟩, hcross⟩
        exact ⟨⟨⟨fun a ha => hcross a ha v (by simp),
          fun b hb => hv b hb⟩, hbl⟩, hbr⟩

theorem rbContains_iff (t : RBT) (v : Key) (hb : t.bstB = true) :
    rbContains t v = true ↔ v ∈ t.keys := by
  induction t with
  | nil => simp [rbContains, RBT.keys]
  | node c l x id r ihl ihr =>
      simp only [RBT.bstB, Bool.and_eq_true, rb_allB_iff,
        decide_eq_true_eq] at hb
      obtain ⟨⟨⟨hl, hr⟩, hbl⟩, hbr⟩ := hb
      by_cases hvx : v = x
      · subst hvx; simp [rbContains, RBT.keys]
      · by_cases hlt : v < x
        · rw [rbContains]
          simp only [hvx, if_false, hlt, if_true, ihl hbl, RBT.keys,
            List.mem_append, List.mem_cons]
          constructor
          · exact fun h2 => Or.inl h2
          · rintro (h2 | h2 | h2)
            · exact h2
            · exact h2.elim
            · exact absurd (lt_trans hlt (hr v h2)) (lt_irrefl v)
        · rw [rbContains]
          simp only [hvx, if_false, hlt, ihr hbr, RBT.keys,
            List.mem_append, List.mem_cons]
          constructor
          · exact fun h2 => Or.inr (Or.inr h2)
          · rintro (h2 | h2 | h2)
            · exact absurd (hl v h2) hlt
            · exact h2.elim
            · exact h2

/-! ## Red-Black: the fixups preserve the in-order contents -/

def RCtx.size : RCtx → Nat
  | root => 0
  | left _ _ _ _ up => up.size + 1
  | right _ _ _ _ up => up.size + 1

theorem rbInsFix_keys (ctx : RCtx) (z : RBT) :
    (rbInsFix z ctx).1.keys = ctx.keysL ++ z.keys ++ ctx.keysR := by
  generalize hsz : ctx.size = n
  induction n using Nat.strong_induction_on generalizing ctx z with
  | _ n ih =>
      subst hsz
      cases ctx with
      | root => simp [rbInsFix, RCtx.keysL, RCtx.keysR]
      | left pc pv pid psib up =>
          rw [rbInsFix.eq_def]
          cases hpc : pc with
          | false =>
              simp [rb_keys_plug, RCtx.keysL, RCtx.keysR]
          | true =>
              cases up with
              | root =>
                  cases z with
                  | nil => simp [rb_keys_plug, RCtx.keysL, RCtx.keysR]
                  | node zc zl zv zid zr =>
                      simp [RBT.keys, RCtx.keysL, RCtx.keysR]
              | left gc gv gid gsib up2 =>
                  cases hg : gsib.redOf with
                  | true =>
                      simp only [hg, if_true]
                      rw [ih up2.size (by simp [RCtx.size]; omega) up2 _ rfl]
                      simp [RBT.keys, RCtx.keysL, RCtx.keysR]
                  | false =>
                      simp only [hg, Bool.false_eq_true, if_false]
                      simp [rb_keys_plug, RBT.keys, RCtx.keysL, RCtx.keysR]
              | right gsib gc gv gid up2 =>
                  cases hg : gsib.redOf with
                  | true =>
                      simp only [hg, if_true]
                      rw [ih up2.size (by simp [RCtx.size]; omega) up2 _ rfl]
                      simp [RBT.keys, RCtx.keysL, RCtx.keysR]
                  | false =>
                      cases z with
                      | nil =>
                          simp only [hg, Bool.false_eq_true, if_false]
                          simp [rb_keys_plug, RBT.keys, RCtx.keysL,
                            RCtx.keysR]
                      | node zc zl zv zid zr =>
                          simp only [hg, Bool.false_eq_true, if_false]
                          simp [rb_keys_plug, RBT.keys, RCtx.keysL,
                            RCtx.keysR]
      | right psib pc pv pid up =>
          rw [rbInsFix.eq_def]
          cases hpc : pc with
          | false =>
              simp [rb_keys_plug, RCtx.keysL, RCtx.keysR]
          | true =>
              cases up with
              | root =>
                  simp [rb_keys_plug, RCtx.keysL, RCtx.keysR]
              | right gsib gc gv gid up2 =>
                  cases hg : gsib.redOf with
                  | true =>
                      simp only [hg, if_true]
                      rw [ih up2.size (by simp [RCtx.size]; omega) up2 _ rfl]
                      simp [RBT.keys, RCtx.keysL, RCtx.keysR]
                  | false =>
                      simp only [hg, Bool.false_eq_true, if_false]
                      simp [rb_keys_plug, RBT.keys, RCtx.keysL, RCtx.keysR]
              | left gc gv gid gsib up2 =>
                  cases hg : gsib.redOf with
                  | true =>
                      simp only [hg, if_true]
                      rw [ih up2.size (by simp [RCtx.size]; omega) up2 _ rfl]
                      simp [RBT.keys, RCtx.keysL, RCtx.keysR]
                  | false =>
                      cases z with
                      | nil =>
                          simp only [hg, Bool.false_eq_true, if_false]
                          simp [rb_keys_plug, RBT.keys, RCtx.keysL,
                            RCtx.keysR]
                      | node zc zl zv zid zr =>
                          simp only [hg, Bool.false_eq_true, if_false]
                          simp [rb_keys_plug, RBT.keys, RCtx.keysL,
                            RCtx.keysR]

/-- In-order keys are the values of the in-order pairs. -/
theorem RBT.keys_eq_pairs (t : RBT) : t.keys = t.pairs.map Prod.snd := by
  induction t with
  | nil => rfl
  | node c l v id r ihl ihr => simp [RBT.keys, RBT.pairs, ihl, ihr]

theorem RCtx.keysL_eq_pairsL (ctx : RCtx) :
    ctx.keysL = ctx.pairsL.map Prod.snd := by
  induction ctx with
  | root => rfl
  | left c v id sib up ih => simp [RCtx.keysL, RCtx.pairsL, ih]
  | right sib c v id up ih =>
      simp [RCtx.keysL, RCtx.pairsL, ih, RBT.keys_eq_pairs]

theorem RCtx.keysR_eq_pairsR (ctx : RCtx) :
    ctx.keysR = ctx.pairsR.map Prod.snd := by
  induction ctx with
  | root => rfl
  | left c v id sib up ih =>
      simp [RCtx.keysR, RCtx.pairsR, ih, RBT.keys_eq_pairs]
  | right sib c v id up ih => simp [RCtx.keysR, RCtx.pairsR, ih]

theorem RCtx.pairsL_comp (inner outer : RCtx) :
    (inner.comp outer).pairsL = outer.pairsL ++ inner.pairsL := by
  induction inner with
  | root => simp [RCtx.comp, RCtx.pairsL]
  | left c v id sib up ih => simp [RCtx.comp, RCtx.pairsL, ih]
  | right sib c v id up ih => simp [RCtx.comp, RCtx.pairsL, ih]

theorem RCtx.pairsR_comp (inner outer : RCtx) :
    (inner.comp outer).pairsR = inner.pairsR ++ outer.pairsR := by
  induction inner with
  | root => simp [RCtx.comp, RCtx.pairsR]
  | left c v id sib up ih => simp [RCtx.comp, RCtx.pairsR, ih]
  | right sib c v id up ih => simp [RCtx.comp, RCtx.pairsR, ih]

theorem RCtx.keysL_comp (inner outer : RCtx) :
    (inner.comp outer).keysL = outer.keysL ++ inner.keysL := by
  simp [RCtx.keysL_eq_pairsL, RCtx.pairsL_comp]

theorem RCtx.keysR_comp (inner outer : RCtx) :
    (inner.comp outer).keysR = inner.keysR ++ outer.keysR := by
  simp [RCtx.keysR_eq_pairsR, RCtx.pairsR_comp]

/-- The delete fixup rearranges colors and shapes but never the in-order
sequence of physical nodes. -/
@[simp] theorem RBT.redOf_nil : (RBT.nil).redOf = false := rfl

@[simp] theorem RBT.redOf_node (c : Bool) (l : RBT) (v : Key) (id : Nat)
    (r : RBT) : (RBT.node c l v id r).redOf = c := rfl

/-- The delete fixup rearranges colors and shapes but never the in-order
sequence of physical nodes. -/
theorem rbDelFix_pairs (ctx : RCtx) : ∀ (x : RBT),
    (rbDelFix x ctx).1.pairs = ctx.pairsL ++ x.pairs ++ ctx.pairsR := by
  induction ctx with
  | root => intro x; simp [rbDelFix, RCtx.pairsL, RCtx.pairsR]
  | left pc pv pid w up ih =>
      intro x
      rw [rbDelFix.eq_def]
      cases hx : x.redOf
      case true =>
        simp [hx, rb_pairs_plug, RCtx.pairsL, RCtx.pairsR, RBT.pairs]
      case false =>
        cases w with
        | nil =>
            cases pc with
            | true =>
                simp [hx, rb_pairs_plug, RCtx.pairsL, RCtx.pairsR, RBT.pairs]
            | false =>
                have h1 := ih (.node false x pv pid .nil)
                simp only [hx, Bool.false_eq_true, if_false]
                simp [h1, RCtx.pairsL, RCtx.pairsR, RBT.pairs]
        | node wc wl wv wid wr =>
            cases wc with
            | true =>
                cases wl with
                | nil =>
                    simp [hx, rb_pairs_plug, RCtx.pairsL, RCtx.pairsR,
                      RBT.pairs]
                | node w2c w2l w2v w2id w2r =>
                    by_cases h2 : (!w2l.redOf && !w2r.redOf) = true
                    · simp [hx, h2, rb_pairs_plug, RCtx.pairsL, RCtx.pairsR,
                        RBT.pairs]
                    · by_cases h3 : (!w2r.redOf) = true
                      · have hred : w2l.redOf = true := by
                          cases hh : w2l.redOf
                          · exact absurd (by simp [hh, h3]) h2
                          · rfl
                        cases w2l with
                        | nil => simp at hred
                        | node ac a av aid b =>
                            simp only [RBT.redOf_node] at hred
                            subst hred
                            simp [hx, h3, rb_pairs_plug, RCtx.pairsL, RCtx.pairsR, RBT.pairs]
                      · have hred : w2r.redOf = true := by
                          cases hh : w2r.redOf
                          · exact absurd (by simp [hh]) h3
                          · rfl
                        cases w2r with
                        | nil => simp at hred
                        | node cc c1 cv cid c2 =>
                            simp only [RBT.redOf_node] at hred
                            subst hred
                            simp [hx, rb_pairs_plug, RCtx.pairsL, RCtx.pairsR, RBT.pairs]
            | false =>
                by_cases h2 : (!wl.redOf && !wr.redOf) = true
                · cases pc with
                  | true =>
                      simp [hx, h2, rb_pairs_plug, RCtx.pairsL, RCtx.pairsR,
                        RBT.pairs]
                  | false =>
                      have h1 := ih (.node false x pv pid (.node true wl wv wid wr))
                      simp only [hx, Bool.false_eq_true, if_false, h2, if_true]
                      simp [h1, RCtx.pairsL, RCtx.pairsR, RBT.pairs]
                · by_cases h3 : (!wr.redOf) = true
                  · have hred : wl.redOf = true := by
                      cases hh : wl.redOf
                      · exact absurd (by simp [hh, h3]) h2
                      · rfl
                    cases wl with
                    | nil => simp at hred
                    | node ac a av aid b =>
                        simp only [RBT.redOf_node] at hred
                        subst hred
                        simp [hx, h3, rb_pairs_plug, RCtx.pairsL, RCtx.pairsR, RBT.pairs]
                  · have hred : wr.redOf = true := by
                      cases hh : wr.redOf
                      · exact absurd (by simp [hh]) h3
                      · rfl
                    cases wr with
                    | nil => simp at hred
                    | node cc c1 cv cid c2 =>
                        simp only [RBT.redOf_node] at hred
                        subst hred
                        simp [hx, rb_pairs_plug, RCtx.pairsL, RCtx.pairsR, RBT.pairs]
  | right w pc pv pid up ih =>
      intro x
      rw [rbDelFix.eq_def]
      cases hx : x.redOf
      case true =>
        simp [hx, rb_pairs_plug, RCtx.pairsL, RCtx.pairsR, RBT.pairs]
      case false =>
        cases w with
        | nil =>
            cases pc with
            | true =>
                simp [hx, rb_pairs_plug, RCtx.pairsL, RCtx.pairsR, RBT.pairs]
            | false =>
                have h1 := ih (.node false .nil pv pid x)
                simp only [hx, Bool.false_eq_true, if_false]
                simp [h1, RCtx.pairsL, RCtx.pairsR, RBT.pairs]
        | node wc wl wv wid wr =>
            cases wc with
            | true =>
                cases wr with
                | nil =>
                    simp [hx, rb_pairs_plug, RCtx.pairsL, RCtx.pairsR,
                      RBT.pairs]
                | node w2c w2l w2v w2id w2r =>
                    by_cases h2 : (!w2r.redOf && !w2l.redOf) = true
                    · simp [hx, h2, rb_pairs_plug, RCtx.pairsL, RCtx.pairsR,
                        RBT.pairs]
                    · by_cases h3 : (!w2l.redOf) = true
                      · have hred : w2r.redOf = true := by
                          cases hh : w2r.redOf
                          · exact absurd (by simp [hh, h3]) h2
                          · rfl
                        cases w2r with
                        | nil => simp at hred
                        | node ac a av aid b =>
                            simp only [RBT.redOf_node] at hred
                            subst hred
                            simp [hx, h3, rb_pairs_plug, RCtx.pairsL, RCtx.pairsR, RBT.pairs]
                      · have hred : w2l.redOf = true := by
                          cases hh : w2l.redOf
                          · exact absurd (by simp [hh]) h3
                          · rfl
                        cases w2l with
                        | nil => simp at hred
                        | node cc c1 cv cid c2 =>
                            simp only [RBT.redOf_node] at hred
                            subst hred
                            simp [hx, rb_pairs_plug, RCtx.pairsL, RCtx.pairsR, RBT.pairs]
            | false =>
                by_cases h2 : (!wr.redOf && !wl.redOf) = true
                · cases pc with
                  | true =>
                      simp [hx, h2, rb_pairs_plug, RCtx.pairsL, RCtx.pairsR,
                        RBT.pairs]
                  | false =>
                      have h1 := ih (.node false (.node true wl wv wid wr) pv pid x)
                      simp only [hx, Bool.false_eq_true, if_false, h2, if_true]
                      simp [h1, RCtx.pairsL, RCtx.pairsR, RBT.pairs]
                · by_cases h3 : (!wl.redOf) = true
                  · have hred : wr.redOf = true := by
                      cases hh : wr.redOf
                      · exact absurd (by simp [hh, h3]) h2
                      · rfl
                    cases wr with
                    | nil => simp at hred
                    | node ac a av aid b =>
                        simp only [RBT.redOf_node] at hred
                        subst hred
                        simp [hx, h3, rb_pairs_plug, RCtx.pairsL, RCtx.pairsR, RBT.pairs]
                  · have hred : wl.redOf = true := by
                      cases hh : wl.redOf
                      · exact absurd (by simp [hh]) h3
                      · rfl
                    cases wl with
                    | nil => simp at hred
                    | node cc c1 cv cid c2 =>
                        simp only [RBT.redOf_node] at hred
                        subst hred
                        simp [hx, rb_pairs_plug, RCtx.pairsL, RCtx.pairsR, RBT.pairs]

theorem rbDelFix_keys (ctx : RCtx) (x : RBT) :
    (rbDelFix x ctx).1.keys = ctx.keysL ++ x.keys ++ ctx.keysR := by
  simp [RBT.keys_eq_pairs, RCtx.keysL_eq_pairsL, RCtx.keysR_eq_pairsR,
    rbDelFix_pairs]

/-! ## Red-Black: descent, search and minimum -/

/-- The insert descent reports a duplicate exactly when the key is already
present (both walk the same comparison path). -/
theorem rbInsDescend_none_iff (t : RBT) (ctx : RCtx) (v : Key) :
    rbInsDescend t ctx v = none ↔ rbContains t v = true := by
  induction t generalizing ctx with
  | nil => simp [rbInsDescend, rbContains]
  | node c l x id r ihl ihr =>
      by_cases hvx : v = x
      · simp [rbInsDescend, rbContains, hvx]
      · by_cases hlt : v < x
        · simp [rbInsDescend, rbContains, hvx, hlt, ihl]
        · simp [rbInsDescend, rbContains, hvx, hlt, ihr]

/-- Splicing the new key at the hole the descent returns places it at its
sorted position among the subtree keys. -/
theorem rbInsDescend_keys (t : RBT) : ∀ (ctx : RCtx) (v : Key) (ctx2 : RCtx),
    t.bstB = true → rbInsDescend t ctx v = some ctx2 →
    ctx2.keysL ++ v :: ctx2.keysR =
      ctx.keysL ++ insSorted v t.keys ++ ctx.keysR := by
  induction t with
  | nil =>
      intro ctx v ctx2 hb h
      simp only [rbInsDescend, Option.some_inj] at h
      subst h
      simp [RBT.keys, insSorted]
  | node c l x id r ihl ihr =>
      intro ctx v ctx2 hb h
      simp only [RBT.bstB, Bool.and_eq_true, rb_allB_iff,
        decide_eq_true_eq] at hb
      obtain ⟨⟨⟨hal, har⟩, hbl⟩, hbr⟩ := hb
      by_cases hvx : v = x
      · simp [rbInsDescend, hvx] at h
      · by_cases hlt : v < x
        · rw [rbInsDescend] at h
          simp only [hvx, if_false, hlt, if_true] at h
          have h1 := ihl (.left c x id r ctx) v ctx2 hbl h
          rw [h1]
          simp only [RCtx.keysL, RCtx.keysR, RBT.keys]
          rw [insSorted_append_lt v x l.keys r.keys hlt]
          simp
        · have hgt : x < v := lt_of_le_of_ne (not_lt.mp hlt) (Ne.symm hvx)
          rw [rbInsDescend] at h
          simp only [hvx, if_false, hlt] at h
          have h1 := ihr (.right l c x id ctx) v ctx2 hbr h
          rw [h1]
          simp only [RCtx.keysL, RCtx.keysR, RBT.keys]
          have h2 : insSorted v (l.keys ++ x :: r.keys) =
              l.keys ++ x :: insSorted v r.keys := by
            have h3 := insSorted_append_ge v (l.keys ++ [x]) r.keys
              (by
                intro a ha
                rcases List.mem_append.mp ha with ha | ha
                · exact lt_trans (hal a ha) hgt
                · rw [List.mem_singleton.mp ha]; exact hgt)
            simpa using h3
          rw [h2]
          simp

/-- The delete search succeeds exactly when the key is present. -/
theorem rbFindCtx_isSome (t : RBT) (v : Key) : ∀ (ctx : RCtx),
    (rbFindCtx t ctx v).isSome = rbContains t v := by
  induction t with
  | nil => intro ctx; simp [rbFindCtx, rbContains]
  | node c l x id r ihl ihr =>
      intro ctx
      by_cases hvx : v = x
      · simp [rbFindCtx, rbContains, hvx]
      · by_cases hlt : v < x <;>
          simp [rbFindCtx, rbContains, hvx, hlt, ihl, ihr]

/-- The delete search returns the focused node (a real node holding the
searched key) together with a faithful context for it. -/
theorem rbFindCtx_spec (t : RBT) (v : Key) :
    ∀ (ctx : RCtx) (z : RBT) (ctx2 : RCtx),
    rbFindCtx t ctx v = some (z, ctx2) →
    ctx2.plug z = ctx.plug t ∧ ∃ zc zl zid zr, z = .node zc zl v zid zr := by
  induction t with
  | nil => intro ctx z ctx2 h; simp [rbFindCtx] at h
  | node c l x id r ihl ihr =>
      intro ctx z ctx2 h
      by_cases hvx : v = x
      · subst hvx
        rw [rbFindCtx] at h
        simp only [if_true, Option.some_inj, Prod.mk.injEq, if_pos] at h
        obtain ⟨h1, h2⟩ := h
        subst h1; subst h2
        exact ⟨rfl, c, l, id, r, rfl⟩
      · by_cases hlt : v < x
        · rw [rbFindCtx] at h
          simp only [hvx, if_false, hlt, if_true] at h
          obtain ⟨h1, h2⟩ := ihl (.left c x id r ctx) z ctx2 h
          exact ⟨by simpa [RCtx.plug] using h1, h2⟩
        · rw [rbFindCtx] at h
          simp only [hvx, if_false, hlt] at h
          obtain ⟨h1, h2⟩ := ihr (.right l c x id ctx) z ctx2 h
          exact ⟨by simpa [RCtx.plug] using h1, h2⟩

/-- The minimum walk only ever descends left: the returned node has no left
child, its context rebuilds the input, and nothing is accumulated on the
left of the hole. -/
theorem rbMinCtx_spec (t : RBT) : ∀ (ctx : RCtx), t ≠ .nil →
    (rbMinCtx t ctx).2.plug (rbMinCtx t ctx).1 = ctx.plug t ∧
    (rbMinCtx t ctx).2.keysL = ctx.keysL ∧
    (rbMinCtx t ctx).2.pairsL = ctx.pairsL ∧
    ∃ yc yv yid yr, (rbMinCtx t ctx).1 = .node yc .nil yv yid yr := by
  induction t with
  | nil => intro ctx ht; exact absurd rfl ht
  | node c l x id r ihl ihr =>
      intro ctx ht
      cases l with
      | nil => exact ⟨rfl, rfl, rfl, c, x, id, r, rfl⟩
      | node c2 l2 x2 id2 r2 =>
          have h1 := ihl (.left c x id r ctx) (by simp)
          rw [rbMinCtx]
          exact ⟨by simpa [RCtx.plug] using h1.1,
            by simpa [RCtx.keysL] using h1.2.1,
            by simpa [RCtx.pairsL] using h1.2.2.1, h1.2.2.2⟩

/-! ## Red-Black: public operations against the sorted-list model -/

theorem rbInsert_keys (s : RBS) (v : Key) (hb : s.root.bstB = true) :
    (rbInsert s v).1.root.keys =
      (if rbContains s.root v then s.root.keys
       else insSorted v s.root.keys) := by
  cases hd : rbInsDescend s.root .root v with
  | none =>
      have hc : rbContains s.root v = true :=
        (rbInsDescend_none_iff _ _ _).mp hd
      simp [rbInsert, hd, hc]
  | some ctx =>
      have hc : rbContains s.root v = false := by
        cases hh : rbContains s.root v
        · rfl
        · rw [← rbInsDescend_none_iff s.root .root v, hd] at hh
          simp at hh
      have hk := rbInsDescend_keys s.root .root v ctx hb hd
      simp only [RCtx.keysL, RCtx.keysR, List.append_nil,
        List.nil_append] at hk
      have h2 : (rbInsFix (.node true .nil v s.nextId .nil) ctx).1.keys =
          ctx.keysL ++ [v] ++ ctx.keysR := by
        rw [rbInsFix_keys]
        simp [RBT.keys]
      simp only [rbInsert, hd, hc, Bool.false_eq_true, if_false,
        RBT.keys_setRed, h2]
      simpa using hk

theorem rbInsert_bst (s : RBS) (v : Key) (hb : s.root.bstB = true) :
    (rbInsert s v).1.root.bstB = true := by
  rw [rb_bstB_iff, rbInsert_keys s v hb]
  cases hc : rbContains s.root v
  · simp only [Bool.false_eq_true, if_false]
    have hm : v ∉ s.root.keys := fun h => by
      rw [(rbContains_iff _ v hb).mpr h] at hc
      exact Bool.true_eq_false.mp hc
    exact insSorted_pairwise v _ ((rb_bstB_iff _).mp hb) hm
  · simpa using (rb_bstB_iff _).mp hb

theorem rbDelete_keys (s : RBS) (v : Key) (hb : s.root.bstB = true) :
    (rbDelete s v).1.root.keys = s.root.keys.erase v := by
  cases hf : rbFindCtx s.root .root v with
  | none =>
      have hc : (rbFindCtx s.root .root v).isSome = rbContains s.root v :=
        rbFindCtx_isSome s.root v .root
      rw [hf] at hc
      have hm : v ∉ s.root.keys := fun h => by
        rw [(rbContains_iff _ v hb).mpr h] at hc
        simp at hc
      simp [rbDelete, hf, List.erase_of_not_mem hm]
  | some p =>
      obtain ⟨z, ctx⟩ := p
      obtain ⟨hplug, zc, zl, zid, zr, hz⟩ :=
        rbFindCtx_spec s.root v .root z ctx hf
      subst hz
      simp only [RCtx.plug] at hplug
      have hkeys : s.root.keys =
          ctx.keysL ++ (zl.keys ++ v :: zr.keys) ++ ctx.keysR := by
        rw [← hplug, rb_keys_plug]
        simp [RBT.keys]
      have hsorted := (rb_bstB_iff _).mp hb
      rw [hkeys] at hsorted
      have hsorted2 : ((ctx.keysL ++ zl.keys) ++
          v :: (zr.keys ++ ctx.keysR)).Pairwise (· < ·) := by
        simpa using hsorted
      have hA : ∀ a ∈ ctx.keysL ++ zl.keys, a < v := by
        intro a ha
        exact (List.pairwise_append.mp hsorted2).2.2 a ha v (by simp)
      have herase : s.root.keys.erase v =
          (ctx.keysL ++ zl.keys) ++ (zr.keys ++ ctx.keysR) := by
        rw [hkeys]
        have h3 := erase_sorted_middle v (ctx.keysL ++ zl.keys)
          (zr.keys ++ ctx.keysR) hA
        rw [← h3]
        congr 1
        simp
      rw [herase]
      by_cases hzl : zl = RBT.nil
      · subst hzl
        cases zc <;>
          simp [rbDelete, hf, rbDelFix_keys, rb_keys_plug, RBT.keys]
      · by_cases hzr : zr = RBT.nil
        · subst hzr
          cases zc <;>
            simp [rbDelete, hf, hzl, rbDelFix_keys, rb_keys_plug, RBT.keys]
        · cases hmc : rbMinCtx zr .root with
          | mk y cy =>
              obtain ⟨hmin1, hminL, hminPL, yc, yv, yid, yr, hy⟩ :=
                rbMinCtx_spec zr .root hzr
              rw [hmc] at hmin1 hminL hminPL hy
              subst hy
              simp only [RCtx.plug] at hmin1
              simp only [RCtx.keysL] at hminL
              have hzrk : zr.keys = yv :: yr.keys ++ cy.keysR := by
                rw [← hmin1, rb_keys_plug, hminL]
                simp [RBT.keys]
              cases yc <;>
                simp [rbDelete, hf, hzl, hzr, hmc, rbDelFix_keys,
                  rb_keys_plug, RCtx.keysL_comp, RCtx.keysR_comp,
                  RCtx.keysL, RCtx.keysR, hminL, hzrk, RBT.keys]

theorem rbDelete_bst (s : RBS) (v : Key) (hb : s.root.bstB = true) :
    (rbDelete s v).1.root.bstB = true := by
  rw [rb_bstB_iff, rbDelete_keys s v hb]
  exact List.Pairwise.sublist (List.erase_sublist v _)
    ((rb_bstB_iff _).mp hb)

def rbModelStep (m : List Key) : RBOp → List Key
  | .ins v => if v ∈ m then m else insSorted v m
  | .del v => m.erase v
  | .mem _ => m
  | .reset => m

/-- The sorted list of currently present keys after a sequence of calls. -/
def rbModel (ops : List RBOp) : List Key :=
  ops.foldl rbModelStep []

/-- Run a sequence of public calls on a freshly constructed Red-Black
tree. -/
def rbRun (ops : List RBOp) : RBS :=
  ops.foldl rbStep ⟨.nil, 0, 0, 0⟩

theorem rbStep_keys (s : RBS) (op : RBOp) (hs : s.root.bstB = true) :
    (rbStep s op).root.keys = rbModelStep s.root.keys op := by
  cases op with
  | ins v =>
      have h1 := rbInsert_keys s v hs
      by_cases hm : v ∈ s.root.keys
      · rw [(rbContains_iff _ v hs).mpr hm] at h1
        simp only [if_true] at h1
        simp [rbStep, rbModelStep, hm, h1]
      · have hc : rbContains s.root v = false := by
          cases hh : rbContains s.root v
          · rfl
          · exact absurd ((rbContains_iff _ v hs).mp hh) hm
        rw [hc] at h1
        simp only [Bool.false_eq_true, if_false] at h1
        simp [rbStep, rbModelStep, hm, h1]
  | del v => simp [rbStep, rbModelStep, rbDelete_keys s v hs]
  | mem v => rfl
  | reset => rfl

theorem rbStep_bst (s : RBS) (op : RBOp) (hs : s.root.bstB = true) :
    (rbStep s op).root.bstB = true := by
  cases op with
  | ins v => exact rbInsert_bst s v hs
  | del v => exact rbDelete_bst s v hs
  | mem v => exact hs
  | reset => exact hs

theorem rb_foldl_model (ops : List RBOp) (s : RBS) (m : List Key)
    (hs : s.root.bstB = true) (hm : s.root.keys = m) :
    (ops.foldl rbStep s).root.bstB = true ∧
      (ops.foldl rbStep s).root.keys = ops.foldl rbModelStep m := by
  induction ops generalizing s m with
  | nil => exact ⟨hs, by simpa using hm⟩
  | cons op ops ih =>
      have h1 := rbStep_bst s op hs
      have h2 := rbStep_keys s op hs
      simp only [List.foldl_cons]
      exact ih (rbStep s op) (rbModelStep m op) h1 (by rw [h2, hm])

theorem rbRun_keys (ops : List RBOp) :
    (rbRun ops).root.keys = rbModel ops ∧
      (rbModel ops).Pairwise (· < ·) := by
  have h := rb_foldl_model ops ⟨.nil, 0, 0, 0⟩ [] rfl rfl
  refine ⟨h.2, ?_⟩
  have h2 := (rb_bstB_iff _).mp h.1
  rwa [h.2] at h2

/-! ## Red-Black: duplicate insert and absent delete are pure no-ops -/

theorem rbInsert_dup (s : RBS) (v : Key) (h : rbContains s.root v = true) :
    rbInsert s v = (s, false, 0, noFlags) := by
  have hd : rbInsDescend s.root .root v = none :=
    (rbInsDescend_none_iff _ _ _).mpr h
  simp [rbInsert, hd]

theorem rbDelete_absent (s : RBS) (v : Key)
    (h : rbContains s.root v = false) :
    rbDelete s v = (s, false, 0, noFlags) := by
  have hf : rbFindCtx s.root .root v = none := by
    cases hh : rbFindCtx s.root .root v with
    | none => rfl
    | some p =>
        have h2 := rbFindCtx_isSome s.root v .root
        rw [hh, h] at h2
        simp at h2
  simp [rbDelete, hf]

/-! ## Red-Black: rotation counters -/

theorem rbInsert_counters (s : RBS) (v : Key) :
    (rbInsert s v).1.rotDel = s.rotDel ∧
      (rbInsert s v).1.rotIns = s.rotIns + (rbInsert s v).2.2.1 := by
  cases hd : rbInsDescend s.root .root v <;> simp [rbInsert, hd]

theorem rbDelete_counters (s : RBS) (v : Key) :
    (rbDelete s v).1.rotIns = s.rotIns ∧
      (rbDelete s v).1.rotDel = s.rotDel + (rbDelete s v).2.2.1 := by
  cases hf : rbFindCtx s.root .root v with
  | none => simp [rbDelete, hf]
  | some p =>
      obtain ⟨z, ctx⟩ := p
      cases z with
      | nil => simp [rbDelete, hf]
      | node zc zl zv zid zr =>
          by_cases hzl : zl = RBT.nil
          · subst hzl
            cases zc <;> simp [rbDelete, hf]
          · by_cases hzr : zr = RBT.nil
            · subst hzr
              cases zc <;> simp [rbDelete, hf, hzl]
            · cases hmc : rbMinCtx zr .root with
              | mk y cy =>
                  cases y with
                  | nil => simp [rbDelete, hf, hzl, hzr, hmc]
                  | node yc yl yv yid yr =>
                      cases yc <;> simp [rbDelete, hf, hzl, hzr, hmc]

/-! ## Red-Black: deleting a node with two children removes that node -/

/-- CLRS transplant: deleting a key whose node has two real children
physically removes the target node `(zid, v)` from the tree; every other
physical node — in particular the in-order successor, which keeps its own
identity and value — survives in order. -/
theorem rbDelete_two_children (s : RBS) (v : Key) (zc : Bool) (zl : RBT)
    (zid : Nat) (zr : RBT) (ctx : RCtx)
    (hf : rbFindCtx s.root .root v = some (.node zc zl v zid zr, ctx))
    (hzl : zl ≠ RBT.nil) (hzr : zr ≠ RBT.nil) :
    s.root.pairs =
      ctx.pairsL ++ zl.pairs ++ (zid, v) :: zr.pairs ++ ctx.pairsR ∧
    (rbDelete s v).1.root.pairs =
      ctx.pairsL ++ zl.pairs ++ zr.pairs ++ ctx.pairsR := by
  obtain ⟨hplug, _⟩ := rbFindCtx_spec s.root v .root _ ctx hf
  simp only [RCtx.plug] at hplug
  have hpairs : s.root.pairs =
      ctx.pairsL ++ zl.pairs ++ (zid, v) :: zr.pairs ++ ctx.pairsR := by
    rw [← hplug, rb_pairs_plug]
    simp [RBT.pairs]
  refine ⟨hpairs, ?_⟩
  cases hmc : rbMinCtx zr .root with
  | mk y cy =>
      obtain ⟨hmin1, hminL, hminPL, yc, yv, yid, yr, hy⟩ :=
        rbMinCtx_spec zr .root hzr
      rw [hmc] at hmin1 hminPL hy
      subst hy
      simp only [RCtx.plug] at hmin1
      simp only [RCtx.pairsL] at hminPL
      have hzrp : zr.pairs = (yid, yv) :: yr.pairs ++ cy.pairsR := by
        rw [← hmin1, rb_pairs_plug, hminPL]
        simp [RBT.pairs]
      cases yc <;>
        simp [rbDelete, hf, hzl, hzr, hmc, rbDelFix_pairs, rb_pairs_plug,
          RCtx.pairsL_comp, RCtx.pairsR_comp, RCtx.pairsL, RCtx.pairsR,
          hminPL, hzrp, RBT.pairs]

/-! ## Treap: each rotate-down step is the corresponding rotation
primitive, applied in the direction the code's rule picks -/

/-- Only a right child: the target is left-rotated (the primitive really
rotates), and the loop continues at the target's new position. -/
theorem delRotate_onlyRight (T2 T3 : Treap) (v yv : Key) (p yp : Nat)
    (q yq : Option Key) :
    trotLeft (.node .nil v p q (.node T2 yv yp yq T3)) =
      ⟨.node (.node .nil v p (some yv) (T2.withPar (some v))) yv yp q T3,
        true⟩ ∧
    delRotate (.node .nil v p q (.node T2 yv yp yq T3)) =
      (.node (delRotate (.node .nil v p (some yv)
          (T2.withPar (some v)))).1 yv yp q T3,
        .leftR :: (delRotate (.node .nil v p (some yv)
          (T2.withPar (some v)))).2) := by
  refine ⟨rfl, ?_⟩
  rw [delRotate]

/-- Only a left child: the target is right-rotated. -/
theorem delRotate_onlyLeft (T1 T2 : Treap) (xv v : Key) (xp p : Nat)
    (xq q : Option Key) :
    trotRight (.node (.node T1 xv xp xq T2) v p q .nil) =
      ⟨.node T1 xv xp q (.node (T2.withPar (some v)) v p (some xv) .nil),
        true⟩ ∧
    delRotate (.node (.node T1 xv xp xq T2) v p q .nil) =
      (.node T1 xv xp q (delRotate (.node (T2.withPar (some v)) v p
          (some xv) .nil)).1,
        .rightR :: (delRotate (.node (T2.withPar (some v)) v p
          (some xv) .nil)).2) := by
  refine ⟨rfl, ?_⟩
  rw [delRotate]

/-- Two children: rotate toward the strictly higher-priority child — the
comparison is `left.priority > right.priority`, so equal priorities take
the left-rotation branch. -/
theorem delRotate_both (T1 T2 U2 U3 : Treap) (xv v yv : Key)
    (xp p yp : Nat) (xq q yq : Option Key) :
    trotRight (.node (.node T1 xv xp xq T2) v p q (.node U2 yv yp yq U3)) =
      ⟨.node T1 xv xp q (.node (T2.withPar (some v)) v p (some xv)
        (.node U2 yv yp yq U3)), true⟩ ∧
    trotLeft (.node (.node T1 xv xp xq T2) v p q (.node U2 yv yp yq U3)) =
      ⟨.node (.node (.node T1 xv xp xq T2) v p (some yv)
        (U2.withPar (some v))) yv yp q U3, true⟩ ∧
    delRotate (.node (.node T1 xv xp xq T2) v p q (.node U2 yv yp yq U3)) =
      (if xp > yp then
        (.node T1 xv xp q (delRotate (.node (T2.withPar (some v)) v p
            (some xv) (.node U2 yv yp yq U3))).1,
          .rightR :: (delRotate (.node (T2.withPar (some v)) v p
            (some xv) (.node U2 yv yp yq U3))).2)
      else
        (.node (delRotate (.node (.node T1 xv xp xq T2) v p (some yv)
            (U2.withPar (some v)))).1 yv yp q U3,
          .leftR :: (delRotate (.node (.node T1 xv xp xq T2) v p
            (some yv) (U2.withPar (some v)))).2)) := by
  refine ⟨rfl, rfl, ?_⟩
  rw [delRotate]

/-! ## Red-Black: the color invariants (rb_tree.py:452-500, `validate`)

`bh` is the black-height (sentinel counted); `okB t` holds when inside `t`
every node's two children have equal black-heights and no RED node has a
RED child — together: every path from any node of `t` down to a sentinel
passes through the same number of BLACK nodes.  `RBValid` additionally
requires a BLACK root.  The sentinel is BLACK by definition of `redOf` and
never stores a value by construction; the `nilRed` flag records the (never
reached) RED writes into it. -/

def bh : RBT → Nat
  | .nil => 1
  | .node c l _ _ _ => bh l + (cond c 0 1)

@[simp] theorem bh_nil : bh RBT.nil = 1 := rfl

@[simp] theorem bh_node (c : Bool) (l : RBT) (v : Key) (id : Nat) (r : RBT) :
    bh (RBT.node c l v id r) = bh l + (cond c 0 1) := rfl

def okB : RBT → Bool
  | .nil => true
  | .node c l _ _ r =>
      okB l && okB r && (bh l == bh r) && !(c && (l.redOf || r.redOf))

@[simp] theorem okB_nil : okB RBT.nil = true := rfl

@[simp] theorem okB_node (c : Bool) (l : RBT) (v : Key) (id : Nat) (r : RBT) :
    okB (RBT.node c l v id r) =
      (okB l && okB r && (bh l == bh r) && !(c && (l.redOf || r.redOf))) :=
  rfl

def RBValid (t : RBT) : Bool := okB t && !t.redOf

theorem one_le_bh (t : RBT) : 1 ≤ bh t := by
  induction t with
  | nil => simp
  | node c l v id r ihl ihr => simp; omega

@[simp] theorem redOf_setRed_false (t : RBT) :
    (t.setRed false).redOf = false := by
  cases t <;> rfl

theorem okB_setRed (t : RBT) (h : okB t = true) :
    okB (t.setRed false) = true := by
  cases t with
  | nil => rfl
  | node c l v id r =>
      simp only [RBT.setRed, okB_node, Bool.and_eq_true] at h ⊢
      exact ⟨h.1, by simp⟩

theorem bh_setRed_red (t : RBT) (h : t.redOf = true) :
    bh (t.setRed false) = bh t + 1 := by
  cases t with
  | nil => simp at h
  | node c l v id r =>
      simp only [RBT.redOf_node] at h
      subst h
      simp [RBT.setRed]

/-- Color of the node owning the hole (`false` at the root). -/
def frameRed : RCtx → Bool
  | .root => false
  | .left c _ _ _ _ => c
  | .right _ c _ _ _ => c

def atRoot : RCtx → Bool
  | .root => true
  | .left _ _ _ _ _ => false
  | .right _ _ _ _ _ => false

/-- Validity of a path context expecting a subtree of black-height `n` in
its hole: every side tree is internally valid with the black-height the
hole position dictates, and a RED frame has a BLACK parent frame, a BLACK
sibling, and is not the tree root. -/
def ctxOk : RCtx → Nat → Bool
  | .root, _ => true
  | .left c _ _ sib up, n =>
      okB sib && (bh sib == n) &&
        !(c && (sib.redOf || frameRed up || atRoot up)) &&
        ctxOk up (n + cond c 0 1)
  | .right sib c _ _ up, n =>
      okB sib && (bh sib == n) &&
        !(c && (sib.redOf || frameRed up || atRoot up)) &&
        ctxOk up (n + cond c 0 1)

/-- Plugging a valid subtree of the expected black-height into a valid
context yields a valid tree with a BLACK root (a RED subtree root needs a
BLACK frame above it, and may not sit at the tree root). -/
theorem plug_valid (ctx : RCtx) : ∀ (t : RBT) (n : Nat),
    ctxOk ctx n = true → okB t = true → bh t = n →
    (t.redOf = true → frameRed ctx = false ∧ atRoot ctx = false) →
    okB (ctx.plug t) = true ∧ (ctx.plug t).redOf = false := by
  induction ctx with
  | root =>
      intro t n hc ht hb hr
      have htr : t.redOf = false := by
        cases hh : t.redOf
        · rfl
        · exact absurd ((hr hh).2) (by simp [atRoot])
      exact ⟨ht, htr⟩
  | left c v id sib up ih =>
      intro t n hc ht hb hr
      simp only [ctxOk, Bool.and_eq_true, beq_iff_eq] at hc
      obtain ⟨⟨⟨hsib, hbs⟩, hcc⟩, hup⟩ := hc
      rw [RCtx.plug]
      cases c with
      | false =>
          refine ih (.node false t v id sib) (n + 1) (by simpa using hup)
            ?_ (by simp [hb]) ?_
          · simp [ht, hsib, hb, hbs]
          · intro hh; simp at hh
      | true =>
          have hs1 : sib.redOf = false := by
            cases hh : sib.redOf
            · rfl
            · rw [hh] at hcc; simp at hcc
          have hs2 : frameRed up = false := by
            cases hh : frameRed up
            · rfl
            · rw [hh] at hcc; simp at hcc
          have hs3 : atRoot up = false := by
            cases hh : atRoot up
            · rfl
            · rw [hh] at hcc; simp at hcc
          have htr : t.redOf = false := by
            cases hh : t.redOf
            · rfl
            · exact absurd ((hr hh).1) (by simp [frameRed])
          refine ih (.node true t v id sib) (n + 0) (by simpa using hup)
            ?_ (by simp [hb]) ?_
          · simp [ht, hsib, hb, hbs, htr, hs1]
          · intro hh
            exact ⟨hs2, hs3⟩
  | right sib c v id up ih =>
      intro t n hc ht hb hr
      simp only [ctxOk, Bool.and_eq_true, beq_iff_eq] at hc
      obtain ⟨⟨⟨hsib, hbs⟩, hcc⟩, hup⟩ := hc
      rw [RCtx.plug]
      cases c with
      | false =>
          refine ih (.node false sib v id t) (n + 1) (by simpa using hup)
            ?_ (by simp [hbs]) ?_
          · simp [ht, hsib, hb, hbs]
          · intro hh; simp at hh
      | true =>
          have hs1 : sib.redOf = false := by
            cases hh : sib.redOf
            · rfl
            · rw [hh] at hcc; simp at hcc
          have hs2 : frameRed up = false := by
            cases hh : frameRed up
            · rfl
            · rw [hh] at hcc; simp at hcc
          have hs3 : atRoot up = false := by
            cases hh : atRoot up
            · rfl
            · rw [hh] at hcc; simp at hcc
          have htr : t.redOf = false := by
            cases hh : t.redOf
            · rfl
            · exact absurd ((hr hh).1) (by simp [frameRed])
          refine ih (.node true sib v id t) (n + 0) (by simpa using hup)
            ?_ (by simp [hbs]) ?_
          · simp [ht, hsib, hb, hbs, htr, hs1]
          · intro hh
            exact ⟨hs2, hs3⟩

/-- The insert fixup restores validity: called on a RED focus whose subtree
is internally valid, inside a valid context, it returns a tree that is
valid except possibly for a RED root (which `insert` then blackens), and
neither degenerate flag is ever raised. -/
theorem rbInsFix_valid (ctx : RCtx) : ∀ (z : RBT),
    z.redOf = true → okB z = true → ctxOk ctx (bh z) = true →
    okB (rbInsFix z ctx).1 = true ∧ (rbInsFix z ctx).2.2 = noFlags := by
  generalize hsz : ctx.size = k
  induction k using Nat.strong_induction_on generalizing ctx with
  | _ k ih =>
      subst hsz
      intro z hzr hzok hctx
      cases ctx with
      | root => exact ⟨by simpa [rbInsFix] using hzok, by simp [rbInsFix]⟩
      | left pc pv pid psib up =>
          rw [rbInsFix.eq_def]
          simp only [ctxOk, Bool.and_eq_true, beq_iff_eq] at hctx
          obtain ⟨⟨⟨hsib, hbs⟩, hcc⟩, hup⟩ := hctx
          cases pc with
          | false =>
              simp only [Bool.cond_false] at hup
              have hpl := plug_valid (.left false pv pid psib up) z (bh z)
                (by simp [ctxOk, hsib, hbs, hup]) hzok rfl
                (fun _ => ⟨rfl, rfl⟩)
              simp [hpl.1]
          | true =>
              have hs1 : psib.redOf = false := by
                cases hh : psib.redOf
                · rfl
                · rw [hh] at hcc; simp at hcc
              have hs2 : frameRed up = false := by
                cases hh : frameRed up
                · rfl
                · rw [hh] at hcc; simp at hcc
              have hs3 : atRoot up = false := by
                cases hh : atRoot up
                · rfl
                · rw [hh] at hcc; simp at hcc
              cases up with
              | root => exact absurd hs3 (by simp [atRoot])
              | left gc gv gid gsib up2 =>
                  have hgc : gc = false := hs2
                  subst hgc
                  simp only [ctxOk, Bool.and_eq_true, beq_iff_eq,
                    Bool.cond_true, Bool.cond_false, Nat.add_zero] at hup
                  obtain ⟨⟨⟨hgs, hbg⟩, hgcc⟩, hup2⟩ := hup
                  cases hgr : gsib.redOf with
                  | true =>
                      have hrec := ih up2.size (by simp [RCtx.size]; omega)
                        up2 rfl
                        (RBT.node true (RBT.node false z pv pid psib) gv gid (gsib.setRed false)) rfl
                        (by simp [hzok, hsib, hbs, okB_setRed gsib hgs,
                          bh_setRed_red gsib hgr, hbg, hs1])
                        (by simpa [bh_setRed_red gsib hgr, hbs, hbg]
                          using hup2)
                      simp [hgr, hrec.1, hrec.2]
                  | false =>
                      have hpl := plug_valid up2
                        (RBT.node false z pv pid (RBT.node true psib gv gid gsib))
                        (bh z + 1)
                        (by simpa [hbs] using hup2)
                        (by simp [hzok, hsib, hbs, hgs, hbg, hs1, hgr])
                        (by simp [hbs])
                        (fun hh => by simp at hh)
                      simp [hgr, hpl.1]
              | right gsib gc gv gid up2 =>
                  have hgc : gc = false := hs2
                  subst hgc
                  simp only [ctxOk, Bool.and_eq_true, beq_iff_eq,
                    Bool.cond_true, Bool.cond_false, Nat.add_zero] at hup
                  obtain ⟨⟨⟨hgs, hbg⟩, hgcc⟩, hup2⟩ := hup
                  cases hgr : gsib.redOf with
                  | true =>
                      have hrec := ih up2.size (by simp [RCtx.size]; omega)
                        up2 rfl
                        (RBT.node true (gsib.setRed false) gv gid (RBT.node false z pv pid psib)) rfl
                        (by simp [hzok, hsib, hbs, okB_setRed gsib hgs,
                          bh_setRed_red gsib hgr, hbg, hs1])
                        (by simpa [bh_setRed_red gsib hgr, hbs, hbg]
                          using hup2)
                      simp [hgr, hrec.1, hrec.2]
                  | false =>
                      cases z with
                      | nil => simp at hzr
                      | node zc zl zv zid zr =>
                          simp only [RBT.redOf_node] at hzr
                          subst hzr
                          simp only [okB_node, Bool.and_eq_true,
                            beq_iff_eq] at hzok
                          obtain ⟨⟨⟨hozl, hozr⟩, hbzz⟩, hzcc⟩ := hzok
                          have hzl : zl.redOf = false := by
                            cases hh : zl.redOf
                            · rfl
                            · rw [hh] at hzcc; simp at hzcc
                          have hzrb : zr.redOf = false := by
                            cases hh : zr.redOf
                            · rfl
                            · rw [hh] at hzcc; simp at hzcc
                          simp only [bh_node, Bool.cond_true,
                            Nat.add_zero] at hbs hbg hup2
                          have hpl := plug_valid up2
                            (RBT.node false (RBT.node true gsib gv gid zl) zv zid
                              (RBT.node true zr pv pid psib))
                            (bh zl + 1)
                            (by simpa using hup2)
                            (by simp [hozl, hozr, hbzz, hsib, hbs, hgs,
                              hbg, hs1, hgr, hzl, hzrb])
                            (by simp [hbg])
                            (fun hh => by simp at hh)
                          simp [hgr, hpl.1]
      | right psib pc pv pid up =>
          rw [rbInsFix.eq_def]
          simp only [ctxOk, Bool.and_eq_true, beq_iff_eq] at hctx
          obtain ⟨⟨⟨hsib, hbs⟩, hcc⟩, hup⟩ := hctx
          cases pc with
          | false =>
              simp only [Bool.cond_false] at hup
              have hpl := plug_valid (.right psib false pv pid up) z (bh z)
                (by simp [ctxOk, hsib, hbs, hup]) hzok rfl
                (fun _ => ⟨rfl, rfl⟩)
              simp [hpl.1]
          | true =>
              have hs1 : psib.redOf = false := by
                cases hh : psib.redOf
                · rfl
                · rw [hh] at hcc; simp at hcc
              have hs2 : frameRed up = false := by
                cases hh : frameRed up
                · rfl
                · rw [hh] at hcc; simp at hcc
              have hs3 : atRoot up = false := by
                cases hh : atRoot up
                · rfl
                · rw [hh] at hcc; simp at hcc
              cases up with
              | root => exact absurd hs3 (by simp [atRoot])
              | right gsib gc gv gid up2 =>
                  have hgc : gc = false := hs2
                  subst hgc
                  simp only [ctxOk, Bool.and_eq_true, beq_iff_eq,
                    Bool.cond_true, Bool.cond_false, Nat.add_zero] at hup
                  obtain ⟨⟨⟨hgs, hbg⟩, hgcc⟩, hup2⟩ := hup
                  cases hgr : gsib.redOf with
                  | true =>
                      have hrec := ih up2.size (by simp [RCtx.size]; omega)
                        up2 rfl
                        (RBT.node true (gsib.setRed false) gv gid (RBT.node false psib pv pid z)) rfl
                        (by simp [hzok, hsib, hbs, okB_setRed gsib hgs,
                          bh_setRed_red gsib hgr, hbg, hs1])
                        (by simpa [bh_setRed_red gsib hgr, hbs, hbg]
                          using hup2)
                      simp [hgr, hrec.1, hrec.2]
                  | false =>
                      have hpl := plug_valid up2
                        (RBT.node false (RBT.node true gsib gv gid psib) pv pid z)
                        (bh z + 1)
                        (by simpa [hbs] using hup2)
                        (by simp [hzok, hsib, hbs, hgs, hbg, hs1, hgr])
                        (by simp [hbg, hbs])
                        (fun hh => by simp at hh)
                      simp [hgr, hpl.1]
              | left gc gv gid gsib up2 =>
                  have hgc : gc = false := hs2
                  subst hgc
                  simp only [ctxOk, Bool.and_eq_true, beq_iff_eq,
                    Bool.cond_true, Bool.cond_false, Nat.add_zero] at hup
                  obtain ⟨⟨⟨hgs, hbg⟩, hgcc⟩, hup2⟩ := hup
                  cases hgr : gsib.redOf with
                  | true =>
                      have hrec := ih up2.size (by simp [RCtx.size]; omega)
                        up2 rfl
                        (RBT.node true (RBT.node false psib pv pid z) gv gid (gsib.setRed false)) rfl
                        (by simp [hzok, hsib, hbs, okB_setRed gsib hgs,
                          bh_setRed_red gsib hgr, hbg, hs1])
                        (by simpa [bh_setRed_red gsib hgr, hbs, hbg]
                          using hup2)
                      simp [hgr, hrec.1, hrec.2]
                  | false =>
                      cases z with
                      | nil => simp at hzr
                      | node zc zl zv zid zr =>
                          simp only [RBT.redOf_node] at hzr
                          subst hzr
                          simp only [okB_node, Bool.and_eq_true,
                            beq_iff_eq] at hzok
                          obtain ⟨⟨⟨hozl, hozr⟩, hbzz⟩, hzcc⟩ := hzok
                          have hzl : zl.redOf = false := by
                            cases hh : zl.redOf
                            · rfl
                            · rw [hh] at hzcc; simp at hzcc
                          have hzrb : zr.redOf = false := by
                            cases hh : zr.redOf
                            · rfl
                            · rw [hh] at hzcc; simp at hzcc
                          simp only [bh_node, Bool.cond_true,
                            Nat.add_zero] at hbs hbg hup2
                          have hpl := plug_valid up2
                            (RBT.node false (RBT.node true psib pv pid zl) zv zid
                              (RBT.node true zr gv gid gsib))
                            (bh zl + 1)
                            (by simpa using hup2)
                            (by simp [hozl, hozr, hbzz, hsib, hbs, hgs,
                              hbg, hs1, hgr, hzl, hzrb])
                            (by simp [hbs])
                            (fun hh => by simp at hh)
                          simp [hgr, hpl.1]

/-- Descending from a valid position keeps the context valid; the hole the
insert descent returns expects a fresh RED leaf (black-height 1). -/
theorem rbInsDescend_ctxOk (t : RBT) : ∀ (ctx : RCtx) (v : Key) (ctx2 : RCtx),
    okB t = true → ctxOk ctx (bh t) = true →
    (t.redOf = true → frameRed ctx = false ∧ atRoot ctx = false) →
    rbInsDescend t ctx v = some ctx2 → ctxOk ctx2 1 = true := by
  induction t with
  | nil =>
      intro ctx v ctx2 hok hc hr h
      simp only [rbInsDescend, Option.some_inj] at h
      subst h
      simpa using hc
  | node c l x id r ihl ihr =>
      intro ctx v ctx2 hok hc hr h
      simp only [okB_node, Bool.and_eq_true, beq_iff_eq] at hok
      obtain ⟨⟨⟨hol, hor⟩, hblr⟩, hocc⟩ := hok
      have hkids : c = true → l.redOf = false ∧ r.redOf = false := by
        intro hcv
        subst hcv
        refine ⟨?_, ?_⟩
        · cases hh : l.redOf
          · rfl
          · rw [hh] at hocc; simp at hocc
        · cases hh : r.redOf
          · rfl
          · rw [hh] at hocc; simp at hocc
      by_cases hvx : v = x
      · simp [rbInsDescend, hvx] at h
      · by_cases hlt : v < x
        · rw [rbInsDescend] at h
          simp only [hvx, if_false, hlt, if_true] at h
          refine ihl (.left c x id r ctx) v ctx2 hol ?_ ?_ h
          · simp only [ctxOk, Bool.and_eq_true, beq_iff_eq]
            refine ⟨⟨⟨hor, hblr.symm⟩, ?_⟩, by simpa using hc⟩
            cases c with
            | false => simp
            | true =>
                have hf := hr (by simp)
                simp [(hkids rfl).2, hf.1, hf.2]
          · intro hh
            refine ⟨?_, rfl⟩
            show c = false
            cases hcv : c
            · rfl
            · exact absurd hh (by simp [(hkids hcv).1])
        · rw [rbInsDescend] at h
          simp only [hvx, if_false, hlt] at h
          refine ihr (.right l c x id ctx) v ctx2 hor ?_ ?_ h
          · simp only [ctxOk, Bool.and_eq_true, beq_iff_eq]
            refine ⟨⟨⟨hol, hblr⟩, ?_⟩, by simpa [hblr] using hc⟩
            cases c with
            | false => simp
            | true =>
                have hf := hr (by simp)
                simp [(hkids rfl).1, hf.1, hf.2]
          · intro hh
            refine ⟨?_, rfl⟩
            show c = false
            cases hcv : c
            · rfl
            · exact absurd hh (by simp [(hkids hcv).2])

/-- `RBTree.insert` keeps the tree a valid Red-Black tree (BLACK root
included) and never reaches a degenerate branch. -/
theorem rbInsert_valid (s : RBS) (v : Key) (hok : okB s.root = true)
    (hrt : s.root.redOf = false) :
    okB (rbInsert s v).1.root = true ∧
      (rbInsert s v).1.root.redOf = false ∧
      (rbInsert s v).2.2.2 = noFlags := by
  cases hd : rbInsDescend s.root .root v with
  | none => simp [rbInsert, hd, hok, hrt]
  | some ctx =>
      have hctx := rbInsDescend_ctxOk s.root .root v ctx hok (by simp [ctxOk])
        (fun hh => absurd hh (by simp [hrt])) hd
      have hfix := rbInsFix_valid ctx (.node true .nil v s.nextId .nil) rfl
        (by simp) (by simpa using hctx)
      refine ⟨?_, ?_, ?_⟩
      · simp [rbInsert, hd, okB_setRed _ hfix.1]
      · simp [rbInsert, hd]
      · simp [rbInsert, hd, hfix.2]

/-- The delete fixup absorbs the missing black: called on a valid focus
whose black-height is one short of what the hole expects, it returns a
valid BLACK-rooted tree and raises no degenerate flag. -/
theorem rbDelFix_valid (ctx : RCtx) : ∀ (x : RBT) (n : Nat),
    okB x = true → bh x + 1 = n → ctxOk ctx n = true →
    okB (rbDelFix x ctx).1 = true ∧ (rbDelFix x ctx).1.redOf = false ∧
      (rbDelFix x ctx).2.2 = noFlags := by
  induction ctx with
  | root =>
      intro x n hok hbn hc
      refine ⟨?_, ?_, ?_⟩ <;> simp [rbDelFix, okB_setRed x hok]
  | left pc pv pid w up ih =>
      intro x n hok hbn hc
      rw [rbDelFix.eq_def]
      simp only [ctxOk, Bool.and_eq_true, beq_iff_eq] at hc
      obtain ⟨⟨⟨hw, hbw⟩, hcc⟩, hup⟩ := hc
      have hfr : pc = true →
          w.redOf = false ∧ frameRed up = false ∧ atRoot up = false := by
        intro hpc
        rw [hpc] at hcc
        refine ⟨?_, ?_, ?_⟩
        · cases hh : w.redOf
          · rfl
          · rw [hh] at hcc; simp at hcc
        · cases hh : frameRed up
          · rfl
          · rw [hh] at hcc; simp at hcc
        · cases hh : atRoot up
          · rfl
          · rw [hh] at hcc; simp at hcc
      cases hx : x.redOf with
      | true =>
          have hpw : (pc && w.redOf) = false := by
            cases hpc : pc
            · rfl
            · simp [(hfr hpc).1]
          have hpl := plug_valid up (.node pc (x.setRed false) pv pid w)
            (n + cond pc 0 1) hup
            (by simp [okB_setRed x hok, hw, bh_setRed_red x hx, hbn, hbw,
              hpw] <;> omega)
            (by simp [bh_setRed_red x hx, hbn] <;> omega)
            (fun hh => by
              have hpc : pc = true := by simpa using hh
              exact ⟨(hfr hpc).2.1, (hfr hpc).2.2⟩)
          simp [hx, hpl.1, hpl.2]
      | false =>
          cases w with
          | nil =>
              exfalso
              have h1 := one_le_bh x
              simp only [bh_nil] at hbw
              omega
          | node wc wl wv wid wr =>
              simp only [okB_node, Bool.and_eq_true, beq_iff_eq] at hw
              obtain ⟨⟨⟨howl, howr⟩, hbww⟩, hwcc⟩ := hw
              cases wc with
              | true =>
                  have hpc : pc = false := by
                    cases hpc : pc
                    · rfl
                    · exact absurd ((hfr hpc).1) (by simp)
                  subst hpc
                  have hwlb : wl.redOf = false := by
                    cases hh : wl.redOf
                    · rfl
                    · rw [hh] at hwcc; simp at hwcc
                  have hwrb : wr.redOf = false := by
                    cases hh : wr.redOf
                    · rfl
                    · rw [hh] at hwcc; simp at hwcc
                  simp only [bh_node, Bool.cond_true, Nat.add_zero] at hbw
                  cases wl with
                  | nil =>
                      exfalso
                      have h1 := one_le_bh x
                      simp only [bh_nil] at hbw
                      omega
                  | node w2c w2l w2v w2id w2r =>
                      have hw2c : w2c = false := by simpa using hwlb
                      subst hw2c
                      simp only [okB_node, Bool.and_eq_true,
                        beq_iff_eq] at howl
                      obtain ⟨⟨⟨ho2l, ho2r⟩, hb22⟩, h2cc⟩ := howl
                      simp only [bh_node, Bool.cond_false] at hbw hbww
                      have hx2 : bh x = bh w2l := by omega
                      have hwrn : bh wr = n := by omega
                      by_cases h2 : (!w2l.redOf && !w2r.redOf) = true
                      · have h2l : w2l.redOf = false := by
                          cases hh : w2l.redOf
                          · rfl
                          · rw [hh] at h2; simp at h2
                        have h2r : w2r.redOf = false := by
                          cases hh : w2r.redOf
                          · rfl
                          · rw [hh] at h2; simp at h2
                        have hpl := plug_valid up
                          (.node false (.node false x pv pid
                            (.node true w2l w2v w2id w2r)) wv wid wr)
                          (n + 1) (by simpa using hup)
                          (by simp [hok, ho2l, ho2r, hb22, howr, h2l, h2r,
                            hx2, hwrn, hbw] <;> omega)
                          (by simp [hx2, hbw] <;> omega)
                          (fun hh => by simp at hh)
                        simp [hx, h2, hpl.1, hpl.2]
                      · by_cases h3 : (!w2r.redOf) = true
                        · have hred : w2l.redOf = true := by
                            cases hh : w2l.redOf
                            · exact absurd (by simp [hh, h3] <;> omega) h2
                            · rfl
                          cases w2l with
                          | nil => simp at hred
                          | node ac a av aid b =>
                              have hac : ac = true := by simpa using hred
                              subst hac
                              simp only [okB_node, Bool.and_eq_true,
                                beq_iff_eq] at ho2l
                              obtain ⟨⟨⟨hoa, hob⟩, hbab⟩, habcc⟩ := ho2l
                              have hab1 : a.redOf = false := by
                                cases hh : a.redOf
                                · rfl
                                · rw [hh] at habcc; simp at habcc
                              have hab2 : b.redOf = false := by
                                cases hh : b.redOf
                                · rfl
                                · rw [hh] at habcc; simp at habcc
                              have h3b : w2r.redOf = false := by
                                simpa using h3
                              simp only [bh_node, Bool.cond_true,
                                Nat.add_zero] at hbw hb22 hx2
                              have e1 : bh b = bh w2r := by omega
                              have e2 : bh x = bh b := by omega
                              have hpl := plug_valid up
                                (.node false (.node true
                                  (.node false x pv pid a) av aid
                                  (.node false b w2v w2id w2r)) wv wid wr)
                                (n + 1) (by simpa using hup)
                                (by simp [hok, hoa, hob, ho2r, howr, e1,
                                  e2, hx2, hwrn, hbn] <;> omega)
                                (by simp [hbn] <;> omega)
                                (fun hh => by simp at hh)
                              refine ⟨?_, ?_, ?_⟩
                              · simp [hx, h2, h3, okB_setRed _ hpl.1]
                              · simp [hx, h2, h3]
                              · simp [hx, h2, h3]
                        · have hred : w2r.redOf = true := by
                            cases hh : w2r.redOf
                            · exact absurd (by simp [hh] <;> omega) h3
                            · rfl
                          cases w2r with
                          | nil => simp at hred
                          | node cc c1 cv cid c2 =>
                              have hcc2 : cc = true := by simpa using hred
                              subst hcc2
                              simp only [okB_node, Bool.and_eq_true,
                                beq_iff_eq] at ho2r
                              obtain ⟨⟨⟨hoc1, hoc2⟩, hbc⟩, hccc⟩ := ho2r
                              have hc1b : c1.redOf = false := by
                                cases hh : c1.redOf
                                · rfl
                                · rw [hh] at hccc; simp at hccc
                              have hc2b : c2.redOf = false := by
                                cases hh : c2.redOf
                                · rfl
                                · rw [hh] at hccc; simp at hccc
                              simp only [bh_node, Bool.cond_true,
                                Nat.add_zero] at hb22
                              have e3 : bh x = bh c1 := by omega
                              have hpl := plug_valid up
                                (.node false (.node true
                                  (.node false x pv pid w2l) w2v w2id
                                  (.node false c1 cv cid c2)) wv wid wr)
                                (n + 1) (by simpa using hup)
                                (by simp [hok, ho2l, hoc1, hoc2, hbc, howr,
                                  hx2, hwrn, hbn, e3] <;> omega)
                                (by simp [hbn] <;> omega)
                                (fun hh => by simp at hh)
                              refine ⟨?_, ?_, ?_⟩
                              · simp [hx, h2, h3, okB_setRed _ hpl.1]
                              · simp [hx, h2, h3]
                              · simp [hx, h2, h3]
              | false =>
                  simp only [bh_node, Bool.cond_false] at hbw
                  have hxwl : bh x = bh wl := by omega
                  by_cases h2 : (!wl.redOf && !wr.redOf) = true
                  · have hwlb : wl.redOf = false := by
                      cases hh : wl.redOf
                      · rfl
                      · rw [hh] at h2; simp at h2
                    have hwrb : wr.redOf = false := by
                      cases hh : wr.redOf
                      · rfl
                      · rw [hh] at h2; simp at h2
                    cases pc with
                    | true =>
                        have hpl := plug_valid up
                          (.node false x pv pid (.node true wl wv wid wr))
                          n (by simpa using hup)
                          (by simp [hok, howl, howr, hbww, hwlb, hwrb,
                            hxwl] <;> omega)
                          (by simp [hxwl, hbw] <;> omega)
                          (fun hh => by simp at hh)
                        simp [hx, h2, hpl.1, hpl.2]
                    | false =>
                        have hrec := ih (.node false x pv pid
                          (.node true wl wv wid wr)) (n + 1)
                          (by simp [hok, howl, howr, hbww, hwlb, hwrb,
                            hxwl] <;> omega)
                          (by simp [hxwl, hbw] <;> omega)
                          (by simpa using hup)
                        simp [hx, h2, hrec.1, hrec.2.1, hrec.2.2]
                  · by_cases h3 : (!wr.redOf) = true
                    · have hred : wl.redOf = true := by
                        cases hh : wl.redOf
                        · exact absurd (by simp [hh, h3] <;> omega) h2
                        · rfl
                      cases wl with
                      | nil => simp at hred
                      | node ac a av aid b =>
                          have hac : ac = true := by simpa using hred
                          subst hac
                          simp only [okB_node, Bool.and_eq_true,
                            beq_iff_eq] at howl
                          obtain ⟨⟨⟨hoa, hob⟩, hbab⟩, habcc⟩ := howl
                          have hab1 : a.redOf = false := by
                            cases hh : a.redOf
                            · rfl
                            · rw [hh] at habcc; simp at habcc
                          have hab2 : b.redOf = false := by
                            cases hh : b.redOf
                            · rfl
                            · rw [hh] at habcc; simp at habcc
                          have h3b : wr.redOf = false := by simpa using h3
                          simp only [bh_node, Bool.cond_true,
                            Nat.add_zero] at hbw hbww hxwl
                          have e1 : bh b = bh wr := by omega
                          have e2 : bh x = bh b := by omega
                          have e4 : bh x + 1 = n := hbn
                          have hpl := plug_valid up
                            (.node pc (.node false x pv pid a) av aid
                              (.node false b wv wid wr))
                            (n + cond pc 0 1) hup
                            (by simp [hok, hoa, hob, howr, hxwl, e1, e2] <;> omega)
                            (by simp [e4] <;> omega)
                            (fun hh => by
                              have hpc : pc = true := by simpa using hh
                              exact ⟨(hfr hpc).2.1, (hfr hpc).2.2⟩)
                          refine ⟨?_, ?_, ?_⟩
                          · simp [hx, h2, h3, okB_setRed _ hpl.1]
                          · simp [hx, h2, h3]
                          · simp [hx, h2, h3]
                    · have hred : wr.redOf = true := by
                        cases hh : wr.redOf
                        · exact absurd (by simp [hh] <;> omega) h3
                        · rfl
                      cases wr with
                      | nil => simp at hred
                      | node cc c1 cv cid c2 =>
                          have hcc2 : cc = true := by simpa using hred
                          subst hcc2
                          simp only [okB_node, Bool.and_eq_true,
                            beq_iff_eq] at howr
                          obtain ⟨⟨⟨hoc1, hoc2⟩, hbc⟩, hccc⟩ := howr
                          have hc1b : c1.redOf = false := by
                            cases hh : c1.redOf
                            · rfl
                            · rw [hh] at hccc; simp at hccc
                          have hc2b : c2.redOf = false := by
                            cases hh : c2.redOf
                            · rfl
                            · rw [hh] at hccc; simp at hccc
                          simp only [bh_node, Bool.cond_true,
                            Nat.add_zero] at hbww
                          have e2 : bh x = bh c1 := by omega
                          have e4 : bh x + 1 = n := hbn
                          have hpl := plug_valid up
                            (.node pc (.node false x pv pid wl) wv wid
                              (.node false c1 cv cid c2))
                            (n + cond pc 0 1) hup
                            (by simp [hok, howl, hoc1, hoc2, hbc, hxwl,
                              e2] <;> omega)
                            (by simp [e4] <;> omega)
                            (fun hh => by
                              have hpc : pc = true := by simpa using hh
                              exact ⟨(hfr hpc).2.1, (hfr hpc).2.2⟩)
                          refine ⟨?_, ?_, ?_⟩
                          · simp [hx, h2, h3, okB_setRed _ hpl.1]
                          · simp [hx, h2, h3]
                          · simp [hx, h2, h3]
  | right w pc pv pid up ih =>
      intro x n hok hbn hc
      rw [rbDelFix.eq_def]
      simp only [ctxOk, Bool.and_eq_true, beq_iff_eq] at hc
      obtain ⟨⟨⟨hw, hbw⟩, hcc⟩, hup⟩ := hc
      have hfr : pc = true →
          w.redOf = false ∧ frameRed up = false ∧ atRoot up = false := by
        intro hpc
        rw [hpc] at hcc
        refine ⟨?_, ?_, ?_⟩
        · cases hh : w.redOf
          · rfl
          · rw [hh] at hcc; simp at hcc
        · cases hh : frameRed up
          · rfl
          · rw [hh] at hcc; simp at hcc
        · cases hh : atRoot up
          · rfl
          · rw [hh] at hcc; simp at hcc
      cases hx : x.redOf with
      | true =>
          have hpw : (pc && w.redOf) = false := by
            cases hpc : pc
            · rfl
            · simp [(hfr hpc).1]
          have hpl := plug_valid up (.node pc w pv pid (x.setRed false))
            (n + cond pc 0 1) hup
            (by simp [okB_setRed x hok, hw, bh_setRed_red x hx, hbn, hbw,
              hpw] <;> omega)
            (by simp [hbw] <;> omega)
            (fun hh => by
              have hpc : pc = true := by simpa using hh
              exact ⟨(hfr hpc).2.1, (hfr hpc).2.2⟩)
          simp [hx, hpl.1, hpl.2]
      | false =>
          cases w with
          | nil =>
              exfalso
              have h1 := one_le_bh x
              simp only [bh_nil] at hbw
              omega
          | node wc wl wv wid wr =>
              simp only [okB_node, Bool.and_eq_true, beq_iff_eq] at hw
              obtain ⟨⟨⟨howl, howr⟩, hbww⟩, hwcc⟩ := hw
              cases wc with
              | true =>
                  have hpc : pc = false := by
                    cases hpc : pc
                    · rfl
                    · exact absurd ((hfr hpc).1) (by simp)
                  subst hpc
                  have hwlb : wl.redOf = false := by
                    cases hh : wl.redOf
                    · rfl
                    · rw [hh] at hwcc; simp at hwcc
                  have hwrb : wr.redOf = false := by
                    cases hh : wr.redOf
                    · rfl
                    · rw [hh] at hwcc; simp at hwcc
                  simp only [bh_node, Bool.cond_true, Nat.add_zero] at hbw
                  cases wr with
                  | nil =>
                      exfalso
                      have h1 := one_le_bh x
                      simp only [bh_nil] at hbww
                      omega
                  | node w2c w2l w2v w2id w2r =>
                      have hw2c : w2c = false := by simpa using hwrb
                      subst hw2c
                      simp only [okB_node, Bool.and_eq_true,
                        beq_iff_eq] at howr
                      obtain ⟨⟨⟨ho2l, ho2r⟩, hb22⟩, h2cc⟩ := howr
                      simp only [bh_node, Bool.cond_false] at hbww
                      have hx2 : bh x = bh w2l := by omega
                      by_cases h2 : (!w2r.redOf && !w2l.redOf) = true
                      · have h2l : w2l.redOf = false := by
                          cases hh : w2l.redOf
                          · rfl
                          · rw [hh] at h2; simp at h2
                        have h2r : w2r.redOf = false := by
                          cases hh : w2r.redOf
                          · rfl
                          · rw [hh] at h2; simp at h2
                        have e1 : bh w2l + 1 = bh wl := by omega
                        have hpl := plug_valid up
                          (.node false wl wv wid (.node false
                            (.node true w2l w2v w2id w2r) pv pid x))
                          (n + 1) (by simpa using hup)
                          (by simp [hok, ho2l, ho2r, hb22, howl, h2l, h2r,
                            hx2, e1] <;> omega)
                          (by simp [hbw] <;> omega)
                          (fun hh => by simp at hh)
                        simp [hx, h2, hpl.1, hpl.2]
                      · by_cases h3 : (!w2l.redOf) = true
                        · have hred : w2r.redOf = true := by
                            cases hh : w2r.redOf
                            · exact absurd (by simp [hh, h3] <;> omega) h2
                            · rfl
                          cases w2r with
                          | nil => simp at hred
                          | node ac a av aid b =>
                              have hac : ac = true := by simpa using hred
                              subst hac
                              simp only [okB_node, Bool.and_eq_true,
                                beq_iff_eq] at ho2r
                              obtain ⟨⟨⟨hoa, hob⟩, hbab⟩, habcc⟩ := ho2r
                              have hab1 : a.redOf = false := by
                                cases hh : a.redOf
                                · rfl
                                · rw [hh] at habcc; simp at habcc
                              have hab2 : b.redOf = false := by
                                cases hh : b.redOf
                                · rfl
                                · rw [hh] at habcc; simp at habcc
                              have h3b : w2l.redOf = false := by
                                simpa using h3
                              simp only [bh_node, Bool.cond_true,
                                Nat.add_zero] at hb22
                              have e1 : bh w2l = bh a := hb22
                              have e2 : bh b = bh x := by omega
                              have e5 : bh w2l + 1 = bh wl := by omega
                              have hpl := plug_valid up
                                (.node false wl wv wid (.node true
                                  (.node false w2l w2v w2id a) av aid
                                  (.node false b pv pid x)))
                                (n + 1) (by simpa using hup)
                                (by simp [hok, hoa, hob, ho2l, howl, e1,
                                  e2, hbab, e5] <;> omega)
                                (by simp [hbw] <;> omega)
                                (fun hh => by simp at hh)
                              refine ⟨?_, ?_, ?_⟩
                              · simp [hx, h2, h3, okB_setRed _ hpl.1]
                              · simp [hx, h2, h3]
                              · simp [hx, h2, h3]
                        · have hred : w2l.redOf = true := by
                            cases hh : w2l.redOf
                            · exact absurd (by simp [hh] <;> omega) h3
                            · rfl
                          cases w2l with
                          | nil => simp at hred
                          | node cc c1 cv cid c2 =>
                              have hcc2 : cc = true := by simpa using hred
                              subst hcc2
                              simp only [okB_node, Bool.and_eq_true,
                                beq_iff_eq] at ho2l
                              obtain ⟨⟨⟨hoc1, hoc2⟩, hbc⟩, hccc⟩ := ho2l
                              have hc1b : c1.redOf = false := by
                                cases hh : c1.redOf
                                · rfl
                                · rw [hh] at hccc; simp at hccc
                              have hc2b : c2.redOf = false := by
                                cases hh : c2.redOf
                                · rfl
                                · rw [hh] at hccc; simp at hccc
                              simp only [bh_node, Bool.cond_true,
                                Nat.add_zero] at hx2 hbww hb22
                              have e2 : bh w2r = bh x := by omega
                              have e3 : bh c1 = bh w2r := by omega
                              have e5 : bh c1 + 1 = bh wl := by omega
                              have hpl := plug_valid up
                                (.node false wl wv wid (.node true
                                  (.node false c1 cv cid c2) w2v w2id
                                  (.node false w2r pv pid x)))
                                (n + 1) (by simpa using hup)
                                (by simp [hok, hoc1, hoc2, hbc, ho2r, howl,
                                  e2, e3, e5] <;> omega)
                                (by simp [hbw] <;> omega)
                                (fun hh => by simp at hh)
                              refine ⟨?_, ?_, ?_⟩
                              · simp [hx, h2, h3, okB_setRed _ hpl.1]
                              · simp [hx, h2, h3]
                              · simp [hx, h2, h3]
              | false =>
                  simp only [bh_node, Bool.cond_false] at hbw
                  have hxwl : bh x = bh wl := by omega
                  by_cases h2 : (!wr.redOf && !wl.redOf) = true
                  · have hwlb : wl.redOf = false := by
                      cases hh : wl.redOf
                      · rfl
                      · rw [hh] at h2; simp at h2
                    have hwrb : wr.redOf = false := by
                      cases hh : wr.redOf
                      · rfl
                      · rw [hh] at h2; simp at h2
                    cases pc with
                    | true =>
                        have hpl := plug_valid up
                          (.node false (.node true wl wv wid wr) pv pid x)
                          n (by simpa using hup)
                          (by simp [hok, howl, howr, hbww, hwlb, hwrb,
                            hxwl] <;> omega)
                          (by simp [hxwl, hbw] <;> omega)
                          (fun hh => by simp at hh)
                        simp [hx, h2, hpl.1, hpl.2]
                    | false =>
                        have hrec := ih (.node false
                          (.node true wl wv wid wr) pv pid x) (n + 1)
                          (by simp [hok, howl, howr, hbww, hwlb, hwrb,
                            hxwl] <;> omega)
                          (by simp [hbw] <;> omega)
                          (by simpa using hup)
                        simp [hx, h2, hrec.1, hrec.2.1, hrec.2.2]
                  · by_cases h3 : (!wl.redOf) = true
                    · have hred : wr.redOf = true := by
                        cases hh : wr.redOf
                        · exact absurd (by simp [hh, h3] <;> omega) h2
                        · rfl
                      cases wr with
                      | nil => simp at hred
                      | node ac a av aid b =>
                          have hac : ac = true := by simpa using hred
                          subst hac
                          simp only [okB_node, Bool.and_eq_true,
                            beq_iff_eq] at howr
                          obtain ⟨⟨⟨hoa, hob⟩, hbab⟩, habcc⟩ := howr
                          have hab1 : a.redOf = false := by
                            cases hh : a.redOf
                            · rfl
                            · rw [hh] at habcc; simp at habcc
                          have hab2 : b.redOf = false := by
                            cases hh : b.redOf
                            · rfl
                            · rw [hh] at habcc; simp at habcc
                          have h3b : wl.redOf = false := by simpa using h3
                          simp only [bh_node, Bool.cond_true,
                            Nat.add_zero] at hbww
                          have e1 : bh wl = bh a := hbww
                          have e2 : bh b = bh x := by omega
                          have e4 : bh wl + 1 = n := hbw
                          have hpl := plug_valid up
                            (.node pc (.node false wl wv wid a) av aid
                              (.node false b pv pid x))
                            (n + cond pc 0 1) hup
                            (by simp [hok, hoa, hob, howl, e1, e2, hbab] <;> omega)
                            (by simp [e4] <;> omega)
                            (fun hh => by
                              have hpc : pc = true := by simpa using hh
                              exact ⟨(hfr hpc).2.1, (hfr hpc).2.2⟩)
                          refine ⟨?_, ?_, ?_⟩
                          · simp [hx, h2, h3, okB_setRed _ hpl.1]
                          · simp [hx, h2, h3]
                          · simp [hx, h2, h3]
                    · have hred : wl.redOf = true := by
                        cases hh : wl.redOf
                        · exact absurd (by simp [hh] <;> omega) h3
                        · rfl
                      cases wl with
                      | nil => simp at hred
                      | node cc c1 cv cid c2 =>
                          have hcc2 : cc = true := by simpa using hred
                          subst hcc2
                          simp only [okB_node, Bool.and_eq_true,
                            beq_iff_eq] at howl
                          obtain ⟨⟨⟨hoc1, hoc2⟩, hbc⟩, hccc⟩ := howl
                          have hc1b : c1.redOf = false := by
                            cases hh : c1.redOf
                            · rfl
                            · rw [hh] at hccc; simp at hccc
                          have hc2b : c2.redOf = false := by
                            cases hh : c2.redOf
                            · rfl
                            · rw [hh] at hccc; simp at hccc
                          simp only [bh_node, Bool.cond_true,
                            Nat.add_zero] at hbww hbw hxwl
                          have e2 : bh wr = bh x := by omega
                          have e3 : bh c1 = bh wr := by omega
                          have e4 : bh c1 + 1 = n := by omega
                          have hpl := plug_valid up
                            (.node pc (.node false c1 cv cid c2) wv wid
                              (.node false wr pv pid x))
                            (n + cond pc 0 1) hup
                            (by simp [hok, hoc1, hoc2, hbc, howr, e2, e3] <;> omega)
                            (by simp [e4] <;> omega)
                            (fun hh => by
                              have hpc : pc = true := by simpa using hh
                              exact ⟨(hfr hpc).2.1, (hfr hpc).2.2⟩)
                          refine ⟨?_, ?_, ?_⟩
                          · simp [hx, h2, h3, okB_setRed _ hpl.1]
                          · simp [hx, h2, h3]
                          · simp [hx, h2, h3]

/-- The delete search keeps context validity: the found node is valid in a
valid context of the right black-height. -/
theorem rbFindCtx_ctxOk (t : RBT) (v : Key) :
    ∀ (ctx : RCtx) (z : RBT) (ctx2 : RCtx),
    okB t = true → ctxOk ctx (bh t) = true →
    (t.redOf = true → frameRed ctx = false ∧ atRoot ctx = false) →
    rbFindCtx t ctx v = some (z, ctx2) →
    okB z = true ∧ ctxOk ctx2 (bh z) = true ∧
      (z.redOf = true → frameRed ctx2 = false ∧ atRoot ctx2 = false) := by
  induction t with
  | nil => intro ctx z ctx2 _ _ _ h; simp [rbFindCtx] at h
  | node c l x id r ihl ihr =>
      intro ctx z ctx2 hok hc hr h
      have hok0 := hok
      simp only [okB_node, Bool.and_eq_true, beq_iff_eq] at hok
      obtain ⟨⟨⟨hol, hor⟩, hblr⟩, hocc⟩ := hok
      have hkids : c = true → l.redOf = false ∧ r.redOf = false := by
        intro hcv
        subst hcv
        refine ⟨?_, ?_⟩
        · cases hh : l.redOf
          · rfl
          · rw [hh] at hocc; simp at hocc
        · cases hh : r.redOf
          · rfl
          · rw [hh] at hocc; simp at hocc
      by_cases hvx : v = x
      · subst hvx
        rw [rbFindCtx] at h
        simp only [if_true, Option.some_inj, Prod.mk.injEq, if_pos] at h
        obtain ⟨h1, h2⟩ := h
        subst h1; subst h2
        exact ⟨hok0, hc, hr⟩
      · by_cases hlt : v < x
        · rw [rbFindCtx] at h
          simp only [hvx, if_false, hlt, if_true] at h
          refine ihl (.left c x id r ctx) z ctx2 hol ?_ ?_ h
          · simp only [ctxOk, Bool.and_eq_true, beq_iff_eq]
            refine ⟨⟨⟨hor, hblr.symm⟩, ?_⟩, by simpa using hc⟩
            cases c with
            | false => simp
            | true =>
                have hf := hr (by simp)
                simp [(hkids rfl).2, hf.1, hf.2]
          · intro hh
            refine ⟨?_, rfl⟩
            show c = false
            cases hcv : c
            · rfl
            · exact absurd hh (by simp [(hkids hcv).1])
        · rw [rbFindCtx] at h
          simp only [hvx, if_false, hlt] at h
          refine ihr (.right l c x id ctx) z ctx2 hor ?_ ?_ h
          · simp only [ctxOk, Bool.and_eq_true, beq_iff_eq]
            refine ⟨⟨⟨hol, hblr⟩, ?_⟩, by simpa [hblr] using hc⟩
            cases c with
            | false => simp
            | true =>
                have hf := hr (by simp)
                simp [(hkids rfl).1, hf.1, hf.2]
          · intro hh
            refine ⟨?_, rfl⟩
            show c = false
            cases hcv : c
            · rfl
            · exact absurd hh (by simp [(hkids hcv).2])

theorem RCtx.comp_assoc (a b c : RCtx) :
    (a.comp b).comp c = a.comp (b.comp c) := by
  induction a with
  | root => simp [RCtx.comp]
  | left c0 v id sib up ih => simp [RCtx.comp, ih]
  | right sib c0 v id up ih => simp [RCtx.comp, ih]

/-- The minimum walk only prepends frames: its result relative to any
starting context is the `.root`-relative result composed with it. -/
theorem rbMinCtx_comp (t : RBT) : ∀ (ctx : RCtx),
    rbMinCtx t ctx = ((rbMinCtx t .root).1,
      (rbMinCtx t .root).2.comp ctx) := by
  induction t with
  | nil => intro ctx; simp [rbMinCtx, RCtx.comp]
  | node c l x id r ihl ihr =>
      intro ctx
      cases l with
      | nil => simp [rbMinCtx, RCtx.comp]
      | node c2 l2 x2 id2 r2 =>
          rw [rbMinCtx, ihl (.left c x id r ctx)]
          conv_rhs => rw [rbMinCtx, ihl (.left c x id r .root)]
          simp [RCtx.comp_assoc, RCtx.comp]

/-- The minimum walk from a valid position lands on a valid node in a
valid context. -/
theorem rbMinCtx_ctxOk (t : RBT) : ∀ (ctx : RCtx), t ≠ .nil →
    okB t = true → ctxOk ctx (bh t) = true →
    (t.redOf = true → frameRed ctx = false ∧ atRoot ctx = false) →
    okB (rbMinCtx t ctx).1 = true ∧
      ctxOk (rbMinCtx t ctx).2 (bh (rbMinCtx t ctx).1) = true ∧
      ((rbMinCtx t ctx).1.redOf = true →
        frameRed (rbMinCtx t ctx).2 = false ∧
          atRoot (rbMinCtx t ctx).2 = false) := by
  induction t with
  | nil => intro ctx ht; exact absurd rfl ht
  | node c l x id r ihl ihr =>
      intro ctx ht hok hc hr
      have hok0 := hok
      simp only [okB_node, Bool.and_eq_true, beq_iff_eq] at hok
      obtain ⟨⟨⟨hol, hor⟩, hblr⟩, hocc⟩ := hok
      have hkids : c = true → l.redOf = false ∧ r.redOf = false := by
        intro hcv
        subst hcv
        refine ⟨?_, ?_⟩
        · cases hh : l.redOf
          · rfl
          · rw [hh] at hocc; simp at hocc
        · cases hh : r.redOf
          · rfl
          · rw [hh] at hocc; simp at hocc
      cases l with
      | nil =>
          simp only [rbMinCtx]
          exact ⟨hok0, hc, hr⟩
      | node c2 l2 x2 id2 r2 =>
          rw [rbMinCtx]
          refine ihl (.left c x id r ctx) (by simp) hol ?_ ?_
          · simp only [ctxOk, Bool.and_eq_true, beq_iff_eq]
            refine ⟨⟨⟨hor, hblr.symm⟩, ?_⟩, by simpa using hc⟩
            cases c with
            | false => simp
            | true =>
                have hf := hr (by simp)
                simp [(hkids rfl).2, hf.1, hf.2]
          · intro hh
            refine ⟨?_, rfl⟩
            show c = false
            cases hcv : c
            · rfl
            · exact absurd hh (by simp [(hkids hcv).1])

/-- `RBTree.delete` keeps the tree a valid Red-Black tree and never reaches
a degenerate branch. -/
theorem rbDelete_valid (s : RBS) (v : Key) (hok : okB s.root = true)
    (hrt : s.root.redOf = false) :
    okB (rbDelete s v).1.root = true ∧
      (rbDelete s v).1.root.redOf = false ∧
      (rbDelete s v).2.2.2 = noFlags := by
  cases hf : rbFindCtx s.root .root v with
  | none => simp [rbDelete, hf, hok, hrt]
  | some p =>
      obtain ⟨z, ctx⟩ := p
      obtain ⟨hzok, hzctx, hzfr⟩ := rbFindCtx_ctxOk s.root v .root z ctx hok
        (by simp [ctxOk]) (fun hh => absurd hh (by simp [hrt])) hf
      obtain ⟨hplug, zc, zl, zid, zr, hz⟩ :=
        rbFindCtx_spec s.root v .root z ctx hf
      subst hz
      have hzok0 := hzok
      simp only [okB_node, Bool.and_eq_true, beq_iff_eq] at hzok
      obtain ⟨⟨⟨hozl, hozr⟩, hbzz⟩, hzcc⟩ := hzok
      have hzkids : zc = true → zl.redOf = false ∧ zr.redOf = false := by
        intro hcv
        subst hcv
        refine ⟨?_, ?_⟩
        · cases hh : zl.redOf
          · rfl
          · rw [hh] at hzcc; simp at hzcc
        · cases hh : zr.redOf
          · rfl
          · rw [hh] at hzcc; simp at hzcc
      by_cases hzl : zl = RBT.nil
      · subst hzl
        cases zc with
        | true =>
            have hzrn : zr = RBT.nil := by
              cases zr with
              | nil => rfl
              | node rc rl rv rid rr =>
                  exfalso
                  have hrb := (hzkids rfl).2
                  simp only [RBT.redOf_node] at hrb
                  subst hrb
                  simp only [bh_nil, bh_node, Bool.cond_false] at hbzz
                  have h1 := one_le_bh rl
                  omega
            subst hzrn
            have hpl := plug_valid ctx RBT.nil 1 (by simpa using hzctx)
              (by simp) (by simp) (fun hh => by simp at hh)
            refine ⟨?_, ?_, ?_⟩ <;> simp [rbDelete, hf, hpl.1, hpl.2]
        | false =>
            have hb1 : bh zr = 1 := by simpa using hbzz.symm
            have hdel := rbDelFix_valid ctx zr (bh zr + 1) hozr rfl
              (by rw [hb1]; simpa using hzctx)
            refine ⟨?_, ?_, ?_⟩ <;>
              simp [rbDelete, hf, hdel.1, hdel.2.1, hdel.2.2]
      · by_cases hzr2 : zr = RBT.nil
        · subst hzr2
          cases zc with
          | true =>
              exfalso
              cases zl with
              | nil => exact hzl rfl
              | node lc ll lv lid lr =>
                  have hlb := (hzkids rfl).1
                  simp only [RBT.redOf_node] at hlb
                  subst hlb
                  simp only [bh_nil, bh_node, Bool.cond_false] at hbzz
                  have h1 := one_le_bh ll
                  omega
          | false =>
              have hdel := rbDelFix_valid ctx zl (bh zl + 1) hozl rfl
                (by simpa using hzctx)
              refine ⟨?_, ?_, ?_⟩ <;>
                simp [rbDelete, hf, hzl, hdel.1, hdel.2.1, hdel.2.2]
        · cases hmc : rbMinCtx zr .root with
          | mk y cy =>
              obtain ⟨hmin1, hminL, hminPL, yc, yv, yid, yr, hy⟩ :=
                rbMinCtx_spec zr .root hzr2
              rw [hmc] at hmin1 hminL hminPL hy
              subst hy
              have hcomp := rbMinCtx_comp zr (RCtx.right zl zc yv yid ctx)
              rw [hmc] at hcomp
              have houter : ctxOk (RCtx.right zl zc yv yid ctx) (bh zr)
                  = true := by
                simp only [ctxOk, Bool.and_eq_true, beq_iff_eq]
                refine ⟨⟨⟨hozl, hbzz⟩, ?_⟩, ?_⟩
                · cases hzcv : zc
                  · simp
                  · have hf2 := hzfr (by simp [hzcv])
                    simp [(hzkids hzcv).1, hf2.1, hf2.2]
                · simp only [bh_node] at hzctx
                  simpa [hbzz] using hzctx
              have hmok := rbMinCtx_ctxOk zr (RCtx.right zl zc yv yid ctx)
                hzr2 hozr houter
                (fun hh => by
                  have hzc0 : zc = false := by
                    cases hzcv : zc
                    · rfl
                    · exact absurd hh (by simp [(hzkids hzcv).2])
                  exact ⟨by simpa using hzc0, rfl⟩)
              rw [hcomp] at hmok
              obtain ⟨hyok, hyctx, hyfr⟩ := hmok
              simp only [okB_node, Bool.and_eq_true, beq_iff_eq] at hyok
              obtain ⟨⟨⟨_, hoyr⟩, hbyy⟩, hycc⟩ := hyok
              have hbyr : bh yr = 1 := by simpa using hbyy.symm
              cases yc with
              | true =>
                  have hyrb : yr.redOf = false := by
                    cases hh : yr.redOf
                    · rfl
                    · rw [hh] at hycc; simp at hycc
                  have hpl := plug_valid
                    (cy.comp (RCtx.right zl zc yv yid ctx)) yr 1
                    (by simpa using hyctx) hoyr hbyr
                    (fun hh => absurd hh (by simp [hyrb]))
                  refine ⟨?_, ?_, ?_⟩ <;>
                    simp [rbDelete, hf, hzl, hzr2, hmc, hpl.1, hpl.2]
              | false =>
                  have hdel := rbDelFix_valid
                    (cy.comp (RCtx.right zl zc yv yid ctx)) yr (bh yr + 1)
                    hoyr rfl (by rw [hbyr]; simpa using hyctx)
                  refine ⟨?_, ?_, ?_⟩ <;>
                    simp [rbDelete, hf, hzl, hzr2, hmc, hdel.1, hdel.2.1,
                      hdel.2.2]

/-- Full per-instance invariant of a Red-Black instance: BST ordering plus
the color invariants with a BLACK root. -/
def RBInv (s : RBS) : Prop :=
  s.root.bstB = true ∧ okB s.root = true ∧ s.root.redOf = false

theorem rbStep_rbinv (s : RBS) (op : RBOp) (hs : RBInv s) :
    RBInv (rbStep s op) := by
  obtain ⟨h1, h2, h3⟩ := hs
  cases op with
  | ins v =>
      exact ⟨rbInsert_bst s v h1, (rbInsert_valid s v h2 h3).1,
        (rbInsert_valid s v h2 h3).2.1⟩
  | del v =>
      exact ⟨rbDelete_bst s v h1, (rbDelete_valid s v h2 h3).1,
        (rbDelete_valid s v h2 h3).2.1⟩
  | mem v => exact ⟨h1, h2, h3⟩
  | reset => exact ⟨h1, h2, h3⟩

theorem rbReach_inv (s : RBS) (h : RBReach s) : RBInv s := by
  induction h with
  | init => exact ⟨rfl, rfl, rfl⟩
  | step s op hs ih => exact rbStep_rbinv s op ih

/-! ## AVL: the degenerate rotation guards are never taken (public level) -/

theorem avlInsert_guard (s : AVLS) (v : Key) :
    (avlInsert s v).2.2.2 = false := by
  cases hroot : s.root with
  | nil => simp [avlInsert, hroot]
  | node l x id h r =>
      cases hok : (avlInsGo (.node l x id h r) v s.nextId).2.1 with
      | false => simp [avlInsert, hroot, hok]
      | true => simp [avlInsert, hroot, hok, avlInsGo_guard]

theorem avlDelete_guard (s : AVLS) (v : Key) :
    (avlDelete s v).2.2.2 = false := by
  by_cases hc : avlContains s.root v = true
  · simp [avlDelete, hc, avlDelGo_guard]
  · simp [avlDelete, hc]

/-! # Reachability of concrete runs -/

theorem treapReach_foldl (ops : List TreapOp) (s : TreapS)
    (h : TreapReach s) : TreapReach (ops.foldl treapStep s) := by
  induction ops generalizing s with
  | nil => exact h
  | cons op ops ih => exact ih _ (TreapReach.step s op h)

theorem treapReach_run (ops : List TreapOp) : TreapReach (treapRun ops) :=
  treapReach_foldl ops _ TreapReach.init

theorem avlReach_foldl (ops : List AVLOp) (s : AVLS)
    (h : AVLReach s) : AVLReach (ops.foldl avlStep s) := by
  induction ops generalizing s with
  | nil => exact h
  | cons op ops ih => exact ih _ (AVLReach.step s op h)

theorem avlReach_run (ops : List AVLOp) : AVLReach (avlRun ops) :=
  avlReach_foldl ops _ AVLReach.init

theorem rbReach_foldl (ops : List RBOp) (s : RBS)
    (h : RBReach s) : RBReach (ops.foldl rbStep s) := by
  induction ops generalizing s with
  | nil => exact h
  | cons op ops ih => exact ih _ (RBReach.step s op h)

theorem rbReach_run (ops : List RBOp) : RBReach (rbRun ops) :=
  rbReach_foldl ops _ RBReach.init

/-- `BaseDataStructure.total_rotations` (base.py:26-29), per engine. -/
def TreapS.totalRotations (s : TreapS) : Nat := s.rotIns + s.rotDel

def AVLS.totalRotations (s : AVLS) : Nat := s.rotIns + s.rotDel

def RBS.totalRotations (s : RBS) : Nat := s.rotIns + s.rotDel

/-! # The claims -/

/-- C1: for every engine (AVL, Red-Black, Treap) and every sequence of
insert/contains/delete (and reset) operations starting from the empty
tree, the in-order traversal of the resulting tree equals the sorted
list of exactly the currently-present keys — the fold of the sorted-list
model, where a successful insert adds the key once and a successful
delete removes it — and that list is strictly sorted, so every present
key appears exactly once. -/
theorem claim_C1 (tops : List TreapOp) (aops : List AVLOp)
    (rops : List RBOp) :
    ((treapRun tops).root.keys = treapModel tops ∧
      (treapModel tops).Pairwise (· < ·)) ∧
    ((avlRun aops).root.keys = avlModel aops ∧
      (avlModel aops).Pairwise (· < ·)) ∧
    ((rbRun rops).root.keys = rbModel rops ∧
      (rbModel rops).Pairwise (· < ·)) :=
  ⟨treapRun_keys tops, avlRun_keys aops, rbRun_keys rops⟩

/-- C2 (amended): deleting a key whose node has two children differs
between the two engines.  AVL (avl_tree.py:382-392) copies the in-order
successor value into the target node — the target keeps its physical
identity `id` with the new value, and the successor node disappears.
Red-Black (rb_tree.py:359-385) transplants: the target's physical node
`(zid, v)` leaves the tree and the successor survives with its own
identity and value.  The original claim asserted the AVL behaviour for
both engines; `claim_C2_counterexample` refutes it for Red-Black. -/
theorem claim_C2 :
    (∀ (l r : AVL) (x : Key) (id h : Nat), l ≠ .nil → r ≠ .nil →
      (AVL.node l x id h r).bstB = true →
      (avlDelGo (.node l x id h r) x).1.pairs
        = l.pairs ++ (id, avlMinVal r) :: r.pairs.tail) ∧
    (∀ (s : RBS) (v : Key) (zc : Bool) (zl : RBT) (zid : Nat) (zr : RBT)
      (ctx : RCtx),
      rbFindCtx s.root .root v = some (.node zc zl v zid zr, ctx) →
      zl ≠ RBT.nil → zr ≠ RBT.nil →
      s.root.pairs
          = ctx.pairsL ++ zl.pairs ++ (zid, v) :: zr.pairs ++ ctx.pairsR ∧
        (rbDelete s v).1.root.pairs
          = ctx.pairsL ++ zl.pairs ++ zr.pairs ++ ctx.pairsR) :=
  ⟨fun l r x id h h1 h2 h3 => avlDelGo_two_children l r x id h h1 h2 h3,
   fun s v zc zl zid zr ctx h1 h2 h3 =>
     rbDelete_two_children s v zc zl zid zr ctx h1 h2 h3⟩

/-- C2 witness: both halves of the amended claim at concrete inputs. -/
theorem claim_C2_witness :
    ((AVL.node .nil "a" 1 1 .nil) ≠ AVL.nil ∧
     (AVL.node .nil "c" 2 1 .nil) ≠ AVL.nil ∧
     (AVL.node (.node .nil "a" 1 1 .nil) "b" 0 2
        (.node .nil "c" 2 1 .nil)).bstB = true ∧
     (avlDelGo (.node (.node .nil "a" 1 1 .nil) "b" 0 2
          (.node .nil "c" 2 1 .nil)) "b").1.pairs
       = (AVL.node .nil "a" 1 1 .nil).pairs
           ++ (0, avlMinVal (.node .nil "c" 2 1 .nil))
             :: (AVL.node .nil "c" 2 1 .nil).pairs.tail) ∧
    (rbFindCtx (RBT.node false (.node true .nil "a" 1 .nil) "b" 0
          (.node true .nil "c" 2 .nil)) .root "b"
        = some (.node false (.node true .nil "a" 1 .nil) "b" 0
            (.node true .nil "c" 2 .nil), .root) ∧
     (RBS.mk (.node false (.node true .nil "a" 1 .nil) "b" 0
          (.node true .nil "c" 2 .nil)) 3 0 0).root.pairs
        = RCtx.root.pairsL ++ (RBT.node true .nil "a" 1 .nil).pairs
            ++ (0, "b") :: (RBT.node true .nil "c" 2 .nil).pairs
            ++ RCtx.root.pairsR ∧
     (rbDelete (RBS.mk (.node false (.node true .nil "a" 1 .nil) "b" 0
          (.node true .nil "c" 2 .nil)) 3 0 0) "b").1.root.pairs
        = RCtx.root.pairsL ++ (RBT.node true .nil "a" 1 .nil).pairs
            ++ (RBT.node true .nil "c" 2 .nil).pairs
            ++ RCtx.root.pairsR) := by
  constructor
  · have hb : (AVL.node (.node .nil "a" 1 1 .nil) "b" 0 2
        (.node .nil "c" 2 1 .nil)).bstB = true := by
      simp [AVL.bstB, AVL.allB] <;> decide
    exact ⟨by simp, by simp, hb,
      claim_C2.1 _ _ _ _ _ (by simp) (by simp) hb⟩
  · have h := claim_C2.2 (RBS.mk (.node false (.node true .nil "a" 1 .nil)
      "b" 0 (.node true .nil "c" 2 .nil)) 3 0 0) "b" false
      (.node true .nil "a" 1 .nil) 0 (.node true .nil "c" 2 .nil) .root
      rfl (by simp) (by simp)
    exact ⟨rfl, h.1, h.2⟩

/-- C2 counterexample to the original claim: in the Red-Black engine the
reachable tree `b (black, id 0), a (red, id 1), c (red, id 2)` has the
node `(0, "b")` with two real children; after `delete "b"` the physical
node of id 0 is gone and the in-order successor keeps its own node
`(2, "c")` — no value was copied into the target node, whose identity is
not preserved. -/
theorem claim_C2_counterexample :
    rbRun [.ins "b", .ins "a", .ins "c"]
        = ⟨.node false (.node true .nil "a" 1 .nil) "b" 0
            (.node true .nil "c" 2 .nil), 3, 0, 0⟩ ∧
    (RBS.mk (.node false (.node true .nil "a" 1 .nil) "b" 0
        (.node true .nil "c" 2 .nil)) 3 0 0).root.pairs
        = [(1, "a"), (0, "b"), (2, "c")] ∧
    (rbDelete (RBS.mk (.node false (.node true .nil "a" 1 .nil) "b" 0
        (.node true .nil "c" 2 .nil)) 3 0 0) "b").1.root.pairs
        = [(1, "a"), (2, "c")] := by
  refine ⟨?_, rfl, rfl⟩
  simp [rbRun, rbStep, rbInsert, rbInsDescend, rbInsFix, RCtx.plug,
    RBT.setRed, noFlags, RBT.redOf,
    show (['a'] : List Char) < ['b'] by decide,
    show (['b'] : List Char) < ['c'] by decide,
    show ¬((['c'] : List Char) < ['b']) by decide]

/-- C3 (amended): `AVLTree.validate` (avl_tree.py:424-470) recursively
recomputes heights, so it checks exact stored heights and balance factors
at every node; but its BST check compares each node only with its
immediate children (avl_tree.py:450-457).  It succeeds exactly on trees
with correct heights, all balance factors in -1..1, and immediate-child
ordering (`childOrd && avlB`) — which does not imply full BST ordering.
The original claim that it fails on every deep (non-child) ordering
violation is refuted by `claim_C3_counterexample`. -/
theorem claim_C3 (t : AVL) :
    avlCheck t = if t.childOrd && t.avlB then some t.realH else none :=
  avlCheck_eq t

/-- C3 counterexample to the original claim: the key "d" sits in the left
subtree of the root "c" (as a non-child descendant), violating BST
ordering, yet the validate walk accepts the tree — all stored heights,
balance factors and immediate-child comparisons are fine. -/
theorem claim_C3_counterexample :
    (avlCheck (AVL.node (.node .nil "a" 1 2 (.node .nil "d" 2 1 .nil))
        "c" 0 3 (.node .nil "e" 3 1 .nil))).isSome = true ∧
    (AVL.node (.node .nil "a" 1 2 (.node .nil "d" 2 1 .nil))
        "c" 0 3 (.node .nil "e" 3 1 .nil)).bstB = false := by
  constructor
  · simp [avlCheck, avlNodeOk, childLt, childGt] <;> decide
  · simp [AVL.bstB, AVL.allB] <;> decide

/-- C4: on every reachable Red-Black state the color invariants hold:
`okB` (no RED node has a RED child, and from every node all paths to
descendant sentinels pass through the same number of BLACK nodes), the
root is BLACK, the sentinel reads BLACK, and neither `insert` nor
`delete` ever writes RED into the sentinel (the `nilRed` flag of the
returned degenerate-event record stays `false`), so these invariants hold
after every public operation returns. -/
theorem claim_C4 (s : RBS) (h : RBReach s) (v : Key) :
    okB s.root = true ∧ s.root.redOf = false ∧ RBT.nil.redOf = false ∧
      (rbInsert s v).2.2.2.nilRed = false ∧
      (rbDelete s v).2.2.2.nilRed = false := by
  obtain ⟨h1, h2, h3⟩ := rbReach_inv s h
  refine ⟨h2, h3, rfl, ?_, ?_⟩
  · rw [(rbInsert_valid s v h2 h3).2.2]
    rfl
  · rw [(rbDelete_valid s v h2 h3).2.2]
    rfl

/-- C4 witness: a concrete reachable Red-Black state. -/
theorem claim_C4_witness :
    okB (rbRun [.ins "b", .ins "a", .ins "c", .del "a"]).root = true ∧
      (rbRun [.ins "b", .ins "a", .ins "c", .del "a"]).root.redOf
        = false ∧
      RBT.nil.redOf = false ∧
      (rbInsert (rbRun [.ins "b", .ins "a", .ins "c", .del "a"])
        "d").2.2.2.nilRed = false ∧
      (rbDelete (rbRun [.ins "b", .ins "a", .ins "c", .del "a"])
        "d").2.2.2.nilRed = false :=
  claim_C4 (rbRun [.ins "b", .ins "a", .ins "c", .del "a"])
    (rbReach_run _) "d"

/-- C5: on every reachable AVL state, every node's stored height field
equals one plus the larger child height and every balance factor is in
-1..1 (`avlB`), so the invariant holds after every public operation
returns. -/
theorem claim_C5 (s : AVLS) (h : AVLReach s) : s.root.avlB = true :=
  (avlReach_inv s h).2

/-- C5 witness: a concrete reachable AVL state (one that rebalanced). -/
theorem claim_C5_witness :
    (avlRun [.ins "c", .ins "b", .ins "a", .del "b"]).root.avlB = true :=
  claim_C5 (avlRun [.ins "c", .ins "b", .ins "a", .del "b"])
    (avlReach_run _)

/-- C6: on every reachable treap state — the priorities drawn for the
inserts are arbitrary, ties allowed — every existing child's priority is
at most its parent's (`heapB`) and every node's parent pointer names its
actual parent (`parB`), so both hold after every public operation
returns. -/
theorem claim_C6 (s : TreapS) (h : TreapReach s) :
    s.root.heapB = true ∧ s.root.parB none = true :=
  ⟨(treapReach_inv s h).2.1, (treapReach_inv s h).2.2⟩

/-- C6 witness: a concrete reachable treap state with a priority tie. -/
theorem claim_C6_witness :
    (treapRun [.ins "b" 5, .ins "a" 9, .ins "c" 5, .del "a"]).root.heapB
        = true ∧
      (treapRun [.ins "b" 5, .ins "a" 9, .ins "c" 5,
        .del "a"]).root.parB none = true :=
  claim_C6 (treapRun [.ins "b" 5, .ins "a" 9, .ins "c" 5, .del "a"])
    (treapReach_run _)

/-- C7: in every engine and every state, inserting a present key returns
`false` and deleting an absent key returns `false`, and in both cases the
whole instance state — tree shape, node fields, and both rotation
counters — is returned unchanged. -/
theorem claim_C7 (s1 : TreapS) (s2 : AVLS) (s3 : RBS) (v w : Key)
    (p : Nat)
    (h1 : treapContains s1.root v = true)
    (h2 : treapContains s1.root w = false)
    (h3 : avlContains s2.root v = true)
    (h4 : avlContains s2.root w = false)
    (h5 : rbContains s3.root v = true)
    (h6 : rbContains s3.root w = false) :
    treapInsert s1 v p = (s1, false, 0, false) ∧
    treapDelete s1 w = (s1, false, 0) ∧
    avlInsert s2 v = (s2, false, 0, false) ∧
    avlDelete s2 w = (s2, false, 0, false) ∧
    rbInsert s3 v = (s3, false, 0, noFlags) ∧
    rbDelete s3 w = (s3, false, 0, noFlags) :=
  ⟨treapInsert_dup s1 v p h1, treapDelete_absent s1 w h2,
   avlInsert_dup s2 v h3, avlDelete_absent s2 w h4,
   rbInsert_dup s3 v h5, rbDelete_absent s3 w h6⟩

/-- C7 witness: singleton states holding "a"; "a" duplicate-inserted,
"b" absent-deleted. -/
theorem claim_C7_witness :
    treapContains (Treap.node .nil "a" 5 none .nil) "a" = true ∧
    treapContains (Treap.node .nil "a" 5 none .nil) "b" = false ∧
    avlContains (AVL.node .nil "a" 0 1 .nil) "a" = true ∧
    avlContains (AVL.node .nil "a" 0 1 .nil) "b" = false ∧
    rbContains (RBT.node false .nil "a" 0 .nil) "a" = true ∧
    rbContains (RBT.node false .nil "a" 0 .nil) "b" = false ∧
    treapInsert ⟨.node .nil "a" 5 none .nil, 0, 0⟩ "a" 3
        = (⟨.node .nil "a" 5 none .nil, 0, 0⟩, false, 0, false) ∧
    treapDelete ⟨.node .nil "a" 5 none .nil, 0, 0⟩ "b"
        = (⟨.node .nil "a" 5 none .nil, 0, 0⟩, false, 0) ∧
    avlInsert ⟨.node .nil "a" 0 1 .nil, 1, 0, 0⟩ "a"
        = (⟨.node .nil "a" 0 1 .nil, 1, 0, 0⟩, false, 0, false) ∧
    avlDelete ⟨.node .nil "a" 0 1 .nil, 1, 0, 0⟩ "b"
        = (⟨.node .nil "a" 0 1 .nil, 1, 0, 0⟩, false, 0, false) ∧
    rbInsert ⟨.node false .nil "a" 0 .nil, 1, 0, 0⟩ "a"
        = (⟨.node false .nil "a" 0 .nil, 1, 0, 0⟩, false, 0, noFlags) ∧
    rbDelete ⟨.node false .nil "a" 0 .nil, 1, 0, 0⟩ "b"
        = (⟨.node false .nil "a" 0 .nil, 1, 0, 0⟩, false, 0, noFlags) := by
  have c1 : treapContains (Treap.node .nil "a" 5 none .nil) "a"
      = true := rfl
  have c2 : treapContains (Treap.node .nil "a" 5 none .nil) "b"
      = false := by
    simp [treapContains] <;> decide
  have c3 : avlContains (AVL.node .nil "a" 0 1 .nil) "a" = true := rfl
  have c4 : avlContains (AVL.node .nil "a" 0 1 .nil) "b" = false := by
    simp [avlContains] <;> decide
  have c5 : rbContains (RBT.node false .nil "a" 0 .nil) "a" = true := rfl
  have c6 : rbContains (RBT.node false .nil "a" 0 .nil) "b" = false := by
    simp [rbContains] <;> decide
  have h := claim_C7 ⟨.node .nil "a" 5 none .nil, 0, 0⟩
    ⟨.node .nil "a" 0 1 .nil, 1, 0, 0⟩
    ⟨.node false .nil "a" 0 .nil, 1, 0, 0⟩ "a" "b" 3 c1 c2 c3 c4 c5 c6
  exact ⟨c1, c2, c3, c4, c5, c6,
    h.1, h.2.1, h.2.2.1, h.2.2.2.1, h.2.2.2.2.1, h.2.2.2.2.2⟩

/-- C8: the rotate-down loop of `Treap.delete` (treap_tree.py:258-278)
follows exactly the code's rule.  A childless target is detached with no
rotation.  With only a right child the target is left-rotated (the
rotation primitive genuinely fires), with only a left child it is
right-rotated, and with two children it rotates toward the child of
strictly higher priority — the comparison is `left.priority >
right.priority`, so a priority tie takes the left-rotation branch.  Each
step is the corresponding rotation primitive applied at the target, which
stays in focus until it is a leaf; the loop removes exactly the target's
key. -/
theorem claim_C8 :
    (∀ (v : Key) (p : Nat) (q : Option Key),
      delRotate (.node .nil v p q .nil) = (.nil, [])) ∧
    (∀ (T2 T3 : Treap) (v yv : Key) (p yp : Nat) (q yq : Option Key),
      trotLeft (.node .nil v p q (.node T2 yv yp yq T3)) =
        ⟨.node (.node .nil v p (some yv) (T2.withPar (some v))) yv yp q T3,
          true⟩ ∧
      delRotate (.node .nil v p q (.node T2 yv yp yq T3)) =
        (.node (delRotate (.node .nil v p (some yv)
            (T2.withPar (some v)))).1 yv yp q T3,
          .leftR :: (delRotate (.node .nil v p (some yv)
            (T2.withPar (some v)))).2)) ∧
    (∀ (T1 T2 : Treap) (xv v : Key) (xp p : Nat) (xq q : Option Key),
      trotRight (.node (.node T1 xv xp xq T2) v p q .nil) =
        ⟨.node T1 xv xp q (.node (T2.withPar (some v)) v p (some xv) .nil),
          true⟩ ∧
      delRotate (.node (.node T1 xv xp xq T2) v p q .nil) =
        (.node T1 xv xp q (delRotate (.node (T2.withPar (some v)) v p
            (some xv) .nil)).1,
          .rightR :: (delRotate (.node (T2.withPar (some v)) v p
            (some xv) .nil)).2)) ∧
    (∀ (T1 T2 U2 U3 : Treap) (xv v yv : Key) (xp p yp : Nat)
      (xq q yq : Option Key),
      delRotate (.node (.node T1 xv xp xq T2) v p q
          (.node U2 yv yp yq U3)) =
        (if xp > yp then
          (.node T1 xv xp q (delRotate (.node (T2.withPar (some v)) v p
              (some xv) (.node U2 yv yp yq U3))).1,
            .rightR :: (delRotate (.node (T2.withPar (some v)) v p
              (some xv) (.node U2 yv yp yq U3))).2)
        else
          (.node (delRotate (.node (.node T1 xv xp xq T2) v p (some yv)
              (U2.withPar (some v)))).1 yv yp q U3,
            .leftR :: (delRotate (.node (.node T1 xv xp xq T2) v p
              (some yv) (U2.withPar (some v)))).2))) ∧
    (∀ (T1 T2 U2 U3 : Treap) (xv v yv : Key) (xp p : Nat)
      (xq q yq : Option Key),
      (delRotate (.node (.node T1 xv xp xq T2) v p q
        (.node U2 yv xp yq U3))).2.head? = some .leftR) ∧
    (∀ (l : Treap) (v : Key) (p : Nat) (q : Option Key) (r : Treap),
      (delRotate (.node l v p q r)).1.keys = l.keys ++ r.keys) := by
  refine ⟨?_, ?_, ?_, ?_, ?_, ?_⟩
  · intro v p q
    rw [delRotate]
  · intro T2 T3 v yv p yp q yq
    exact delRotate_onlyRight T2 T3 v yv p yp q yq
  · intro T1 T2 xv v xp p xq q
    exact delRotate_onlyLeft T1 T2 xv v xp p xq q
  · intro T1 T2 U2 U3 xv v yv xp p yp xq q yq
    exact (delRotate_both T1 T2 U2 U3 xv v yv xp p yp xq q yq).2.2
  · intro T1 T2 U2 U3 xv v yv xp p xq q yq
    rw [(delRotate_both T1 T2 U2 U3 xv v yv xp p xp xq q yq).2.2]
    simp
  · intro l v p q r
    exact delRotate_keys l v p q r

/-- C9: in every engine, `contains` and `delete` leave `rotations_insert`
untouched and `insert` and `contains` leave `rotations_delete` untouched;
an operation adds exactly the number of rotations it performed to its own
counter (so counters never decrease); `total_rotations` is the sum of the
two; `reset_metrics` (base.py:31-34) sets both to 0. -/
theorem claim_C9 (s1 : TreapS) (s2 : AVLS) (s3 : RBS) (v : Key)
    (p : Nat) :
    (s1.totalRotations = s1.rotIns + s1.rotDel ∧
     (treapInsert s1 v p).1.rotDel = s1.rotDel ∧
     (treapInsert s1 v p).1.rotIns
        = s1.rotIns + (treapInsert s1 v p).2.2.1 ∧
     (treapDelete s1 v).1.rotIns = s1.rotIns ∧
     (treapDelete s1 v).1.rotDel = s1.rotDel + (treapDelete s1 v).2.2 ∧
     treapStep s1 (.mem v) = s1 ∧
     (treapStep s1 .reset).rotIns = 0 ∧ (treapStep s1 .reset).rotDel = 0) ∧
    (s2.totalRotations = s2.rotIns + s2.rotDel ∧
     (avlInsert s2 v).1.rotDel = s2.rotDel ∧
     (avlInsert s2 v).1.rotIns = s2.rotIns + (avlInsert s2 v).2.2.1 ∧
     (avlDelete s2 v).1.rotIns = s2.rotIns ∧
     (avlDelete s2 v).1.rotDel = s2.rotDel + (avlDelete s2 v).2.2.1 ∧
     avlStep s2 (.mem v) = s2 ∧
     (avlStep s2 .reset).rotIns = 0 ∧ (avlStep s2 .reset).rotDel = 0) ∧
    (s3.totalRotations = s3.rotIns + s3.rotDel ∧
     (rbInsert s3 v).1.rotDel = s3.rotDel ∧
     (rbInsert s3 v).1.rotIns = s3.rotIns + (rbInsert s3 v).2.2.1 ∧
     (rbDelete s3 v).1.rotIns = s3.rotIns ∧
     (rbDelete s3 v).1.rotDel = s3.rotDel + (rbDelete s3 v).2.2.1 ∧
     rbStep s3 (.mem v) = s3 ∧
     (rbStep s3 .reset).rotIns = 0 ∧ (rbStep s3 .reset).rotDel = 0) :=
  ⟨⟨rfl, (treapInsert_counters s1 v p).1, (treapInsert_counters s1 v p).2,
    (treapDelete_counters s1 v).1, (treapDelete_counters s1 v).2,
    rfl, rfl, rfl⟩,
   ⟨rfl, (avlInsert_counters s2 v).1, (avlInsert_counters s2 v).2,
    (avlDelete_counters s2 v).1, (avlDelete_counters s2 v).2,
    rfl, rfl, rfl⟩,
   ⟨rfl, (rbInsert_counters s3 v).1, (rbInsert_counters s3 v).2,
    (rbDelete_counters s3 v).1, (rbDelete_counters s3 v).2,
    rfl, rfl, rfl⟩⟩

/-- C10: the degenerate guard branches of the rotation primitives are
never taken by the public operations.  Treap and AVL inserts and AVL
deletes report `false` guard flags from every state; each treap
rotate-down step fires a rotation primitive whose pivot really has the
needed child (its `rotated` flag is `true`); and on every
reachable Red-Black state, insert and delete report `false` guard flags
(the rotations against the sentinel never run). -/
theorem claim_C10 (s1 : TreapS) (s2 : AVLS) (s3 : RBS) (h3 : RBReach s3)
    (v : Key) (p : Nat) :
    (treapInsert s1 v p).2.2.2 = false ∧
    (∀ (T2 T3 : Treap) (w yv : Key) (wp yp : Nat) (q yq : Option Key),
      (trotLeft (.node .nil w wp q (.node T2 yv yp yq T3))).rotated
        = true) ∧
    (∀ (T1 T2 : Treap) (xv w : Key) (xp wp : Nat) (xq q : Option Key),
      (trotRight (.node (.node T1 xv xp xq T2) w wp q .nil)).rotated
        = true) ∧
    (∀ (T1 T2 U2 U3 : Treap) (xv w yv : Key) (xp wp yp : Nat)
      (xq q yq : Option Key),
      (trotRight (.node (.node T1 xv xp xq T2) w wp q
        (.node U2 yv yp yq U3))).rotated = true ∧
      (trotLeft (.node (.node T1 xv xp xq T2) w wp q
        (.node U2 yv yp yq U3))).rotated = true) ∧
    (avlInsert s2 v).2.2.2 = false ∧
    (avlDelete s2 v).2.2.2 = false ∧
    (rbInsert s3 v).2.2.2.guard = false ∧
    (rbDelete s3 v).2.2.2.guard = false := by
  obtain ⟨_, h2, hr⟩ := rbReach_inv s3 h3
  refine ⟨treapInsert_guard s1 v p, fun _ _ _ _ _ _ _ _ => rfl,
    fun _ _ _ _ _ _ _ _ => rfl, fun _ _ _ _ _ _ _ _ _ _ _ _ _ => ⟨rfl, rfl⟩,
    avlInsert_guard s2 v, avlDelete_guard s2 v, ?_, ?_⟩
  · rw [(rbInsert_valid s3 v h2 hr).2.2]
    rfl
  · rw [(rbDelete_valid s3 v h2 hr).2.2]
    rfl

/-- C10 witness: a concrete reachable Red-Black state and arbitrary other
states. -/
theorem claim_C10_witness :
    (treapInsert ⟨.nil, 0, 0⟩ "a" 7).2.2.2 = false ∧
    (∀ (T2 T3 : Treap) (w yv : Key) (wp yp : Nat) (q yq : Option Key),
      (trotLeft (.node .nil w wp q (.node T2 yv yp yq T3))).rotated
        = true) ∧
    (∀ (T1 T2 : Treap) (xv w : Key) (xp wp : Nat) (xq q : Option Key),
      (trotRight (.node (.node T1 xv xp xq T2) w wp q .nil)).rotated
        = true) ∧
    (∀ (T1 T2 U2 U3 : Treap) (xv w yv : Key) (xp wp yp : Nat)
      (xq q yq : Option Key),
      (trotRight (.node (.node T1 xv xp xq T2) w wp q
        (.node U2 yv yp yq U3))).rotated = true ∧
      (trotLeft (.node (.node T1 xv xp xq T2) w wp q
        (.node U2 yv yp yq U3))).rotated = true) ∧
    (avlInsert ⟨.nil, 0, 0, 0⟩ "a").2.2.2 = false ∧
    (avlDelete ⟨.nil, 0, 0, 0⟩ "a").2.2.2 = false ∧
    (rbInsert (rbRun [.ins "b", .ins "a", .ins "c"]) "d").2.2.2.guard
        = false ∧
    (rbDelete (rbRun [.ins "b", .ins "a", .ins "c"]) "b").2.2.2.guard
        = false := by
  have h := claim_C10 ⟨.nil, 0, 0⟩ ⟨.nil, 0, 0, 0⟩
    (rbRun [.ins "b", .ins "a", .ins "c"]) (rbReach_run _) "d" 7
  have h2 := claim_C10 ⟨.nil, 0, 0⟩ ⟨.nil, 0, 0, 0⟩
    (rbRun [.ins "b", .ins "a", .ins "c"]) (rbReach_run _) "b" 7
  exact ⟨rfl, h.2.1, h.2.2.1, h.2.2.2.1, h.2.2.2.2.1, rfl,
    h.2.2.2.2.2.2.1, h2.2.2.2.2.2.2.2⟩

end BSTBench
